import Mathlib

/-!
# A verification of the `merkle` Go library (fasmat/merkle)

This file gives a shallow embedding of the core of the `merkle` library —
the incremental Merkle-tree accumulator (`tree.go`: `Tree.Add`, `Tree.Root`,
`Tree.RootAndProof`), the proof validator (`validator.go`: `ValidateProof`,
`validator.calcRoot`, `validator.initParkingNodes`, `validator.parkingNodes`,
`validator.copyParkedNodes`) and the hash strategies (`hasher.go`: `Sha256`,
`ValueLeafs`, `SequentialWorkHasher`) — and proves properties of that
embedding.

Modelling conventions:
* A byte string (`[]byte`) is a `List Nat`.  A `nil` slice and an empty
  slice are identified except where the code distinguishes them, in which
  case an `Option` or an explicit flag models the `nil` case.
* Hash strategies are records of pure functions: the Go interfaces `Hasher`
  and `LeafHasher` carry no observable state (their internal `sync.Pool` is
  a pure optimisation), and `Hash` never mutates its inputs per its
  documented contract, so a pure function models a conforming implementation.
  The scratch-buffer first argument (`buf`) of `Hash` only recycles memory
  and never affects the returned value, so it is dropped.
* Go `uint64` counters and indices are modelled as `Nat`; none of the
  modelled operations (`>>`, `^1`, `&1`, increment on leaf counts) can
  overflow 64 bits for any sequence of calls a Go program can make,
  so no `% 2^64` reduction is inserted.
* Fallible functions return `Except MerkleError`; a Go `panic`
  (out-of-range slice index) is the distinguished outcome `.panic`.
-/

namespace Merkle

/-- Errors of the validator, `validator.go` lines 12-18, plus `.panic`
for a Go runtime panic (out-of-range index), which the validator can hit
on malformed input in `parkingNodes`. -/
inductive MerkleError where
  | ErrShortProof : MerkleError
  | ErrNoLeaves : MerkleError
  | panic : MerkleError
deriving DecidableEq, Repr

/-- `make([]byte, n)` followed by `copy(dst, src)`: the first `n` bytes of
`src`, zero-padded to length `n` (Go `copy` truncates at the shorter of the
two lengths and `make` zero-fills). -/
def copyMake (n : Nat) (src : List Nat) : List Nat :=
  src.take n ++ List.replicate (n - src.length) 0

/-- A node hasher (`hasher.go`, interface `Hasher`): combines two child
hashes into a parent hash of fixed size `size`. -/
structure Hasher where
  hash : List Nat → List Nat → List Nat
  size : Nat

/-- A leaf hasher (`hasher.go`, interface `LeafHasher`): derives a leaf
hash from the raw value and the parked (left-sibling) nodes.

The `sequential` field is `LeafHasher.Sequential`.  Modelled from the spec:
the declaration of `Sequential()` is not among the provided source files
(only its call sites in `validator.go` are); per the spec the
value-passthrough hasher "declares itself not sequential" and the
sequential-work hasher "declares itself sequential". -/
structure LeafHasher where
  hash : List Nat → List (List Nat) → List Nat
  size : Nat
  sequential : Bool

/-- The node hasher of the tests (`tree_test.go`, `concatHasher`): `Size`
is 1 and `Hash` concatenates the two children. -/
def concatHasher : Hasher :=
  { hash := fun lChild rChild => lChild ++ rChild
    size := 1 }

/-- `ValueLeafs` (`hasher.go`): the default leaf hasher; the leaf hash is
the raw value, the parked nodes are ignored. -/
def ValueLeafs (size : Nat) : LeafHasher :=
  { hash := fun data _ => data
    size := size
    sequential := false }

/-! ## The tree accumulator, `tree.go` -/

/-- One layer of the tree (`tree.go`, type `layer`): the node parked at
this height waiting for its right sibling (`nil` = `none`), and whether
that node lies on the proving path.  The `next` pointer is modelled by the
position in the `Tree.layers` list. -/
structure Layer where
  parking : Option (List Nat)
  onProvingPath : Bool
deriving DecidableEq, Repr

/-- The tree accumulator state (`tree.go`, type `Tree`).  The immutable
configuration fields `hasher`, `buf` and `padding` are passed to the
operations as parameters instead (`buf` is a scratch buffer with no
observable effect); `layers` is the `base`-rooted linked list of layers,
lowest first; `proofEnabled` models `t.leavesToProve != nil` (the builder
sets `leavesToProve` to a non-nil slice exactly when the set of leaves to
prove is non-empty, and popping elements never makes it nil again). -/
structure Tree where
  minHeight : Nat
  layers : List Layer
  currentLeaf : Nat
  leavesToProve : List Nat
  proofEnabled : Bool
  proof : List (List Nat)
deriving DecidableEq, Repr

/-- `Build` (`builder.go`): a fresh tree from a resolved configuration:
one empty base layer, leaf counter 0, the sorted indices to prove. -/
def Tree.build (minHeight : Nat) (leavesToProve : List Nat) : Tree :=
  { minHeight := minHeight
    layers := [⟨none, false⟩]
    currentLeaf := 0
    leavesToProve := leavesToProve
    proofEnabled := leavesToProve ≠ []
    proof := [] }

/-- The layer walk of `Tree.Add` (`tree.go` lines 47-89): walk up from the
base layer carrying the current node and its proving-path flag; park at the
first layer with an empty slot; at an occupied slot emit a proof element
when exactly one of the two children is on the proving path, merge, and
continue with the parent (creating a new layer past the end as the Go code
does with `curLayer.next = &layer{}`).  Returns the new layer list and the
proof elements emitted, in emission order. -/
def addLoop (H : Hasher) (curNode : List Nat) (onProvingPath : Bool) :
    List Layer → List Layer × List (List Nat)
  | [] => ([⟨some curNode, onProvingPath⟩], [])
  | l :: rest =>
    match l.parking with
    | none => (⟨some curNode, onProvingPath⟩ :: rest, [])
    | some parked =>
      let emitted : List (List Nat) :=
        if l.onProvingPath && !onProvingPath then [curNode]
        else if !l.onProvingPath && onProvingPath then [parked]
        else []
      let step := addLoop H (H.hash parked curNode) (l.onProvingPath || onProvingPath) rest
      (⟨none, false⟩ :: step.1, emitted ++ step.2)

/-- `Tree.Add` (`tree.go` lines 36-90): mark the leaf if it is the next
index to prove, bump the leaf counter, and run the carry loop over the
layers, appending any emitted proof elements to the stored proof. -/
def Tree.Add (H : Hasher) (t : Tree) (value : List Nat) : Tree :=
  let popped :=
    match t.leavesToProve with
    | i :: rest => if t.currentLeaf = i then (true, rest) else (false, i :: rest)
    | [] => (false, ([] : List Nat))
  let step := addLoop H value popped.1 t.layers
  { t with
    layers := step.1
    leavesToProve := popped.2
    currentLeaf := t.currentLeaf + 1
    proof := t.proof ++ step.2 }

/-- Add a list of leaves in order (repeated `Tree.Add`). -/
def Tree.addAll (H : Hasher) (t : Tree) (vs : List (List Nat)) : Tree :=
  vs.foldl (fun t v => t.Add H v) t

/-- The layer walk of `Tree.RootAndProof` (`tree.go` lines 113-150): walk
the layers bottom to top with a running root (`none` = the Go `nil` slice)
and an accumulated on-proving-path flag.  If the last layer holds a parked
node and no running root exists, that node is the root (balanced tree).
Otherwise emit a proof element when exactly one of running root / layer is
on the proving path (sized and zero-padded via `make`/`copy`), then
combine parked node (left) and running root (right), substituting
`padding` for a missing side.  Returns the final running root and the
emitted proof elements in order. -/
def rootAndProofLoop (H : Hasher) (padding : List Nat) :
    List Layer → Option (List Nat) → Bool → Option (List Nat) × List (List Nat)
  | [], root, _ => (root, [])
  | l :: rest, root, onProvingPath =>
    if l.parking.isSome ∧ root = none ∧ rest = [] then
      (l.parking, [])
    else
      let emitted : List (List Nat) :=
        if l.onProvingPath && !onProvingPath then
          [copyMake H.size (root.getD [])]
        else if onProvingPath && !l.onProvingPath then
          [copyMake H.size (l.parking.getD [])]
        else []
      let onProvingPath' := l.onProvingPath || onProvingPath
      let root' : Option (List Nat) :=
        match l.parking, root with
        | some parked, some r => some (H.hash parked r)
        | some parked, none => some (H.hash parked padding)
        | none, some r => some (H.hash r padding)
        | none, none => none
      let step := rootAndProofLoop H padding rest root' onProvingPath'
      (step.1, emitted ++ step.2)

/-- The `minHeight` padding loop of `Tree.RootAndProof` (`tree.go` lines
151-155), root part: hash the root with the padding value `k` times. -/
def hashPad (H : Hasher) (padding : List Nat) : Nat → List Nat → List Nat
  | 0, root => root
  | k + 1, root => hashPad H padding k (H.hash root padding)

/-- `Tree.RootAndProof` (`tree.go` lines 99-157), state-threaded: the Go
method reads the tree and writes only local variables and fresh buffers,
so the faithful state-threaded embedding returns the tree state unchanged
as the second component.  The proof starts as a (deep) copy of the stored
proof when proof bookkeeping is enabled (`t.leavesToProve != nil`),
accumulates the finalization emissions, and gains one padding element per
missing level up to `minHeight` while the root is hashed with padding
(the `height` reached by the Go loop is always `len(t.layers)`: the
balanced-tree `break` can only fire in the final iteration). -/
def Tree.RootAndProofS (H : Hasher) (padding : List Nat) (t : Tree) :
    (List Nat × List (List Nat)) × Tree :=
  let proof0 := if t.proofEnabled then t.proof else []
  let step := rootAndProofLoop H padding t.layers none false
  let padCount := t.minHeight - t.layers.length
  let root := hashPad H padding padCount (step.1.getD [])
  let proof := proof0 ++ step.2 ++ List.replicate padCount padding
  ((root, proof), t)

/-- `Tree.RootAndProof`: the returned pair of `Tree.RootAndProofS`. -/
def Tree.RootAndProof (H : Hasher) (padding : List Nat) (t : Tree) :
    List Nat × List (List Nat) :=
  (t.RootAndProofS H padding).1

/-- `Tree.Root` (`tree.go` lines 93-96): the root of `RootAndProof`. -/
def Tree.Root (H : Hasher) (padding : List Nat) (t : Tree) : List Nat :=
  (t.RootAndProof H padding).1

/-! ## The proof validator, `validator.go` -/

/-- Go map read `m[k]` for `map[uint64][]byte` on an entry list: the value
of the first entry with key `k`, or the zero value `nil` (= `[]`). -/
def lookupBytes (m : List (Nat × List Nat)) (k : Nat) : List Nat :=
  match m.find? (fun e => e.1 = k) with
  | some e => e.2
  | none => []

/-- Go map read for `map[uint64][][]byte` (the validator's
`parkedNodes`): first entry with the key, or the zero value `nil`. -/
def lookupParked (m : List (Nat × List (List Nat))) (k : Nat) :
    List (List Nat) :=
  match m.find? (fun e => e.1 = k) with
  | some e => e.2
  | none => []

/-- Go map write `m[k] = v` on an entry list: replace the value of the
first entry with key `k` (all reachable writes hit existing keys; a write
to an absent key would in Go follow a panic on the nil entry slice). -/
def updateParked (m : List (Nat × List (List Nat))) (k : Nat)
    (v : List (List Nat)) : List (Nat × List (List Nat)) :=
  match m with
  | [] => []
  | e :: rest =>
    if e.1 = k then (k, v) :: rest else e :: updateParked rest k v

/-- Write position `i` of a slice of byte slices (`s[i] = v`); an
out-of-range write is dropped (in Go it would panic; every reachable call
is in range because all parked-node slices of one validator share the
length `treeHeight`). -/
def setAt (s : List (List Nat)) (i : Nat) (v : List Nat) :
    List (List Nat) :=
  s.set i v

/-- The mutable state of a `validator` (`validator.go`, type `validator`):
the leaves map (as its entry list), the remaining sorted indices, the
per-index parked-node slices (sequential mode only) and the remaining
proof.  The immutable `hasher`/`leafHasher` fields are parameters of the
operations. -/
structure VState where
  leaves : List (Nat × List Nat)
  indices : List Nat
  parkedNodes : List (Nat × List (List Nat))
  proof : List (List Nat)
deriving DecidableEq, Repr

/-- `validator.copyParkedNodes` (`validator.go` lines 234-247): in
sequential mode, seed the parked nodes of the next index: position
`height` becomes the current node, positions above `height` (up to the
current chain's length) are copied from the current chain. -/
def copyParkedNodes (lh : LeafHasher) (height : Nat) (curNode : List Nat)
    (curParkedNodes : List (List Nat)) (st : VState) : VState :=
  if !lh.sequential then st
  else
    match st.indices with
    | [] => st
    | j :: _ =>
      let old := lookupParked st.parkedNodes j
      let upd := setAt old height curNode
      let upd := (List.range curParkedNodes.length).foldl
        (fun acc i =>
          if height + 1 ≤ i then setAt acc i (curParkedNodes.getD i []) else acc)
        upd
      { st with parkedNodes := updateParked st.parkedNodes j upd }

/-- The first four lines of `validator.calcRoot` (`validator.go` lines
182-185): pop the first index, look up its parked chain, and compute its
leaf hash from the leaves map.  Returns the leaf node, the chain, and the
state with the index consumed. -/
def leafStep (lh : LeafHasher) (i : Nat) (rest : List Nat) (st : VState) :
    List Nat × List (List Nat) × VState :=
  let curParkedNodes := lookupParked st.parkedNodes i
  (lh.hash (lookupBytes st.leaves i) curParkedNodes, curParkedNodes,
    { st with indices := rest })

/-- The loop of `validator.calcRoot` (`validator.go` lines 190-229),
together with the recursive sibling-subtree call inlined (Go's
`v.calcRoot(height, siblingBuf)` is `leafStep` followed by this loop with
`fuel = height` starting at height 0).  `fuel` is the number of loop
iterations left (`maxHeight - height` for the Go loop
`for height := range maxHeight`).  Each iteration:
* if both the proof and the indices are exhausted, succeed with the
  current node when its index reached the root position 0, otherwise the
  proof is too short;
* else if the next index's ancestor at this height is the current node's
  sibling, seed its parked nodes, compute the sibling subtree with the
  same state (bounded to this height), and combine with the current node
  as the left child;
* otherwise consume one proof element as the sibling, on the side given by
  the current index's parity. -/
def calcLoop (H : Hasher) (lh : LeafHasher) :
    (fuel height curIndex : Nat) → (curNode : List Nat) →
    (curParkedNodes : List (List Nat)) → VState →
    Except MerkleError (List Nat × VState)
  | 0, _, _, curNode, _, st => .ok (curNode, st)
  | fuel + 1, height, curIndex, curNode, curParkedNodes, st =>
    if st.proof = [] ∧ st.indices = [] then
      if curIndex ≠ 0 then .error .ErrShortProof else .ok (curNode, st)
    else
      match st.indices with
      | i2 :: _ =>
        if i2 >>> height = curIndex ^^^ 1 then
          let st1 := copyParkedNodes lh height curNode curParkedNodes st
          match st1.indices with
          | [] => .error .panic
          | i2' :: restIdx' =>
            let s := leafStep lh i2' restIdx' st1
            match calcLoop H lh height 0 i2' s.1 s.2.1 s.2.2 with
            | .error e => .error e
            | .ok (sibling, st3) =>
              calcLoop H lh fuel (height + 1) (curIndex >>> 1)
                (H.hash curNode sibling) curParkedNodes st3
        else
          match st.proof with
          | [] => .error .ErrShortProof
          | p :: restP =>
            let lr := if curIndex % 2 = 0 then (curNode, p) else (p, curNode)
            calcLoop H lh fuel (height + 1) (curIndex >>> 1)
              (H.hash lr.1 lr.2) curParkedNodes { st with proof := restP }
      | [] =>
        match st.proof with
        | [] => .error .ErrShortProof
        | p :: restP =>
          let lr := if curIndex % 2 = 0 then (curNode, p) else (p, curNode)
          calcLoop H lh fuel (height + 1) (curIndex >>> 1)
            (H.hash lr.1 lr.2) curParkedNodes { st with proof := restP }
termination_by fuel height _ _ _ _ => (height + fuel, fuel)
decreasing_by
  all_goals (rw [Prod.lex_iff]; omega)

/-- `validator.calcRoot` (`validator.go` lines 181-230): pop the first
index, hash its leaf, and run the climb loop with `maxHeight` iterations
available.  Called with an empty index list it models the Go panic on
`v.indices[0]`. -/
def calcRoot (H : Hasher) (lh : LeafHasher) (maxHeight : Nat) (st : VState) :
    Except MerkleError (List Nat × VState) :=
  match st.indices with
  | [] => .error .panic
  | i :: rest =>
    let s := leafStep lh i rest st
    calcLoop H lh maxHeight 0 i s.1 s.2.1 s.2.2

/-- Go `bits.Len64`: the number of bits of `n` (0 for 0), computed with a
structural fuel so that the kernel can evaluate it. -/
def bitsLenAux : Nat → Nat → Nat
  | 0, _ => 0
  | fuel + 1, n => if n = 0 then 0 else bitsLenAux fuel (n / 2) + 1

/-- Go `bits.Len64`. -/
def bitsLen (n : Nat) : Nat := bitsLenAux n n

/-- The loop of `validator.parkingNodes` (`validator.go` lines 134-173),
with the recursive sub-call inlined (a frame entry binds the written map
key to the first index and pops it).  Per iteration, on the current
subtree index's parity:
* even with the next unconsumed index in the sibling subtree: truncate the
  parked entry at this height and recurse into the sibling subtree with
  the index and proof tails;
* even otherwise: truncate the parked entry at this height and skip one
  proof position;
* odd: the proof at the current position is the left sibling; park it
  (short-proof if the position is past the full stored proof; the Go code
  then indexes the local proof slice, which panics if that is shorter).
`fullLen` is `len(v.proof)` (the validator's whole stored proof, which
`parkingNodes` checks against even in recursive calls on proof tails).
Returns the updated parked map, the consumed proof positions, the
consumed sibling count, and the error if any (Go returns
`(proofIdx, siblingIdx, err)`). -/
def parkingNodesLoop (fullLen : Nat) :
    (fuel height key curIndex proofIdx siblingIdx : Nat) →
    (indices : List Nat) → (proof : List (List Nat)) →
    (parked : List (Nat × List (List Nat))) →
    List (Nat × List (List Nat)) × Nat × Nat × Option MerkleError
  | 0, _, _, _, proofIdx, siblingIdx, _, _, parked =>
    (parked, proofIdx, siblingIdx, none)
  | fuel + 1, height, key, curIndex, proofIdx, siblingIdx, indices, proof, parked =>
    if curIndex % 2 = 0 ∧ siblingIdx < indices.length ∧
        (indices.getD siblingIdx 0) >>> height = curIndex ^^^ 1 then
      let parked1 := updateParked parked key (setAt (lookupParked parked key) height [])
      match indices.drop siblingIdx with
      | [] => (parked1, proofIdx, siblingIdx, some .panic)
      | key2 :: rest2 =>
        let n := parkingNodesLoop fullLen height 0 key2 key2 0 0 rest2
          (proof.drop proofIdx) parked1
        match n.2.2.2 with
        | some e => (n.1, proofIdx, siblingIdx, some e)
        | none =>
          parkingNodesLoop fullLen fuel (height + 1) key (curIndex >>> 1)
            (proofIdx + n.2.1) (siblingIdx + 1 + n.2.2.1) indices proof n.1
    else if curIndex % 2 = 0 then
      parkingNodesLoop fullLen fuel (height + 1) key (curIndex >>> 1)
        (proofIdx + 1) siblingIdx indices proof
        (updateParked parked key (setAt (lookupParked parked key) height []))
    else
      if fullLen ≤ proofIdx then (parked, proofIdx, siblingIdx, some .ErrShortProof)
      else if proof.length ≤ proofIdx then (parked, proofIdx, siblingIdx, some .panic)
      else
        parkingNodesLoop fullLen fuel (height + 1) key (curIndex >>> 1)
          (proofIdx + 1) siblingIdx indices proof
          (updateParked parked key (setAt (lookupParked parked key) height (proof.getD proofIdx [])))
termination_by fuel height _ _ _ _ _ _ _ => (height + fuel, fuel)
decreasing_by
  all_goals (rw [Prod.lex_iff]; omega)

/-- `validator.parkingNodes` (`validator.go` lines 134-173): bind the map
key, pop the first index, and run the loop for `maxHeight` iterations. -/
def parkingNodes (fullLen maxHeight : Nat) (indices : List Nat)
    (proof : List (List Nat)) (parked : List (Nat × List (List Nat))) :
    List (Nat × List (List Nat)) × Nat × Nat × Option MerkleError :=
  match indices with
  | [] => (parked, 0, 0, some .panic)
  | key :: rest => parkingNodesLoop fullLen maxHeight 0 key key 0 0 rest proof parked

/-- `validator.initParkingNodes` (`validator.go` lines 105-131): nothing
to do for a non-sequential leaf hasher; otherwise preallocate, for every
index, a parked-node slice of length `bits.Len64(max index)` filled with
empty nodes, and fill them from the proof via `parkingNodes`. -/
def initParkingNodes (lh : LeafHasher) (st : VState) :
    VState × Option MerkleError :=
  if !lh.sequential then (st, none)
  else
    match st.indices.getLast? with
    | none => (st, some .panic)
    | some last =>
      let treeHeight := bitsLen last
      let parked0 := st.indices.map (fun i => (i, List.replicate treeHeight ([] : List Nat)))
      let r := parkingNodes st.proof.length treeHeight st.indices st.proof parked0
      ({ st with parkedNodes := r.1 }, r.2.2.2)

/-- Go `math.MaxUint64`, the `maxHeight` of the top-level `calcRoot` call. -/
def MaxUint64 : Nat := 2 ^ 64 - 1

/-- `slices.Collect(maps.Keys(leaves))` followed by `slices.Sort`: the
keys of the map, sorted ascending (modelled with insertion sort, which
computes the same ascending ordering). -/
def sortedKeys (leaves : List (Nat × List Nat)) : List Nat :=
  List.insertionSort (· ≤ ·) (leaves.map Prod.fst)

/-- `ValidateProof` (`validator.go` lines 62-93).  The functional options
are resolved to the node hasher `H` and leaf hasher `lh` (defaults
`Sha256()` and `ValueLeafs` when no options are given).  Empty leaves map:
`ErrNoLeaves`; then the parked nodes are initialised (sequential mode) and
`calcRoot` runs with `maxHeight = math.MaxUint64`; its error is returned,
otherwise the result is the byte equality of the expected root and the
calculated root. -/
def ValidateProof (H : Hasher) (lh : LeafHasher) (root : List Nat)
    (leaves : List (Nat × List Nat)) (proof : List (List Nat)) :
    Except MerkleError Bool :=
  if leaves.length = 0 then .error .ErrNoLeaves
  else
    let st0 : VState :=
      { leaves := leaves, indices := sortedKeys leaves, parkedNodes := [], proof := proof }
    let init := initParkingNodes lh st0
    match init.2 with
    | some e => .error e
    | none =>
      match calcRoot H lh MaxUint64 init.1 with
      | .error e => .error e
      | .ok r => .ok (decide (root = r.1))

/-! ### Executable twin of `calcLoop`

`calcLoop` recurses on Go's `maxHeight` bound (well-founded, not
structural), which the kernel cannot unfold, so concrete runs are
evaluated through `calcLoopE`, a structurally recursive twin with a gas
parameter that decreases on every call, together with the agreement
theorem `calcLoopE_agrees`. -/

/-- Gas-fuelled twin of `calcLoop`: same body, every recursive call at
one unit less gas; `none` when the gas runs out. -/
def calcLoopE (H : Hasher) (lh : LeafHasher) :
    (gas : Nat) → (fuel height curIndex : Nat) → (curNode : List Nat) →
    (curParkedNodes : List (List Nat)) → VState →
    Option (Except MerkleError (List Nat × VState))
  | 0, _, _, _, _, _, _ => none
  | _ + 1, 0, _, _, curNode, _, st => some (.ok (curNode, st))
  | gas + 1, fuel + 1, height, curIndex, curNode, curParkedNodes, st =>
    if st.proof = [] ∧ st.indices = [] then
      if curIndex ≠ 0 then some (.error .ErrShortProof) else some (.ok (curNode, st))
    else
      match st.indices with
      | i2 :: _ =>
        if i2 >>> height = curIndex ^^^ 1 then
          let st1 := copyParkedNodes lh height curNode curParkedNodes st
          match st1.indices with
          | [] => some (.error .panic)
          | i2' :: restIdx' =>
            let s := leafStep lh i2' restIdx' st1
            match calcLoopE H lh gas height 0 i2' s.1 s.2.1 s.2.2 with
            | none => none
            | some (.error e) => some (.error e)
            | some (.ok (sibling, st3)) =>
              calcLoopE H lh gas fuel (height + 1) (curIndex >>> 1)
                (H.hash curNode sibling) curParkedNodes st3
        else
          match st.proof with
          | [] => some (.error .ErrShortProof)
          | p :: restP =>
            let lr := if curIndex % 2 = 0 then (curNode, p) else (p, curNode)
            calcLoopE H lh gas fuel (height + 1) (curIndex >>> 1)
              (H.hash lr.1 lr.2) curParkedNodes { st with proof := restP }
      | [] =>
        match st.proof with
        | [] => some (.error .ErrShortProof)
        | p :: restP =>
          let lr := if curIndex % 2 = 0 then (curNode, p) else (p, curNode)
          calcLoopE H lh gas fuel (height + 1) (curIndex >>> 1)
            (H.hash lr.1 lr.2) curParkedNodes { st with proof := restP }

/-- Gas-fuelled twin of `ValidateProof`, used to evaluate concrete runs. -/
def ValidateProofE (gas : Nat) (H : Hasher) (lh : LeafHasher) (root : List Nat)
    (leaves : List (Nat × List Nat)) (proof : List (List Nat)) :
    Option (Except MerkleError Bool) :=
  if leaves.length = 0 then some (.error .ErrNoLeaves)
  else
    let st0 : VState :=
      { leaves := leaves, indices := sortedKeys leaves, parkedNodes := [], proof := proof }
    let init := initParkingNodes lh st0
    match init.2 with
    | some e => some (.error e)
    | none =>
      match init.1.indices with
      | [] => some (.error .panic)
      | i :: rest =>
        let s := leafStep lh i rest init.1
        match calcLoopE H lh gas MaxUint64 0 i s.1 s.2.1 s.2.2 with
        | none => none
        | some (.error e) => some (.error e)
        | some (.ok r) => some (.ok (decide (root = r.1)))


/-! ## SHA-256, `crypto/sha256`

The Go standard-library hash used by `Sha256()` and
`SequentialWorkHasher()`, implemented executably on byte lists (each byte
a `Nat < 256`; inputs are reduced `% 256` when packed, which is the
identity on actual bytes). -/

/-- Truncate to a 32-bit word. -/
def w32 (n : Nat) : Nat := n % 4294967296

/-- 32-bit addition. -/
def add32 (a b : Nat) : Nat := w32 (a + b)

/-- 32-bit rotate right. -/
def rotr32 (k n : Nat) : Nat := w32 ((n >>> k) ||| (n <<< (32 - k)))

/-- 32-bit bitwise complement. -/
def not32 (n : Nat) : Nat := 4294967295 ^^^ n

/-- The SHA-256 round constants (fractional parts of the cube roots of
the first 64 primes, as 32-bit words, here in decimal). -/
def shaK : List Nat :=
  [1116352408, 1899447441, 3049323471, 3921009573, 961987163,
   1508970993, 2453635748, 2870763221, 3624381080, 310598401,
   607225278, 1426881987, 1925078388, 2162078206, 2614888103,
   3248222580, 3835390401, 4022224774, 264347078, 604807628,
   770255983, 1249150122, 1555081692, 1996064986, 2554220882,
   2821834349, 2952996808, 3210313671, 3336571891, 3584528711,
   113926993, 338241895, 666307205, 773529912, 1294757372,
   1396182291, 1695183700, 1986661051, 2177026350, 2456956037,
   2730485921, 2820302411, 3259730800, 3345764771, 3516065817,
   3600352804, 4094571909, 275423344, 430227734, 506948616,
   659060556, 883997877, 958139571, 1322822218, 1537002063,
   1747873779, 1955562222, 2024104815, 2227730452, 2361852424,
   2428436474, 2756734187, 3204031479, 3329325298]

/-- The SHA-256 initial hash state (fractional parts of the square roots
of the first 8 primes, as 32-bit words, here in decimal). -/
def shaInit : List Nat :=
  [1779033703, 3144134277, 1013904242, 2773480762,
   1359893119, 2600822924, 528734635, 1541459225]

/-- Big-endian bytes of a number, fixed width. -/
def beBytes : Nat → Nat → List Nat
  | 0, _ => []
  | k + 1, n => beBytes k (n / 256) ++ [n % 256]

/-- Pack 4 bytes big-endian into a 32-bit word. -/
def packWords : List Nat → List Nat
  | b0 :: b1 :: b2 :: b3 :: rest =>
    (((b0 % 256) * 16777216 + (b1 % 256) * 65536 + (b2 % 256) * 256 + b3 % 256)) :: packWords rest
  | _ => []

/-- SHA-256 message padding: append `0x80`, zeros, and the 64-bit
big-endian bit length, to a multiple of 64 bytes. -/
def shaPad (msg : List Nat) : List Nat :=
  let padZeros := (119 - msg.length % 64) % 64
  msg ++ 128 :: List.replicate padZeros 0 ++ beBytes 8 (msg.length * 8)

/-- The SHA-256 message-schedule extension step: `fuel` more words. -/
def shaExtend : Nat → List Nat → List Nat
  | 0, w => w
  | fuel + 1, w =>
    let g := fun i => w.getD (w.length - i) 0
    let s0 := (rotr32 7 (g 15)) ^^^ (rotr32 18 (g 15)) ^^^ ((g 15) >>> 3)
    let s1 := (rotr32 17 (g 2)) ^^^ (rotr32 19 (g 2)) ^^^ ((g 2) >>> 10)
    shaExtend fuel (w ++ [add32 (add32 (g 16) s0) (add32 (g 7) s1)])

/-- One SHA-256 compression round. -/
def shaRound (st : List Nat) (kw : Nat) : List Nat :=
  match st with
  | [a, b, c, d, e, f, g, h] =>
    let s1 := (rotr32 6 e) ^^^ (rotr32 11 e) ^^^ (rotr32 25 e)
    let ch := (e &&& f) ^^^ ((not32 e) &&& g)
    let t1 := add32 (add32 h s1) (add32 ch kw)
    let s0 := (rotr32 2 a) ^^^ (rotr32 13 a) ^^^ (rotr32 22 a)
    let mj := (a &&& b) ^^^ (a &&& c) ^^^ (b &&& c)
    let t2 := add32 s0 mj
    [add32 t1 t2, a, b, c, add32 d t1, e, f, g]
  | st => st

/-- Compress one 64-byte block into the running state. -/
def shaBlock (st : List Nat) (block : List Nat) : List Nat :=
  let w := shaExtend 48 (packWords block)
  let out := (List.zipWith add32 shaK w).foldl shaRound st
  List.zipWith add32 st out

/-- Split into 64-byte blocks and compress each. -/
def shaBlocks : Nat → List Nat → List Nat → List Nat
  | 0, st, _ => st
  | fuel + 1, st, msg =>
    match msg with
    | [] => st
    | _ => shaBlocks fuel (shaBlock st (msg.take 64)) (msg.drop 64)

/-- SHA-256 of a byte list. -/
def sha256 (msg : List Nat) : List Nat :=
  let padded := shaPad msg
  ((shaBlocks (padded.length / 64) shaInit padded).map (beBytes 4)).flatten

/-- `Sha256()` (`hasher.go`): the default node hasher; `Hash` writes the
left child then the right child into a SHA-256 context, i.e. hashes their
concatenation; `Size` is 32. -/
def Sha256 : Hasher :=
  { hash := fun lChild rChild => sha256 (lChild ++ rChild)
    size := 32 }

/-- `SequentialWorkHasher()` (`hasher.go`): the sequential-work leaf
hasher; `Hash` writes the data and then each parked node in slice order
into a SHA-256 context, i.e. hashes their concatenation; `Size` is 32;
it declares itself sequential (see `LeafHasher.sequential`). -/
def SequentialWorkHasher : LeafHasher :=
  { hash := fun data parkingNodes => sha256 (parkingNodes.foldl (fun acc p => acc ++ p) data)
    size := 32
    sequential := true }

end Merkle

/-! ## Claim theorems and supporting lemmas -/

namespace Merkle

/-- Folding `++` over the parked nodes concatenates them in order. -/
theorem foldl_append_eq_flatten (data : List Nat) (ps : List (List Nat)) :
    ps.foldl (fun acc p => acc ++ p) data = data ++ ps.flatten := by
  induction ps generalizing data with
  | nil => simp
  | cons p ps ih => simp [List.foldl_cons, ih, List.append_assoc]

/-- C8: for every data value and every list of left-sibling digests, the
sequential-work leaf hasher returns the SHA-256 digest of the data
concatenated with every supplied sibling digest, in exactly the order the
siblings are given (the immediate left sibling first). -/
theorem sequentialWorkHashConcatenation (data : List Nat)
    (leftSiblings : List (List Nat)) :
    SequentialWorkHasher.hash data leftSiblings =
      sha256 (data ++ leftSiblings.flatten) := by
  simp [SequentialWorkHasher, foldl_append_eq_flatten]

/-- C2: at every merge of a parked left child (proving-path flag `L`) with
the incoming right child (flag `R`), during any `Add` at any height: if
`L` and not `R` a copy of the right child is appended to the proof, if `R`
and not `L` a copy of the parked left child is appended, otherwise nothing
is appended; the slot is cleared and the merged parent `hash(left, right)`
continues upward carrying flag `L || R`. -/
theorem addMergeEmissionRule (H : Hasher) (curNode parked : List Nat)
    (L R : Bool) (rest : List Layer) :
    addLoop H curNode R (⟨some parked, L⟩ :: rest) =
      (⟨none, false⟩ :: (addLoop H (H.hash parked curNode) (L || R) rest).1,
        (if L ∧ ¬R then [curNode] else if R ∧ ¬L then [parked] else []) ++
          (addLoop H (H.hash parked curNode) (L || R) rest).2) := by
  cases L <;> cases R <;> simp [addLoop]

/-- C9: `RootAndProof` is non-destructive: the state-threaded embedding
returns the accumulator state (parked nodes, proving-path flags, recorded
proof entries, leaf counter) unchanged, and calling it again on that state
returns the identical root and proof. -/
theorem rootAndProofNonDestructive (H : Hasher) (padding : List Nat) (t : Tree) :
    (t.RootAndProofS H padding).2 = t ∧
      Tree.RootAndProof H padding (t.RootAndProofS H padding).2 =
        t.RootAndProof H padding := by
  exact ⟨rfl, rfl⟩

/-- `Tree.Add` never reads or writes `minHeight`. -/
theorem Add_minHeight_comm (H : Hasher) (t : Tree) (v : List Nat) (k : Nat) :
    Tree.Add H { t with minHeight := k } v = { Tree.Add H t v with minHeight := k } := rfl

/-- `Tree.addAll` never reads or writes `minHeight`. -/
theorem addAll_minHeight_comm (H : Hasher) (vs : List (List Nat)) (t : Tree) (k : Nat) :
    Tree.addAll H { t with minHeight := k } vs = { Tree.addAll H t vs with minHeight := k } := by
  induction vs generalizing t with
  | nil => rfl
  | cons v vs ih => simp only [Tree.addAll, List.foldl_cons] at *; rw [Add_minHeight_comm, ih]

/-- C5: building with `minHeight = k` on a tree whose natural height `h`
(the number of accumulator layers, with at least one leaf added) is
smaller than `k` gives the same result as building without a minimum
height except that the root is hashed upward with exactly `k - h`
additional padding steps and exactly `k - h` all-zero padding elements are
appended to the generated proof. -/
theorem minHeightPadsRootAndProof (H : Hasher) (S : List Nat) (k : Nat)
    (vs : List (List Nat)) (hvs : vs ≠ [])
    (hk : (Tree.addAll H (Tree.build 0 S) vs).layers.length < k) :
    (Tree.addAll H (Tree.build k S) vs).RootAndProof H (List.replicate H.size 0) =
      (hashPad H (List.replicate H.size 0)
          (k - (Tree.addAll H (Tree.build 0 S) vs).layers.length)
          ((Tree.addAll H (Tree.build 0 S) vs).RootAndProof H (List.replicate H.size 0)).1,
        ((Tree.addAll H (Tree.build 0 S) vs).RootAndProof H (List.replicate H.size 0)).2 ++
          List.replicate (k - (Tree.addAll H (Tree.build 0 S) vs).layers.length)
            (List.replicate H.size 0)) := by
  have hb : Tree.build k S = { Tree.build 0 S with minHeight := k } := rfl
  have hm : (Tree.addAll H (Tree.build 0 S) vs).minHeight = 0 := by
    have : ∀ (ws : List (List Nat)) (t : Tree),
        (Tree.addAll H t ws).minHeight = t.minHeight := by
      intro ws
      induction ws with
      | nil => intro t; rfl
      | cons w ws ih => intro t; simpa [Tree.addAll, List.foldl_cons] using ih (Tree.Add H t w)
    exact this vs (Tree.build 0 S)
  rw [hb, addAll_minHeight_comm]
  simp [Tree.RootAndProof, Tree.RootAndProofS, hm, hashPad]

/-- Witness for `minHeightPadsRootAndProof`: 5 one-byte leaves with the
test hasher, proving leaf 3, built with `minHeight = 6`. -/
theorem minHeightPadsRootAndProof_witness :
    ([[0], [1], [2], [3], [4]] : List (List Nat)) ≠ [] ∧
    (Tree.addAll concatHasher (Tree.build 0 [3]) [[0], [1], [2], [3], [4]]).layers.length < 6 ∧
    (Tree.addAll concatHasher (Tree.build 6 [3]) [[0], [1], [2], [3], [4]]).RootAndProof
        concatHasher (List.replicate concatHasher.size 0) =
      (hashPad concatHasher (List.replicate concatHasher.size 0)
          (6 - (Tree.addAll concatHasher (Tree.build 0 [3]) [[0], [1], [2], [3], [4]]).layers.length)
          ((Tree.addAll concatHasher (Tree.build 0 [3]) [[0], [1], [2], [3], [4]]).RootAndProof
              concatHasher (List.replicate concatHasher.size 0)).1,
        ((Tree.addAll concatHasher (Tree.build 0 [3]) [[0], [1], [2], [3], [4]]).RootAndProof
            concatHasher (List.replicate concatHasher.size 0)).2 ++
          List.replicate
            (6 - (Tree.addAll concatHasher (Tree.build 0 [3]) [[0], [1], [2], [3], [4]]).layers.length)
            (List.replicate concatHasher.size 0)) :=
  ⟨by decide, by decide,
    minHeightPadsRootAndProof concatHasher [3] 6 [[0], [1], [2], [3], [4]] (by decide) (by decide)⟩

/-! ### The binary-counter invariant of `Add` -/

/-- Increment of a little-endian bit list (the carry chain of `Add`). -/
def bincr : List Bool → List Bool
  | [] => [true]
  | false :: bs => true :: bs
  | true :: bs => false :: bincr bs

/-- `Nat.bits` of a successor is the incremented bit list. -/
theorem bits_succ (n : Nat) : (n + 1).bits = bincr n.bits := by
  induction n using Nat.strong_induction_on with
  | _ n ih =>
    match n, Nat.even_or_odd n with
    | 0, _ => simp [bincr]
    | n + 1, .inl he =>
      obtain ⟨m, hm⟩ := he
      have hm' : n + 1 = 2 * m := by omega
      have hmz : m ≠ 0 := by omega
      rw [hm', Nat.bit0_bits m hmz]
      have : 2 * m + 1 = 2 * m + 1 := rfl
      rw [show 2 * m + 1 = 2 * m + 1 from rfl, Nat.bit1_bits]
      simp [bincr]
    | n + 1, .inr ho =>
      obtain ⟨m, hm⟩ := ho
      have hm' : n + 1 = 2 * m + 1 := by omega
      rw [hm', Nat.bit1_bits]
      have h2 : 2 * m + 1 + 1 = 2 * (m + 1) := by ring
      rw [h2, Nat.bit0_bits (m + 1) (by omega)]
      have ihm : (m + 1).bits = bincr m.bits := ih m (by omega)
      simp [bincr, ihm]

/-- The parking-occupancy bits of the layers. -/
def layerBits (layers : List Layer) : List Bool :=
  layers.map (fun l => l.parking.isSome)

/-- The carry loop of `Add` increments the parking-occupancy bit list. -/
theorem addLoop_layerBits (H : Hasher) (v : List Nat) (flag : Bool)
    (layers : List Layer) :
    layerBits (addLoop H v flag layers).1 = bincr (layerBits layers) := by
  induction layers generalizing v flag with
  | nil => simp [addLoop, layerBits, bincr]
  | cons l rest ih =>
    match hp : l.parking with
    | none =>
      simp [addLoop, hp, layerBits, bincr]
    | some parked =>
      have hrec := ih (H.hash parked v) (l.onProvingPath || flag)
      simp only [layerBits, List.map_cons] at hrec ⊢
      simp [addLoop, hp, hrec, bincr]

/-- The occupancy bits after `n` adds are the binary digits of `n`
(`[false]` for the freshly built tree). -/
theorem addAll_layerBits (H : Hasher) (vs : List (List Nat)) (t : Tree) (n : Nat)
    (ht : layerBits t.layers = if n = 0 then [false] else n.bits) :
    layerBits (Tree.addAll H t vs).layers =
      if n + vs.length = 0 then [false] else (n + vs.length).bits := by
  induction vs generalizing t n with
  | nil => simpa using ht
  | cons v vs ih =>
    simp only [Tree.addAll, List.foldl_cons]
    have hst : layerBits (Tree.Add H t v).layers =
        if n + 1 = 0 then [false] else (n + 1).bits := by
      have : layerBits (Tree.Add H t v).layers = bincr (layerBits t.layers) := by
        simp [Tree.Add, addLoop_layerBits]
      rw [this, ht]
      by_cases hn : n = 0
      · simp [hn, bincr]
      · simp [hn, bits_succ]
    have := ih (Tree.Add H t v) (n + 1) hst
    simpa [Tree.addAll, Nat.add_assoc, Nat.add_comm 1 vs.length] using this

/-- Reading a mapped list with the mapped default. -/
theorem getD_layerBits (layers : List Layer) (h : Nat) :
    ((layers.getD h ⟨none, false⟩).parking).isSome = (layerBits layers).getD h false := by
  induction layers generalizing h with
  | nil => simp [layerBits]
  | cons l rest ih =>
    cases h with
    | zero => simp [layerBits]
    | succ h => simpa [layerBits] using ih h

/-- `getD` with default `false` is `getI` on bit lists. -/
theorem getD_false_eq_getI (bs : List Bool) (h : Nat) :
    bs.getD h false = bs.getI h := by
  induction bs generalizing h with
  | nil => simp [List.getI]
  | cons b bs ih =>
    cases h with
    | zero => simp [List.getI]
    | succ h => simpa [List.getI_cons_succ] using ih h

/-- C7: the binary-counter invariant of `Add`: after any sequence of `n`
`Add` calls on a freshly built tree, the parking slot at height `h` holds
a pending node if and only if bit `h` of `n` is 1. -/
theorem parkingSlotsAreBinaryCounter (H : Hasher) (k : Nat) (S : List Nat)
    (vs : List (List Nat)) (h : Nat) :
    (((Tree.addAll H (Tree.build k S) vs).layers.getD h ⟨none, false⟩).parking).isSome =
      (vs.length).testBit h := by
  have hbits := addAll_layerBits H vs (Tree.build k S) 0 (by simp [Tree.build, layerBits])
  rw [getD_layerBits, hbits]
  by_cases hn : vs.length = 0
  · cases h <;> simp [hn]
  · simp only [Nat.zero_add, hn, ite_false]
    rw [getD_false_eq_getI, ← Nat.testBit_eq_inth]

end Merkle

namespace Merkle

theorem copyParkedNodes_indices (lh : LeafHasher) (h : Nat) (node : List Nat)
    (parked : List (List Nat)) (st : VState) :
    (copyParkedNodes lh h node parked st).indices = st.indices := by
  unfold copyParkedNodes
  cases hseq : lh.sequential
  · simp
  · cases hI : st.indices <;> simp_all

theorem copyParkedNodes_proof (lh : LeafHasher) (h : Nat) (node : List Nat)
    (parked : List (List Nat)) (st : VState) :
    (copyParkedNodes lh h node parked st).proof = st.proof := by
  unfold copyParkedNodes
  cases hseq : lh.sequential
  · simp
  · cases hI : st.indices <;> simp_all

theorem copyParkedNodes_leaves (lh : LeafHasher) (h : Nat) (node : List Nat)
    (parked : List (List Nat)) (st : VState) :
    (copyParkedNodes lh h node parked st).leaves = st.leaves := by
  unfold copyParkedNodes
  cases hseq : lh.sequential
  · simp
  · cases hI : st.indices <;> simp_all

theorem calcLoop_zero (H : Hasher) (lh : LeafHasher) (h i : Nat) (node : List Nat)
    (parked : List (List Nat)) (st : VState) :
    calcLoop H lh 0 h i node parked st = .ok (node, st) := by
  simp [calcLoop]

theorem calcLoop_exhausted (H : Hasher) (lh : LeafHasher) (f h i : Nat) (node : List Nat)
    (parked : List (List Nat)) (st : VState) (h1 : st.proof = []) (h2 : st.indices = []) :
    calcLoop H lh (f + 1) h i node parked st =
      if i ≠ 0 then .error .ErrShortProof else .ok (node, st) := by
  rw [calcLoop]
  simp [h1, h2]

theorem calcLoop_sibling (H : Hasher) (lh : LeafHasher) (f h i : Nat) (node : List Nat)
    (parked : List (List Nat)) (st : VState) (i2 : Nat) (rest : List Nat)
    (hidx : st.indices = i2 :: rest) (hsib : i2 >>> h = i ^^^ 1) :
    calcLoop H lh (f + 1) h i node parked st =
      match calcRoot H lh h (copyParkedNodes lh h node parked st) with
      | .error e => .error e
      | .ok (sibling, st3) =>
        calcLoop H lh f (h + 1) (i >>> 1) (H.hash node sibling) parked st3 := by
  have hci : (copyParkedNodes lh h node parked st).indices = i2 :: rest := by
    rw [copyParkedNodes_indices, hidx]
  rw [calcLoop]
  simp only [hidx, hsib, if_pos, ite_false, if_true, List.cons_ne_nil, and_false, ite_false,
    if_neg (by simp : ¬(st.proof = [] ∧ (i2 :: rest : List Nat) = []))]
  rw [calcRoot.eq_def]
  simp only [hci]

theorem calcLoop_pop (H : Hasher) (lh : LeafHasher) (f h i : Nat) (node : List Nat)
    (parked : List (List Nat)) (st : VState)
    (h0 : ¬(st.proof = [] ∧ st.indices = []))
    (hns : st.indices = [] ∨ ∃ i2 rest, st.indices = i2 :: rest ∧ i2 >>> h ≠ i ^^^ 1) :
    calcLoop H lh (f + 1) h i node parked st =
      match st.proof with
      | [] => .error .ErrShortProof
      | p :: restP =>
        calcLoop H lh f (h + 1) (i >>> 1)
          (H.hash (if i % 2 = 0 then node else p) (if i % 2 = 0 then p else node))
          parked { st with proof := restP } := by
  rw [calcLoop]
  rcases hns with hnil | ⟨i2, rest, hidx, hne⟩
  · cases hp : st.proof with
    | nil => simp_all
    | cons p restP =>
      simp only [hnil, hp, if_neg (by simp [hp] : ¬(st.proof = [] ∧ st.indices = []))]
      by_cases hpar : i % 2 = 0 <;> simp [hpar]
  · cases hp : st.proof with
    | nil =>
      simp [hidx, hp, hne]
    | cons p restP =>
      simp only [hidx, hp, hne, ite_false, if_neg h0]
      by_cases hpar : i % 2 = 0 <;> simp [hpar]

end Merkle

namespace Merkle

/-- Shape of a validator state: same indices, same proof length. -/
def ShapeRel (st st' : VState) : Prop :=
  st'.indices = st.indices ∧ st'.proof.length = st.proof.length

def resShapeRel : Except MerkleError (List Nat × VState) →
    Except MerkleError (List Nat × VState) → Prop
  | .error e, .error e' => e' = e
  | .ok r, .ok r' => ShapeRel r.2 r'.2
  | _, _ => False

theorem resShapeRel_error_left {e : MerkleError}
    {r : Except MerkleError (List Nat × VState)}
    (h : resShapeRel (.error e) r) : r = .error e := by
  cases r with
  | error e' => simp [resShapeRel] at h; simp [h]
  | ok r' => simp [resShapeRel] at h

theorem resShapeRel_ok_left {v : List Nat} {st1 : VState}
    {r : Except MerkleError (List Nat × VState)}
    (h : resShapeRel (.ok (v, st1)) r) :
    ∃ v' st1', r = .ok (v', st1') ∧ ShapeRel st1 st1' := by
  cases r with
  | error e' => simp [resShapeRel] at h
  | ok r' => exact ⟨r'.1, r'.2, rfl, h⟩

theorem leafStep_shape (lh : LeafHasher) (j : Nat) (tail : List Nat)
    (st st' : VState) (hrel : ShapeRel st st') (h1 : st.indices = j :: tail)
    (h1' : st'.indices = j :: tail) :
    ShapeRel (leafStep lh j tail st).2.2 (leafStep lh j tail st').2.2 := by
  exact ⟨rfl, hrel.2⟩

theorem calcLoop_shape (H : Hasher) (lh : LeafHasher)
    (f h i : Nat) (node : List Nat) (parked : List (List Nat)) (st : VState) :
    ∀ (node' : List Nat) (parked' : List (List Nat)) (st' : VState), ShapeRel st st' →
      resShapeRel (calcLoop H lh f h i node parked st)
        (calcLoop H lh f h i node' parked' st') := by
  induction f, h, i, node, parked, st using calcLoop.induct H lh with
  | case1 h i parked node st =>
    intro node' parked' st' hrel
    rw [calcLoop_zero, calcLoop_zero]
    exact hrel
  | case2 f h i node parked st hemp hne =>
    intro node' parked' st' hrel
    have hi' : st'.indices = [] := by rw [hrel.1, hemp.2]
    have hp' : st'.proof = [] := by
      have := hrel.2
      rw [hemp.1] at this
      exact List.length_eq_zero.mp this
    rw [calcLoop_exhausted _ _ _ _ _ _ _ _ hemp.1 hemp.2,
      calcLoop_exhausted _ _ _ _ _ _ _ _ hp' hi']
    simp [hne, resShapeRel]
  | case3 f h i node parked st hemp hne =>
    intro node' parked' st' hrel
    have hi' : st'.indices = [] := by rw [hrel.1, hemp.2]
    have hp' : st'.proof = [] := by
      have := hrel.2
      rw [hemp.1] at this
      exact List.length_eq_zero.mp this
    rw [calcLoop_exhausted _ _ _ _ _ _ _ _ hemp.1 hemp.2,
      calcLoop_exhausted _ _ _ _ _ _ _ _ hp' hi']
    simp [hne, resShapeRel]
    exact hrel
  | case4 f h i node parked st hguard i2 rest hidx hsib st1 hst1 =>
    exfalso
    have h1 : (copyParkedNodes lh h node parked st).indices = [] := hst1
    rw [copyParkedNodes_indices, hidx] at h1
    exact List.cons_ne_nil _ _ h1
  | case5 f h i node parked st hguard i2 rest hidx hsib st1 j tail hst1 s e hcalc ih =>
    intro node' parked' st' hrel
    have hidx' : st'.indices = i2 :: rest := by rw [hrel.1, hidx]
    have hst1b : (copyParkedNodes lh h node parked st).indices = j :: tail := hst1
    have hcalcb : calcLoop H lh h 0 j
        (leafStep lh j tail (copyParkedNodes lh h node parked st)).1
        (leafStep lh j tail (copyParkedNodes lh h node parked st)).2.1
        (leafStep lh j tail (copyParkedNodes lh h node parked st)).2.2 = .error e := hcalc
    rw [calcLoop_sibling _ _ _ _ _ _ _ _ i2 rest hidx hsib,
      calcLoop_sibling _ _ _ _ _ _ _ _ i2 rest hidx' hsib]
    have hst1' : (copyParkedNodes lh h node' parked' st').indices = j :: tail := by
      rw [copyParkedNodes_indices, hidx']
      rw [copyParkedNodes_indices, hidx] at hst1b
      exact hst1b
    have hst1c : (copyParkedNodes lh h node parked st).indices = j :: tail := by
      rw [copyParkedNodes_indices, hidx]
      rw [copyParkedNodes_indices, hidx'] at hst1'
      exact hst1'
    rw [calcRoot.eq_def, hst1c, calcRoot.eq_def]
    simp only [hst1']
    have hrelp : ShapeRel (leafStep lh j tail (copyParkedNodes lh h node parked st)).2.2
        (leafStep lh j tail (copyParkedNodes lh h node' parked' st')).2.2 := by
      refine ⟨rfl, ?_⟩
      simp [leafStep, copyParkedNodes_proof, hrel.2]
    have hres := ih (leafStep lh j tail (copyParkedNodes lh h node' parked' st')).1
      (leafStep lh j tail (copyParkedNodes lh h node' parked' st')).2.1
      (leafStep lh j tail (copyParkedNodes lh h node' parked' st')).2.2 hrelp
    rw [hcalcb] at hres
    rw [resShapeRel_error_left hres, hcalcb]
    simp [resShapeRel]
  | case6 f h i node parked st hguard i2 rest hidx hsib st1 j tail hst1 s sibling st3 hcalc ih1 ih2 =>
    intro node' parked' st' hrel
    have hidx' : st'.indices = i2 :: rest := by rw [hrel.1, hidx]
    have hst1b : (copyParkedNodes lh h node parked st).indices = j :: tail := hst1
    have hcalcb : calcLoop H lh h 0 j
        (leafStep lh j tail (copyParkedNodes lh h node parked st)).1
        (leafStep lh j tail (copyParkedNodes lh h node parked st)).2.1
        (leafStep lh j tail (copyParkedNodes lh h node parked st)).2.2 = .ok (sibling, st3) := hcalc
    rw [calcLoop_sibling _ _ _ _ _ _ _ _ i2 rest hidx hsib,
      calcLoop_sibling _ _ _ _ _ _ _ _ i2 rest hidx' hsib]
    have hst1' : (copyParkedNodes lh h node' parked' st').indices = j :: tail := by
      rw [copyParkedNodes_indices, hidx']
      rw [copyParkedNodes_indices, hidx] at hst1b
      exact hst1b
    have hst1c : (copyParkedNodes lh h node parked st).indices = j :: tail := by
      rw [copyParkedNodes_indices, hidx]
      rw [copyParkedNodes_indices, hidx'] at hst1'
      exact hst1'
    rw [calcRoot.eq_def, hst1c, calcRoot.eq_def]
    simp only [hst1']
    have hrelp : ShapeRel (leafStep lh j tail (copyParkedNodes lh h node parked st)).2.2
        (leafStep lh j tail (copyParkedNodes lh h node' parked' st')).2.2 := by
      refine ⟨rfl, ?_⟩
      simp [leafStep, copyParkedNodes_proof, hrel.2]
    have hres := ih1 (leafStep lh j tail (copyParkedNodes lh h node' parked' st')).1
      (leafStep lh j tail (copyParkedNodes lh h node' parked' st')).2.1
      (leafStep lh j tail (copyParkedNodes lh h node' parked' st')).2.2 hrelp
    rw [hcalcb] at hres
    obtain ⟨v', st3', hok', hrel3⟩ := resShapeRel_ok_left hres
    rw [hcalcb, hok']
    exact ih2 _ _ _ hrel3
  | case7 f h i node parked st hguard i2 rest hidx hne hp =>
    intro node' parked' st' hrel
    have hidx' : st'.indices = i2 :: rest := by rw [hrel.1, hidx]
    have hguard' : ¬(st'.proof = [] ∧ st'.indices = []) := by
      simp [hidx']
    have hp' : st'.proof = [] := by
      have := hrel.2
      rw [hp] at this
      exact List.length_eq_zero.mp this
    rw [calcLoop_pop _ _ _ _ _ _ _ _ hguard (Or.inr ⟨i2, rest, hidx, hne⟩),
      calcLoop_pop _ _ _ _ _ _ _ _ hguard' (Or.inr ⟨i2, rest, hidx', hne⟩)]
    simp [hp, hp', resShapeRel]
  | case8 f h i node parked st hguard i2 rest hidx hne p restP hp lr ih =>
    intro node' parked' st' hrel
    have hidx' : st'.indices = i2 :: rest := by rw [hrel.1, hidx]
    have hguard' : ¬(st'.proof = [] ∧ st'.indices = []) := by
      simp [hidx']
    cases hps : st'.proof with
    | nil =>
      exfalso
      have := hrel.2
      rw [hp, hps] at this
      simp at this
    | cons p' restP' =>
      have hlr : lr = if _h : i % 2 = 0 then (node, p) else (p, node) := rfl
      have hnode : H.hash lr.1 lr.2 =
          H.hash (if i % 2 = 0 then node else p) (if i % 2 = 0 then p else node) := by
        rw [hlr]; by_cases hpar : i % 2 = 0 <;> simp [hpar]
      rw [hnode] at ih
      rw [calcLoop_pop _ _ _ _ _ _ _ _ hguard (Or.inr ⟨i2, rest, hidx, hne⟩),
        calcLoop_pop _ _ _ _ _ _ _ _ hguard' (Or.inr ⟨i2, rest, hidx', hne⟩)]
      simp only [hp, hps]
      apply ih
      refine ⟨hrel.1, ?_⟩
      have := hrel.2
      rw [hp, hps] at this
      simpa using this
  | case9 f h i node parked st hguard hidx hp =>
    exact absurd ⟨hp, hidx⟩ hguard
  | case10 f h i node parked st hguard hidx p restP hp lr ih =>
    intro node' parked' st' hrel
    have hidx' : st'.indices = [] := by rw [hrel.1, hidx]
    have hguard' : ¬(st'.proof = [] ∧ st'.indices = []) := by
      intro hcon
      have := hrel.2
      rw [hp, hcon.1] at this
      simp at this
    cases hps : st'.proof with
    | nil =>
      exfalso
      have := hrel.2
      rw [hp, hps] at this
      simp at this
    | cons p' restP' =>
      have hlr : lr = if _h : i % 2 = 0 then (node, p) else (p, node) := rfl
      have hnode : H.hash lr.1 lr.2 =
          H.hash (if i % 2 = 0 then node else p) (if i % 2 = 0 then p else node) := by
        rw [hlr]; by_cases hpar : i % 2 = 0 <;> simp [hpar]
      rw [hnode] at ih
      rw [calcLoop_pop _ _ _ _ _ _ _ _ hguard (Or.inl hidx),
        calcLoop_pop _ _ _ _ _ _ _ _ hguard' (Or.inl hidx')]
      simp only [hp, hps]
      apply ih
      refine ⟨hrel.1, ?_⟩
      have := hrel.2
      rw [hp, hps] at this
      simpa using this

end Merkle

namespace Merkle

theorem parkingNodesLoop_shape (fullLen : Nat) (f h key i pIdx sIdx : Nat)
    (indices : List Nat) (proof : List (List Nat)) (parked : List (Nat × List (List Nat))) :
    ∀ (proof' : List (List Nat)) (parked' : List (Nat × List (List Nat))),
      proof'.length = proof.length →
      (parkingNodesLoop fullLen f h key i pIdx sIdx indices proof' parked').2.1 =
          (parkingNodesLoop fullLen f h key i pIdx sIdx indices proof parked).2.1 ∧
        (parkingNodesLoop fullLen f h key i pIdx sIdx indices proof' parked').2.2.1 =
          (parkingNodesLoop fullLen f h key i pIdx sIdx indices proof parked).2.2.1 ∧
        (parkingNodesLoop fullLen f h key i pIdx sIdx indices proof' parked').2.2.2 =
          (parkingNodesLoop fullLen f h key i pIdx sIdx indices proof parked).2.2.2 := by
  induction f, h, key, i, pIdx, sIdx, indices, proof, parked using parkingNodesLoop.induct fullLen with
  | case1 h key i indices proof pIdx sIdx parked =>
    intro proof' parked' hlen
    simp [parkingNodesLoop]
  | case2 f h key i pIdx sIdx indices proof parked hguard hdrop =>
    intro proof' parked' hlen
    rw [parkingNodesLoop, parkingNodesLoop, if_pos hguard, if_pos hguard]
    simp [hdrop]
  | case3 f h key i pIdx sIdx indices proof parked hguard parked1 j tail hdrop n e hsome ih =>
    intro proof' parked' hlen
    have hsomeb : (parkingNodesLoop fullLen h 0 j j 0 0 tail (List.drop pIdx proof)
        (updateParked parked key (setAt (lookupParked parked key) h []))).2.2.2 = some e := hsome
    rw [parkingNodesLoop, parkingNodesLoop]
    simp only [if_pos hguard, hdrop]
    have hlend : (List.drop pIdx proof').length = (List.drop pIdx proof).length := by
      simp [hlen]
    have hn := ih (List.drop pIdx proof')
      (updateParked parked' key (setAt (lookupParked parked' key) h [])) hlend
    rw [hsomeb] at hn
    rw [hsomeb, hn.2.2]
    simp
  | case4 f h key i pIdx sIdx indices proof parked hguard parked1 j tail hdrop n hnone ih1 ih2 ih3 =>
    intro proof' parked' hlen
    have hnoneb : (parkingNodesLoop fullLen h 0 j j 0 0 tail (List.drop pIdx proof)
        (updateParked parked key (setAt (lookupParked parked key) h []))).2.2.2 = none := hnone
    rw [parkingNodesLoop, parkingNodesLoop]
    simp only [if_pos hguard, hdrop]
    have hlend : (List.drop pIdx proof').length = (List.drop pIdx proof).length := by
      simp [hlen]
    have hn := ih1 (List.drop pIdx proof')
      (updateParked parked' key (setAt (lookupParked parked' key) h [])) hlend
    rw [hnoneb] at hn
    rw [hnoneb, hn.2.2]
    simp only []
    rw [hn.1, hn.2.1]
    exact ih3 proof' _ hlen
  | case5 f h key i pIdx sIdx indices proof parked hguard heven ih =>
    intro proof' parked' hlen
    rw [parkingNodesLoop, parkingNodesLoop]
    simp only [if_neg hguard, if_pos heven]
    exact ih proof' _ hlen
  | case6 f h key i pIdx sIdx indices proof parked hguard hodd hfull =>
    intro proof' parked' hlen
    rw [parkingNodesLoop, parkingNodesLoop]
    simp only [if_neg hguard, if_neg hodd, if_pos hfull]
    exact ⟨trivial, trivial, trivial⟩
  | case7 f h key i pIdx sIdx indices proof parked hguard hodd hfull hloc =>
    intro proof' parked' hlen
    rw [parkingNodesLoop, parkingNodesLoop]
    have hloc' : proof'.length ≤ pIdx := by rw [hlen]; exact hloc
    simp only [if_neg hguard, if_neg hodd, if_neg hfull, if_pos hloc, if_pos hloc']
    exact ⟨trivial, trivial, trivial⟩
  | case8 f h key i pIdx sIdx indices proof parked hguard hodd hfull hloc ih =>
    intro proof' parked' hlen
    rw [parkingNodesLoop, parkingNodesLoop]
    have hloc' : ¬proof'.length ≤ pIdx := by rw [hlen]; exact hloc
    simp only [if_neg hguard, if_neg hodd, if_neg hfull, if_neg hloc, if_neg hloc']
    exact ih proof' _ hlen

end Merkle

namespace Merkle

theorem parkingNodes_shape (fullLen mh : Nat) (indices : List Nat)
    (proof proof' : List (List Nat)) (parked parked' : List (Nat × List (List Nat)))
    (hlen : proof'.length = proof.length) :
    (parkingNodes fullLen mh indices proof' parked').2.2.2 =
      (parkingNodes fullLen mh indices proof parked).2.2.2 := by
  cases indices with
  | nil => rfl
  | cons key rest =>
    exact (parkingNodesLoop_shape fullLen mh 0 key key 0 0 rest proof parked proof' parked' hlen).2.2

theorem initParkingNodes_indices (lh : LeafHasher) (st : VState) :
    (initParkingNodes lh st).1.indices = st.indices := by
  unfold initParkingNodes
  cases hseq : lh.sequential
  · simp
  · cases hl : st.indices.getLast? <;> simp

theorem initParkingNodes_proof (lh : LeafHasher) (st : VState) :
    (initParkingNodes lh st).1.proof = st.proof := by
  unfold initParkingNodes
  cases hseq : lh.sequential
  · simp
  · cases hl : st.indices.getLast? <;> simp

theorem initParkingNodes_leaves (lh : LeafHasher) (st : VState) :
    (initParkingNodes lh st).1.leaves = st.leaves := by
  unfold initParkingNodes
  cases hseq : lh.sequential
  · simp
  · cases hl : st.indices.getLast? <;> simp

theorem initParkingNodes_shape (lh : LeafHasher) (st st' : VState)
    (hrel : ShapeRel st st') :
    (initParkingNodes lh st').2 = (initParkingNodes lh st).2 := by
  unfold initParkingNodes
  cases hseq : lh.sequential
  · simp
  · simp only [Bool.not_true, Bool.false_eq_true, if_false, ite_false]
    rw [hrel.1]
    cases hl : st.indices.getLast? with
    | none => simp
    | some last =>
      simp only []
      rw [hrel.2]
      exact parkingNodes_shape _ _ _ _ _ _ _ hrel.2

end Merkle

namespace Merkle

theorem calcRoot_shape (H : Hasher) (lh : LeafHasher) (mh : Nat) (st st' : VState)
    (hrel : ShapeRel st st') :
    resShapeRel (calcRoot H lh mh st) (calcRoot H lh mh st') := by
  rw [calcRoot.eq_def, calcRoot.eq_def]
  cases hI : st.indices with
  | nil =>
    rw [hrel.1, hI]
    simp [resShapeRel]
  | cons i rest =>
    have hI' : st'.indices = i :: rest := by rw [hrel.1, hI]
    rw [hrel.1, hI]
    simp only [hI]
    exact calcLoop_shape H lh mh 0 i _ _ (leafStep lh i rest st).2.2 _ _
      (leafStep lh i rest st').2.2 ⟨rfl, hrel.2⟩

/-- C3: a run of `ValidateProof` that returns a nil error keeps returning a
nil error when only the byte contents of the root, the leaf values, or the
proof elements change (keys and proof length unchanged), and the boolean it
returns is exactly the comparison of the claimed root with the recomputed
digest — false whenever they differ, never an error. -/
theorem validateMismatchIsBooleanNotError (H : Hasher) (lh : LeafHasher)
    (root : List Nat) (leaves : List (Nat × List Nat)) (proof : List (List Nat))
    (b : Bool) (hok : ValidateProof H lh root leaves proof = .ok b)
    (root' : List Nat) (leaves' : List (Nat × List Nat)) (proof' : List (List Nat))
    (hkeys : leaves'.map Prod.fst = leaves.map Prod.fst)
    (hplen : proof'.length = proof.length) :
    ∃ recomputed, ValidateProof H lh root' leaves' proof' = .ok (decide (root' = recomputed)) := by
  have hlenz : leaves'.length = leaves.length := by
    have := congrArg List.length hkeys
    simpa using this
  have hsk : sortedKeys leaves' = sortedKeys leaves := by
    unfold sortedKeys
    rw [hkeys]
  unfold ValidateProof at hok ⊢
  by_cases hz : leaves.length = 0
  · rw [if_pos hz] at hok
    exact absurd hok (by simp)
  · rw [if_neg hz] at hok
    rw [if_neg (by rw [hlenz]; exact hz)]
    simp only [] at hok ⊢
    have hrel0 : ShapeRel
        ({ leaves := leaves, indices := sortedKeys leaves, parkedNodes := [], proof := proof } : VState)
        ({ leaves := leaves', indices := sortedKeys leaves', parkedNodes := [], proof := proof' } : VState) :=
      ⟨by simp [hsk], by simp [hplen]⟩
    generalize hg0 : ({ leaves := leaves, indices := sortedKeys leaves, parkedNodes := [], proof := proof } : VState) = st0 at hok hrel0
    generalize hg1 : ({ leaves := leaves', indices := sortedKeys leaves', parkedNodes := [], proof := proof' } : VState) = st0' at hrel0 ⊢
    have hinit : (initParkingNodes lh st0').2 = (initParkingNodes lh st0).2 :=
      initParkingNodes_shape lh st0 st0' hrel0
    cases he : (initParkingNodes lh st0).2 with
    | some e =>
      rw [he] at hok
      exact absurd hok (by simp)
    | none =>
      rw [he] at hok
      rw [hinit, he]
      have hreli : ShapeRel (initParkingNodes lh st0).1 (initParkingNodes lh st0').1 := by
        refine ⟨?_, ?_⟩
        · rw [initParkingNodes_indices, initParkingNodes_indices, hrel0.1]
        · rw [initParkingNodes_proof, initParkingNodes_proof, hrel0.2]
      have hres := calcRoot_shape H lh MaxUint64 (initParkingNodes lh st0).1
        (initParkingNodes lh st0').1 hreli
      cases hcr : calcRoot H lh MaxUint64 (initParkingNodes lh st0).1 with
      | error e =>
        rw [hcr] at hok
        exact absurd hok (by simp)
      | ok r =>
        rw [hcr] at hres
        obtain ⟨v', st1', hok', hrel1⟩ := @resShapeRel_ok_left r.1 r.2 _ hres
        rw [hok']
        exact ⟨v', rfl⟩

end Merkle

namespace Merkle

theorem calcLoopE_agrees (H : Hasher) (lh : LeafHasher) :
    ∀ (gas f h i : Nat) (node : List Nat) (parked : List (List Nat)) (st : VState)
      (r : Except MerkleError (List Nat × VState)),
      calcLoopE H lh gas f h i node parked st = some r →
      calcLoop H lh f h i node parked st = r := by
  intro gas
  induction gas with
  | zero =>
    intro f h i node parked st r hE
    simp [calcLoopE] at hE
  | succ gas ih =>
    intro f h i node parked st r hE
    cases f with
    | zero =>
      rw [calcLoop_zero]
      simp only [calcLoopE, Option.some.injEq] at hE
      exact hE
    | succ f =>
      rw [calcLoopE] at hE
      by_cases hemp : st.proof = [] ∧ st.indices = []
      · rw [if_pos hemp] at hE
        rw [calcLoop_exhausted _ _ _ _ _ _ _ _ hemp.1 hemp.2]
        by_cases hi : i ≠ 0
        · rw [if_pos hi] at hE
          rw [if_pos hi]
          exact Option.some.inj hE
        · rw [if_neg hi] at hE
          rw [if_neg hi]
          exact Option.some.inj hE
      · rw [if_neg hemp] at hE
        cases hI : st.indices with
        | cons i2 restI =>
          simp only [hI] at hE
          by_cases hsib : i2 >>> h = i ^^^ 1
          · rw [if_pos hsib] at hE
            have hci : (copyParkedNodes lh h node parked st).indices = i2 :: restI := by
              rw [copyParkedNodes_indices, hI]
            simp only [hci] at hE
            rw [calcLoop_sibling _ _ _ _ _ _ _ _ i2 restI hI hsib, calcRoot.eq_def, hci]
            simp only []
            cases hEn : calcLoopE H lh gas h 0 i2
                (leafStep lh i2 restI (copyParkedNodes lh h node parked st)).1
                (leafStep lh i2 restI (copyParkedNodes lh h node parked st)).2.1
                (leafStep lh i2 restI (copyParkedNodes lh h node parked st)).2.2 with
            | none => rw [hEn] at hE; simp at hE
            | some rn =>
              rw [hEn] at hE
              have hn := ih _ _ _ _ _ _ _ hEn
              rw [hn]
              cases rn with
              | error e =>
                simp only [Option.some.injEq] at hE
                simp [← hE]
              | ok rp =>
                simp only [] at hE
                have := ih _ _ _ _ _ _ _ hE
                simpa using this
          · rw [if_neg hsib] at hE
            rw [calcLoop_pop _ _ _ _ _ _ _ _ hemp (Or.inr ⟨i2, restI, hI, hsib⟩)]
            cases hP : st.proof with
            | nil =>
              simp only [hP, Option.some.injEq] at hE
              simp [hP, ← hE]
            | cons p restP =>
              simp only [hP] at hE ⊢
              rw [← hI] at hE
              by_cases hpar : i % 2 = 0
              · simp only [hpar, ite_true] at hE ⊢
                exact ih _ _ _ _ _ _ _ hE
              · simp only [hpar, ite_false] at hE ⊢
                exact ih _ _ _ _ _ _ _ hE
        | nil =>
          simp only [hI] at hE
          rw [calcLoop_pop _ _ _ _ _ _ _ _ hemp (Or.inl hI)]
          cases hP : st.proof with
          | nil =>
            simp only [hP, Option.some.injEq] at hE
            simp [hP, ← hE]
          | cons p restP =>
            simp only [hP] at hE ⊢
            rw [← hI] at hE
            by_cases hpar : i % 2 = 0
            · simp only [hpar, ite_true] at hE ⊢
              exact ih _ _ _ _ _ _ _ hE
            · simp only [hpar, ite_false] at hE ⊢
              exact ih _ _ _ _ _ _ _ hE

theorem ValidateProofE_agrees (gas : Nat) (H : Hasher) (lh : LeafHasher)
    (root : List Nat) (leaves : List (Nat × List Nat)) (proof : List (List Nat))
    (r : Except MerkleError Bool)
    (hE : ValidateProofE gas H lh root leaves proof = some r) :
    ValidateProof H lh root leaves proof = r := by
  unfold ValidateProofE at hE
  unfold ValidateProof
  by_cases hz : leaves.length = 0
  · rw [if_pos hz] at hE ⊢
    exact Option.some.inj hE
  · rw [if_neg hz] at hE ⊢
    simp only [] at hE ⊢
    cases he : (initParkingNodes lh
        { leaves := leaves, indices := sortedKeys leaves, parkedNodes := [], proof := proof }).2 with
    | some e =>
      rw [he] at hE
      simp only [Option.some.injEq] at hE
      simp [← hE]
    | none =>
      rw [he] at hE
      rw [calcRoot.eq_def]
      cases hI : (initParkingNodes lh
          { leaves := leaves, indices := sortedKeys leaves, parkedNodes := [], proof := proof }).1.indices with
      | nil =>
        rw [hI] at hE
        simp only [Option.some.injEq] at hE
        simp [← hE]
      | cons i rest =>
        rw [hI] at hE
        simp only [] at hE ⊢
        cases hEn : calcLoopE H lh gas MaxUint64 0 i
            (leafStep lh i rest (initParkingNodes lh
              { leaves := leaves, indices := sortedKeys leaves, parkedNodes := [], proof := proof }).1).1
            (leafStep lh i rest (initParkingNodes lh
              { leaves := leaves, indices := sortedKeys leaves, parkedNodes := [], proof := proof }).1).2.1
            (leafStep lh i rest (initParkingNodes lh
              { leaves := leaves, indices := sortedKeys leaves, parkedNodes := [], proof := proof }).1).2.2 with
        | none => rw [hEn] at hE; simp at hE
        | some rn =>
          rw [hEn] at hE
          rw [calcLoopE_agrees H lh gas _ _ _ _ _ _ _ hEn]
          cases rn with
          | error e =>
            simp only [Option.some.injEq] at hE
            simp [← hE]
          | ok rp =>
            simp only [Option.some.injEq] at hE
            simp [← hE]

end Merkle

deriving instance DecidableEq for Except

namespace Merkle

/-- Witness for `validateMismatchIsBooleanNotError`: the 8-leaf test tree
with the test hasher, proving leaf 4; tampering the leaf value makes the
result `(false, nil)`. -/
theorem validateMismatchIsBooleanNotError_witness :
    ValidateProof concatHasher (ValueLeafs 1) [0, 1, 2, 3, 4, 5, 6, 7] [(4, [4])]
        [[5], [6, 7], [0, 1, 2, 3]] = .ok true ∧
      [((4 : Nat), [(9 : Nat)])].map Prod.fst = [((4 : Nat), [(4 : Nat)])].map Prod.fst ∧
      ([[5], [6, 7], [0, 1, 2, 3]] : List (List Nat)).length =
        ([[5], [6, 7], [0, 1, 2, 3]] : List (List Nat)).length ∧
      ∃ recomputed,
        ValidateProof concatHasher (ValueLeafs 1) [0, 1, 2, 3, 4, 5, 6, 7] [(4, [9])]
            [[5], [6, 7], [0, 1, 2, 3]] =
          .ok (decide ([0, 1, 2, 3, 4, 5, 6, 7] = recomputed)) := by
  have hok : ValidateProof concatHasher (ValueLeafs 1) [0, 1, 2, 3, 4, 5, 6, 7] [(4, [4])]
      [[5], [6, 7], [0, 1, 2, 3]] = .ok true :=
    ValidateProofE_agrees 64 _ _ _ _ _ _ (by decide)
  exact ⟨hok, by decide, rfl,
    validateMismatchIsBooleanNotError concatHasher (ValueLeafs 1) _ _ _ true hok
      [0, 1, 2, 3, 4, 5, 6, 7] [(4, [9])] [[5], [6, 7], [0, 1, 2, 3]] (by decide) rfl⟩

/-- C4 counterexample: a proof accepted as `(true, nil)` whose truncation
by one element is answered with `(false, nil)` rather than
`ErrShortProof`: two leaves, proving leaf 0 — the truncated (empty) proof
still reaches index 0, so reconstruction succeeds and only the digest
comparison fails. -/
theorem truncatedProofNotAlwaysShortProof :
    ValidateProof concatHasher (ValueLeafs 1) [0, 1] [(0, [0])] [[1]] = .ok true ∧
      ([[1]] : List (List Nat)) ≠ [] ∧
      ValidateProof concatHasher (ValueLeafs 1) [0, 1] [(0, [0])]
          (([[1]] : List (List Nat)).dropLast) = .ok false ∧
      ValidateProof concatHasher (ValueLeafs 1) [0, 1] [(0, [0])]
          (([[1]] : List (List Nat)).dropLast) ≠ .error .ErrShortProof := by
  have h1 : ValidateProof concatHasher (ValueLeafs 1) [0, 1] [(0, [0])] [[1]] = .ok true :=
    ValidateProofE_agrees 64 _ _ _ _ _ _ (by decide)
  have h2 : ValidateProof concatHasher (ValueLeafs 1) [0, 1] [(0, [0])]
      (([[1]] : List (List Nat)).dropLast) = .ok false :=
    ValidateProofE_agrees 64 _ _ _ _ _ _ (by decide)
  exact ⟨h1, by decide, h2, by rw [h2]; decide⟩

/-- C6 counterexample: a proof accepted as `(true, nil)` which, extended
by one trailing element, is answered with `(false, nil)` — not
`(true, nil)` as the claim states: the extra element is hashed into the
digest above the root and the comparison fails. -/
theorem overlongProofNotAcceptedTrue :
    ValidateProof concatHasher (ValueLeafs 1) [0, 1] [(0, [0])] [[1]] = .ok true ∧
      ValidateProof concatHasher (ValueLeafs 1) [0, 1] [(0, [0])]
          ([[1]] ++ [[0]]) = .ok false := by
  have h1 : ValidateProof concatHasher (ValueLeafs 1) [0, 1] [(0, [0])] [[1]] = .ok true :=
    ValidateProofE_agrees 64 _ _ _ _ _ _ (by decide)
  have h2 : ValidateProof concatHasher (ValueLeafs 1) [0, 1] [(0, [0])]
      ([[1]] ++ [[0]]) = .ok false :=
    ValidateProofE_agrees 64 _ _ _ _ _ _ (by decide)
  exact ⟨h1, h2⟩

end Merkle

namespace Merkle

/-- Relation between an original validator state and the state of a run
whose proof was extended by `ex` at the end: same indices, and the
extended proof is either the original plus `ex`, or (once the original
proof is exhausted) some tail of `ex`. -/
def ExtRel (ex : List (List Nat)) (st stE : VState) : Prop :=
  stE.indices = st.indices ∧
    (stE.proof = st.proof ++ ex ∨ (st.proof = [] ∧ ∃ k, stE.proof = ex.drop k))

/-- Draining: with no indices left and the current index at the root
position, the climb loop consumes any remaining proof elements as
padding siblings and succeeds. -/
theorem calcLoop_drain (H : Hasher) (lh : LeafHasher) :
    ∀ (f h : Nat) (node : List Nat) (parked : List (List Nat)) (st : VState),
      st.indices = [] →
      ∃ v2 st2, calcLoop H lh f h 0 node parked st = .ok (v2, st2) ∧
        st2.indices = [] ∧ ∃ k, st2.proof = st.proof.drop k := by
  intro f
  induction f with
  | zero =>
    intro h node parked st hI
    exact ⟨node, st, calcLoop_zero H lh h 0 node parked st, hI, 0, rfl⟩
  | succ f ih =>
    intro h node parked st hI
    cases hp : st.proof with
    | nil =>
      refine ⟨node, st, ?_, hI, 0, by rw [hp]; rfl⟩
      rw [calcLoop_exhausted _ _ _ _ _ _ _ _ hp hI]
      simp
    | cons p restP =>
      rw [calcLoop_pop _ _ _ _ _ _ _ _ (by simp [hp]) (Or.inl hI)]
      simp only [hp]
      have hz : (0 : Nat) % 2 = 0 := rfl
      simp only [hz, ite_true]
      obtain ⟨v2, st2, hok, hI2, k, hk⟩ := ih (h + 1) (H.hash node p) parked
        { st with proof := restP } hI
      refine ⟨v2, st2, ?_, hI2, k + 1, ?_⟩
      · simpa using hok
      · simpa [hp] using hk

/-- Proof extension preserves success of the climb loop: a run that
returns `ok` still returns `ok` (on possibly different values) when the
proof is extended at the end by `ex`. -/
theorem calcLoop_ext (H : Hasher) (lh : LeafHasher) (ex : List (List Nat))
    (f h i : Nat) (node : List Nat) (parked : List (List Nat)) (st : VState) :
    ∀ (v : List Nat) (st1 : VState),
      calcLoop H lh f h i node parked st = .ok (v, st1) →
      ∀ (nodeE : List Nat) (parkedE : List (List Nat)) (stE : VState),
        ExtRel ex st stE →
        ∃ v2 st2, calcLoop H lh f h i nodeE parkedE stE = .ok (v2, st2) ∧
          ExtRel ex st1 st2 := by
  induction f, h, i, node, parked, st using calcLoop.induct H lh with
  | case1 h i parked node st =>
    intro v st1 hok nodeE parkedE stE hrel
    rw [calcLoop_zero] at hok
    have hst : st = st1 := congrArg Prod.snd (Except.ok.inj hok)
    subst hst
    exact ⟨nodeE, stE, calcLoop_zero H lh h i nodeE parkedE stE, hrel⟩
  | case2 f h i node parked st hemp hne =>
    intro v st1 hok nodeE parkedE stE hrel
    rw [calcLoop_exhausted _ _ _ _ _ _ _ _ hemp.1 hemp.2, if_pos hne] at hok
    exact absurd hok (by simp)
  | case3 f h i node parked st hemp hne =>
    intro v st1 hok nodeE parkedE stE hrel
    rw [calcLoop_exhausted _ _ _ _ _ _ _ _ hemp.1 hemp.2, if_neg hne] at hok
    have hst : st = st1 := congrArg Prod.snd (Except.ok.inj hok)
    subst hst
    have hi0 : i = 0 := by omega
    subst hi0
    have hIE : stE.indices = [] := by rw [hrel.1, hemp.2]
    have hpe : ∃ k, stE.proof = ex.drop k := by
      rcases hrel.2 with h1 | h2
      · refine ⟨0, ?_⟩
        rw [List.drop_zero, h1, hemp.1, List.nil_append]
      · exact h2.2
    obtain ⟨v2, st2, hok2, hI2, k2, hk2⟩ := calcLoop_drain H lh (f + 1) h nodeE parkedE stE hIE
    refine ⟨v2, st2, hok2, ?_, ?_⟩
    · rw [hI2, hemp.2]
    · right
      refine ⟨hemp.1, ?_⟩
      obtain ⟨k, hk⟩ := hpe
      exact ⟨k2 + k, by rw [hk2, hk, List.drop_drop, Nat.add_comm]⟩
  | case4 f h i node parked st hguard i2 rest hidx hsib st1 hst1 =>
    intro v st1x hok nodeE parkedE stE hrel
    exfalso
    have h1 : (copyParkedNodes lh h node parked st).indices = [] := hst1
    rw [copyParkedNodes_indices, hidx] at h1
    exact List.cons_ne_nil _ _ h1
  | case5 f h i node parked st hguard i2 rest hidx hsib st1 j tail hst1 s e hcalc ih =>
    intro v st1x hok nodeE parkedE stE hrel
    exfalso
    have hcalcb : calcLoop H lh h 0 j
        (leafStep lh j tail (copyParkedNodes lh h node parked st)).1
        (leafStep lh j tail (copyParkedNodes lh h node parked st)).2.1
        (leafStep lh j tail (copyParkedNodes lh h node parked st)).2.2 = .error e := hcalc
    have hst1b : (copyParkedNodes lh h node parked st).indices = j :: tail := hst1
    rw [calcLoop_sibling _ _ _ _ _ _ _ _ i2 rest hidx hsib, calcRoot.eq_def, hst1b] at hok
    simp only [] at hok
    rw [hcalcb] at hok
    exact absurd hok (by simp)
  | case6 f h i node parked st hguard i2 rest hidx hsib st1 j tail hst1 s sibling st3 hcalc ih1 ih2 =>
    intro v st1x hok nodeE parkedE stE hrel
    have hst1b : (copyParkedNodes lh h node parked st).indices = j :: tail := hst1
    have hcalcb : calcLoop H lh h 0 j
        (leafStep lh j tail (copyParkedNodes lh h node parked st)).1
        (leafStep lh j tail (copyParkedNodes lh h node parked st)).2.1
        (leafStep lh j tail (copyParkedNodes lh h node parked st)).2.2 = .ok (sibling, st3) := hcalc
    rw [calcLoop_sibling _ _ _ _ _ _ _ _ i2 rest hidx hsib, calcRoot.eq_def, hst1b] at hok
    simp only [] at hok
    rw [hcalcb] at hok
    -- the extended run takes the same branch
    have hidxE : stE.indices = i2 :: rest := by rw [hrel.1, hidx]
    have hst1E : (copyParkedNodes lh h nodeE parkedE stE).indices = j :: tail := by
      rw [copyParkedNodes_indices, hidxE]
      rw [copyParkedNodes_indices, hidx] at hst1b
      exact hst1b
    have hrel1 : ExtRel ex (leafStep lh j tail (copyParkedNodes lh h node parked st)).2.2
        (leafStep lh j tail (copyParkedNodes lh h nodeE parkedE stE)).2.2 := by
      constructor
      · simp [leafStep]
      · simp only [leafStep, copyParkedNodes_proof]
        exact hrel.2
    obtain ⟨v2, st2, hok2, hrel2⟩ := ih1 sibling st3 hcalcb
      (leafStep lh j tail (copyParkedNodes lh h nodeE parkedE stE)).1
      (leafStep lh j tail (copyParkedNodes lh h nodeE parkedE stE)).2.1
      (leafStep lh j tail (copyParkedNodes lh h nodeE parkedE stE)).2.2 hrel1
    obtain ⟨v3, st3x, hok3, hrel3⟩ := ih2 v st1x hok (H.hash nodeE v2) parkedE st2 hrel2
    refine ⟨v3, st3x, ?_, hrel3⟩
    rw [calcLoop_sibling _ _ _ _ _ _ _ _ i2 rest hidxE hsib, calcRoot.eq_def, hst1E]
    simp only []
    rw [hok2]
    exact hok3
  | case7 f h i node parked st hguard i2 rest hidx hne hp =>
    intro v st1 hok nodeE parkedE stE hrel
    exfalso
    rw [calcLoop_pop _ _ _ _ _ _ _ _ hguard (Or.inr ⟨i2, rest, hidx, hne⟩), hp] at hok
    simp at hok
  | case8 f h i node parked st hguard i2 rest hidx hne p restP hp lr ih =>
    intro v st1 hok nodeE parkedE stE hrel
    have hlr : lr = if _h : i % 2 = 0 then (node, p) else (p, node) := rfl
    rw [calcLoop_pop _ _ _ _ _ _ _ _ hguard (Or.inr ⟨i2, rest, hidx, hne⟩), hp] at hok
    simp only [] at hok
    have hpe : stE.proof = p :: (restP ++ ex) := by
      rcases hrel.2 with h1 | h2
      · rw [h1, hp]; rfl
      · rw [h2.1] at hp; exact absurd hp (by simp)
    have hidxE : stE.indices = i2 :: rest := by rw [hrel.1, hidx]
    have hguardE : ¬(stE.proof = [] ∧ stE.indices = []) := by simp [hpe]
    have hrelc : ExtRel ex { st with proof := restP } { stE with proof := restP ++ ex } :=
      ⟨hrel.1, Or.inl rfl⟩
    have ihb : ∀ (v : List Nat) (st1 : VState),
        calcLoop H lh f (h + 1) (i >>> 1)
          (H.hash (if i % 2 = 0 then node else p) (if i % 2 = 0 then p else node)) parked
          { st with proof := restP } = .ok (v, st1) →
        ∀ (nodeE : List Nat) (parkedE : List (List Nat)) (stE : VState),
          ExtRel ex { st with proof := restP } stE →
          ∃ v2 st2, calcLoop H lh f (h + 1) (i >>> 1) nodeE parkedE stE = .ok (v2, st2) ∧
            ExtRel ex st1 st2 := by
      intro v st1 h1
      apply ih v st1
      rw [hlr]
      by_cases hpar : i % 2 = 0
      · simpa [hpar] using h1
      · simpa [hpar] using h1
    obtain ⟨v2, st2, hok2, hrel2⟩ := ihb v st1 hok
      (H.hash (if i % 2 = 0 then nodeE else p) (if i % 2 = 0 then p else nodeE)) parkedE
      { stE with proof := restP ++ ex } hrelc
    refine ⟨v2, st2, ?_, hrel2⟩
    rw [calcLoop_pop _ _ _ _ _ _ _ _ hguardE (Or.inr ⟨i2, rest, hidxE, hne⟩), hpe]
    simpa using hok2
  | case9 f h i node parked st hguard hidx hp =>
    exact absurd ⟨hp, hidx⟩ hguard
  | case10 f h i node parked st hguard hidx p restP hp lr ih =>
    intro v st1 hok nodeE parkedE stE hrel
    have hlr : lr = if _h : i % 2 = 0 then (node, p) else (p, node) := rfl
    rw [calcLoop_pop _ _ _ _ _ _ _ _ hguard (Or.inl hidx), hp] at hok
    simp only [] at hok
    have hpe : stE.proof = p :: (restP ++ ex) := by
      rcases hrel.2 with h1 | h2
      · rw [h1, hp]; rfl
      · rw [h2.1] at hp; exact absurd hp (by simp)
    have hidxE : stE.indices = [] := by rw [hrel.1, hidx]
    have hguardE : ¬(stE.proof = [] ∧ stE.indices = []) := by simp [hpe]
    have hrelc : ExtRel ex { st with proof := restP } { stE with proof := restP ++ ex } :=
      ⟨hrel.1, Or.inl rfl⟩
    have ihb : ∀ (v : List Nat) (st1 : VState),
        calcLoop H lh f (h + 1) (i >>> 1)
          (H.hash (if i % 2 = 0 then node else p) (if i % 2 = 0 then p else node)) parked
          { st with proof := restP } = .ok (v, st1) →
        ∀ (nodeE : List Nat) (parkedE : List (List Nat)) (stE : VState),
          ExtRel ex { st with proof := restP } stE →
          ∃ v2 st2, calcLoop H lh f (h + 1) (i >>> 1) nodeE parkedE stE = .ok (v2, st2) ∧
            ExtRel ex st1 st2 := by
      intro v st1 h1
      apply ih v st1
      rw [hlr]
      by_cases hpar : i % 2 = 0
      · simpa [hpar] using h1
      · simpa [hpar] using h1
    obtain ⟨v2, st2, hok2, hrel2⟩ := ihb v st1 hok
      (H.hash (if i % 2 = 0 then nodeE else p) (if i % 2 = 0 then p else nodeE)) parkedE
      { stE with proof := restP ++ ex } hrelc
    refine ⟨v2, st2, ?_, hrel2⟩
    rw [calcLoop_pop _ _ _ _ _ _ _ _ hguardE (Or.inl hidxE), hpe]
    simpa using hok2

end Merkle

namespace Merkle

/-- Proof-extension relation on raw proof lists. -/
def ExtProofRel (ex proof proofE : List (List Nat)) : Prop :=
  proofE = proof ++ ex ∨ (proof = [] ∧ ∃ j, proofE = ex.drop j)

theorem ExtProofRel_drop (ex proof proofE : List (List Nat)) (n : Nat)
    (h : ExtProofRel ex proof proofE) :
    ExtProofRel ex (proof.drop n) (proofE.drop n) := by
  rcases h with h1 | ⟨h2, j, hj⟩
  · by_cases hle : n ≤ proof.length
    · left
      rw [h1, List.drop_append_eq_append_drop]
      have hz : n - proof.length = 0 := by omega
      rw [hz, List.drop_zero]
    · right
      have hnil : proof.drop n = [] := List.drop_eq_nil_of_le (by omega)
      refine ⟨hnil, n - proof.length, ?_⟩
      rw [h1, List.drop_append_eq_append_drop, hnil, List.nil_append]
  · right
    refine ⟨by rw [h2]; simp, j + n, ?_⟩
    rw [hj, List.drop_drop, Nat.add_comm]

theorem parkingNodesLoop_sib_step (fullLen f h key i pIdx sIdx : Nat)
    (indices : List Nat) (proof : List (List Nat))
    (parked : List (Nat × List (List Nat))) (j : Nat) (tail : List Nat)
    (hguard : i % 2 = 0 ∧ sIdx < indices.length ∧
      (indices.getD sIdx 0) >>> h = i ^^^ 1)
    (hdrop : indices.drop sIdx = j :: tail) :
    parkingNodesLoop fullLen (f + 1) h key i pIdx sIdx indices proof parked =
      match (parkingNodesLoop fullLen h 0 j j 0 0 tail (proof.drop pIdx)
          (updateParked parked key (setAt (lookupParked parked key) h []))).2.2.2 with
      | some e =>
        ((parkingNodesLoop fullLen h 0 j j 0 0 tail (proof.drop pIdx)
            (updateParked parked key (setAt (lookupParked parked key) h []))).1,
          pIdx, sIdx, some e)
      | none =>
        parkingNodesLoop fullLen f (h + 1) key (i >>> 1)
          (pIdx + (parkingNodesLoop fullLen h 0 j j 0 0 tail (proof.drop pIdx)
            (updateParked parked key (setAt (lookupParked parked key) h []))).2.1)
          (sIdx + 1 + (parkingNodesLoop fullLen h 0 j j 0 0 tail (proof.drop pIdx)
            (updateParked parked key (setAt (lookupParked parked key) h []))).2.2.1)
          indices proof
          (parkingNodesLoop fullLen h 0 j j 0 0 tail (proof.drop pIdx)
            (updateParked parked key (setAt (lookupParked parked key) h []))).1 := by
  rw [parkingNodesLoop, if_pos hguard, hdrop]

theorem parkingNodesLoop_ext (ex : List (List Nat)) (fullLen : Nat)
    (f h key i pIdx sIdx : Nat) (indices : List Nat) (proof : List (List Nat))
    (parked : List (Nat × List (List Nat))) :
    ∀ (proofE : List (List Nat)), ExtProofRel ex proof proofE →
      (parkingNodesLoop fullLen f h key i pIdx sIdx indices proof parked).2.2.2 = none →
      parkingNodesLoop (fullLen + ex.length) f h key i pIdx sIdx indices proofE parked =
        parkingNodesLoop fullLen f h key i pIdx sIdx indices proof parked := by
  induction f, h, key, i, pIdx, sIdx, indices, proof, parked using parkingNodesLoop.induct fullLen with
  | case1 h key i indices proof pIdx sIdx parked =>
    intro proofE hrel hnone
    rw [parkingNodesLoop, parkingNodesLoop]
  | case2 f h key i pIdx sIdx indices proof parked hguard hdrop =>
    intro proofE hrel hnone
    rw [parkingNodesLoop, if_pos hguard] at hnone
    simp [hdrop] at hnone
  | case3 f h key i pIdx sIdx indices proof parked hguard parked1 j tail hdrop n e hsome ih =>
    intro proofE hrel hnone
    exfalso
    have hsomeb : (parkingNodesLoop fullLen h 0 j j 0 0 tail (List.drop pIdx proof)
        (updateParked parked key (setAt (lookupParked parked key) h []))).2.2.2 = some e := hsome
    rw [parkingNodesLoop_sib_step fullLen f h key i pIdx sIdx indices proof parked j tail
      hguard hdrop, hsomeb] at hnone
    simp at hnone
  | case4 f h key i pIdx sIdx indices proof parked hguard parked1 j tail hdrop n hnone0 ih1 ih2 ih3 =>
    intro proofE hrel hnone
    have hnoneb : (parkingNodesLoop fullLen h 0 j j 0 0 tail (List.drop pIdx proof)
        (updateParked parked key (setAt (lookupParked parked key) h []))).2.2.2 = none := hnone0
    rw [parkingNodesLoop_sib_step fullLen f h key i pIdx sIdx indices proof parked j tail
      hguard hdrop, hnoneb] at hnone ⊢
    simp only [] at hnone ⊢
    have hreld := ExtProofRel_drop ex proof proofE pIdx hrel
    have hnested := ih1 (List.drop pIdx proofE) hreld hnoneb
    rw [parkingNodesLoop_sib_step (fullLen + ex.length) f h key i pIdx sIdx indices proofE parked
      j tail hguard hdrop, hnested, hnoneb]
    simp only []
    exact ih3 proofE hrel hnone
  | case5 f h key i pIdx sIdx indices proof parked hguard heven ih =>
    intro proofE hrel hnone
    rw [parkingNodesLoop, if_neg hguard, if_pos heven] at hnone ⊢
    rw [parkingNodesLoop, if_neg hguard, if_pos heven]
    exact ih proofE hrel hnone
  | case6 f h key i pIdx sIdx indices proof parked hguard hodd hfull =>
    intro proofE hrel hnone
    rw [parkingNodesLoop, if_neg hguard, if_neg hodd, if_pos hfull] at hnone
    simp at hnone
  | case7 f h key i pIdx sIdx indices proof parked hguard hodd hfull hloc =>
    intro proofE hrel hnone
    rw [parkingNodesLoop, if_neg hguard, if_neg hodd, if_neg hfull, if_pos hloc] at hnone
    simp at hnone
  | case8 f h key i pIdx sIdx indices proof parked hguard hodd hfull hloc ih =>
    intro proofE hrel hnone
    have hp1 : proofE = proof ++ ex := by
      rcases hrel with h1 | ⟨h2, _⟩
      · exact h1
      · exfalso; rw [h2] at hloc; simp at hloc
    have hfullE : ¬fullLen + ex.length ≤ pIdx := by omega
    have hlocE : ¬proofE.length ≤ pIdx := by
      rw [hp1]
      simp only [List.length_append]
      omega
    have hget : proofE.getD pIdx [] = proof.getD pIdx [] := by
      rw [hp1]
      rw [List.getD_eq_getElem?_getD, List.getD_eq_getElem?_getD,
        List.getElem?_append_left (by omega)]
    rw [parkingNodesLoop, if_neg hguard, if_neg hodd, if_neg hfull, if_neg hloc] at hnone
    rw [parkingNodesLoop, if_neg hguard, if_neg hodd, if_neg hfullE, if_neg hlocE, hget]
    conv_rhs => rw [parkingNodesLoop, if_neg hguard, if_neg hodd, if_neg hfull, if_neg hloc]
    exact ih proofE hrel hnone

end Merkle

/-! ## Round-trip development: the padded-tree values, the multiproof
stream, the builder invariant and the finalization walk -/

section RoundTripDevelopment
open Merkle

theorem initParkingNodes_ext (lh : LeafHasher) (st : VState) (ex : List (List Nat))
    (hnone : (initParkingNodes lh st).2 = none) :
    initParkingNodes lh { st with proof := st.proof ++ ex } =
      ({ (initParkingNodes lh st).1 with proof := st.proof ++ ex }, none) := by
  obtain ⟨lv, ix, pk, pf⟩ := st
  unfold initParkingNodes at hnone ⊢
  cases hseq : lh.sequential
  · simp
  · rw [hseq] at hnone
    rw [if_neg (show ¬((!true) = true) by simp)] at hnone
    cases hl : ix.getLast? with
    | none => rw [hl] at hnone; simp at hnone
    | some last =>
      rw [hl] at hnone
      have hnone2 : (parkingNodes pf.length (bitsLen last) ix pf
          (List.map (fun i => (i, List.replicate (bitsLen last) ([] : List Nat))) ix)).2.2.2 =
          none := hnone
      cases hI : ix with
      | nil => rw [hI] at hl; simp at hl
      | cons key rest =>
        rw [hI] at hnone2
        have hnone3 : (parkingNodesLoop pf.length (bitsLen last) 0 key key 0 0 rest pf
            (List.map (fun i => (i, List.replicate (bitsLen last) ([] : List Nat)))
              (key :: rest))).2.2.2 = none := hnone2
        have hext := parkingNodesLoop_ext ex pf.length (bitsLen last) 0 key key 0 0 rest
          pf (List.map (fun i => (i, List.replicate (bitsLen last) ([] : List Nat))) (key :: rest))
          (pf ++ ex) (Or.inl rfl) hnone3
        show (({ leaves := lv, indices := key :: rest,
                 parkedNodes := (parkingNodesLoop (pf ++ ex).length (bitsLen last) 0 key key 0 0
                   rest (pf ++ ex)
                   (List.map (fun i => (i, List.replicate (bitsLen last) ([] : List Nat)))
                     (key :: rest))).1,
                 proof := pf ++ ex } : VState),
          (parkingNodesLoop (pf ++ ex).length (bitsLen last) 0 key key 0 0 rest (pf ++ ex)
            (List.map (fun i => (i, List.replicate (bitsLen last) ([] : List Nat)))
              (key :: rest))).2.2.2) =
          (({ leaves := lv, indices := key :: rest,
              parkedNodes := (parkingNodesLoop pf.length (bitsLen last) 0 key key 0 0 rest pf
                (List.map (fun i => (i, List.replicate (bitsLen last) ([] : List Nat)))
                  (key :: rest))).1,
              proof := pf ++ ex } : VState), none)
        rw [List.length_append, hext, hnone3]

theorem calcRoot_ext (H : Hasher) (lh : LeafHasher) (ex : List (List Nat))
    (maxHeight : Nat) (st stE : VState) (v : List Nat) (st1 : VState)
    (hok : calcRoot H lh maxHeight st = .ok (v, st1)) (hrel : ExtRel ex st stE) :
    ∃ v2 st2, calcRoot H lh maxHeight stE = .ok (v2, st2) ∧ ExtRel ex st1 st2 := by
  rw [calcRoot.eq_def] at hok
  rw [calcRoot.eq_def]
  cases hI : st.indices with
  | nil => rw [hI] at hok; exact absurd hok (by simp)
  | cons i rest =>
    rw [hI] at hok
    rw [hrel.1, hI]
    have hok2 : calcLoop H lh maxHeight 0 i (leafStep lh i rest st).1
        (leafStep lh i rest st).2.1 (leafStep lh i rest st).2.2 = .ok (v, st1) := hok
    show ∃ v2 st2, calcLoop H lh maxHeight 0 i (leafStep lh i rest stE).1
        (leafStep lh i rest stE).2.1 (leafStep lh i rest stE).2.2 = .ok (v2, st2) ∧
        ExtRel ex st1 st2
    exact calcLoop_ext H lh ex maxHeight 0 i _ _ _ v st1 hok2 _ _ _ ⟨rfl, hrel.2⟩

/-- C6, amended: if `ValidateProof` accepts `(root, leaves, proof)` with
`(true, nil)`, then appending extra trailing elements to the proof still
returns a nil error — the extra elements are silently consumed (as further
sibling hashes above the reconstructed root), there is no strictness check
on exact proof consumption, and only the boolean comparison can fail. -/
theorem overlongProofNilError (H : Hasher) (lh : LeafHasher) (root : List Nat)
    (leaves : List (Nat × List Nat)) (proof : List (List Nat))
    (hok : ValidateProof H lh root leaves proof = .ok true)
    (ex : List (List Nat)) :
    ∃ b, ValidateProof H lh root leaves (proof ++ ex) = .ok b := by
  unfold ValidateProof at hok ⊢
  by_cases hz : leaves.length = 0
  · rw [if_pos hz] at hok
    exact absurd hok (by simp)
  rw [if_neg hz] at hok
  rw [if_neg hz]
  simp only [] at hok ⊢
  cases he : (initParkingNodes lh
      { leaves := leaves, indices := sortedKeys leaves, parkedNodes := [],
        proof := proof }).2 with
  | some e =>
    rw [he] at hok
    exact absurd hok (by simp)
  | none =>
    rw [he] at hok
    have hinitE := initParkingNodes_ext lh
      { leaves := leaves, indices := sortedKeys leaves, parkedNodes := [], proof := proof } ex he
    simp only [] at hinitE
    cases hcr : calcRoot H lh MaxUint64 (initParkingNodes lh
        { leaves := leaves, indices := sortedKeys leaves, parkedNodes := [],
          proof := proof }).1 with
    | error e =>
      rw [hcr] at hok
      exact absurd hok (by simp)
    | ok r =>
      have hrel : ExtRel ex
          (initParkingNodes lh
            { leaves := leaves, indices := sortedKeys leaves, parkedNodes := [],
              proof := proof }).1
          (initParkingNodes lh
            { leaves := leaves, indices := sortedKeys leaves, parkedNodes := [],
              proof := proof ++ ex }).1 := by
        rw [hinitE]
        exact ⟨rfl, Or.inl (by rw [initParkingNodes_proof])⟩
      obtain ⟨v2, st2, hok2, _⟩ := calcRoot_ext H lh ex MaxUint64 _ _ r.1 r.2
        (by rw [hcr]) hrel
      cases heE : (initParkingNodes lh
          { leaves := leaves, indices := sortedKeys leaves, parkedNodes := [],
            proof := proof ++ ex }).2 with
      | some e =>
        exfalso
        rw [hinitE] at heE
        simp at heE
      | none =>
        rw [hok2]
        exact ⟨decide (root = v2), rfl⟩

/-- Witness for the amended C6 theorem: a concretely accepted proof,
extended by two trailing elements, still gets a nil-error answer. -/
theorem overlongProofNilError_witness :
    ValidateProof concatHasher (ValueLeafs 1) [0, 1] [(0, [0])] [[1]] = .ok true ∧
      ∃ b, ValidateProof concatHasher (ValueLeafs 1) [0, 1] [(0, [0])]
          ([[1]] ++ [[7], [8]]) = .ok b := by
  have hok : ValidateProof concatHasher (ValueLeafs 1) [0, 1] [(0, [0])] [[1]] = .ok true :=
    ValidateProofE_agrees 64 _ _ _ _ _ _ (by decide)
  exact ⟨hok,
    overlongProofNilError concatHasher (ValueLeafs 1) [0, 1] [(0, [0])] [[1]] hok [[7], [8]]⟩

theorem calcLoop_total (H : Hasher) (lh : LeafHasher) (f h i : Nat)
    (node : List Nat) (parked : List (List Nat)) (st : VState) :
    calcLoop H lh f h i node parked st = .error .ErrShortProof ∨
      ∃ v st2, calcLoop H lh f h i node parked st = .ok (v, st2) := by
  induction f, h, i, node, parked, st using calcLoop.induct H lh with
  | case1 h i parked node st =>
    exact Or.inr ⟨node, st, calcLoop_zero H lh h i node parked st⟩
  | case2 f h i node parked st hemp hne =>
    left
    rw [calcLoop_exhausted _ _ _ _ _ _ _ _ hemp.1 hemp.2, if_pos hne]
  | case3 f h i node parked st hemp hne =>
    right
    exact ⟨node, st, by rw [calcLoop_exhausted _ _ _ _ _ _ _ _ hemp.1 hemp.2, if_neg hne]⟩
  | case4 f h i node parked st hguard i2 rest hidx hsib st1 hst1 =>
    exfalso
    have h1 : (copyParkedNodes lh h node parked st).indices = [] := hst1
    rw [copyParkedNodes_indices, hidx] at h1
    exact List.cons_ne_nil _ _ h1
  | case5 f h i node parked st hguard i2 rest hidx hsib st1 j tail hst1 s e hcalc ih =>
    have hst1b : (copyParkedNodes lh h node parked st).indices = j :: tail := hst1
    have hcalcb : calcLoop H lh h 0 j
        (leafStep lh j tail (copyParkedNodes lh h node parked st)).1
        (leafStep lh j tail (copyParkedNodes lh h node parked st)).2.1
        (leafStep lh j tail (copyParkedNodes lh h node parked st)).2.2 = .error e := hcalc
    have ihb : calcLoop H lh h 0 j
        (leafStep lh j tail (copyParkedNodes lh h node parked st)).1
        (leafStep lh j tail (copyParkedNodes lh h node parked st)).2.1
        (leafStep lh j tail (copyParkedNodes lh h node parked st)).2.2 =
          .error .ErrShortProof ∨
        ∃ v st2, calcLoop H lh h 0 j
          (leafStep lh j tail (copyParkedNodes lh h node parked st)).1
          (leafStep lh j tail (copyParkedNodes lh h node parked st)).2.1
          (leafStep lh j tail (copyParkedNodes lh h node parked st)).2.2 = .ok (v, st2) := ih
    have he : e = .ErrShortProof := by
      rcases ihb with hsp | ⟨v, st2, hvk⟩
      · rw [hcalcb] at hsp
        exact Except.error.inj hsp
      · rw [hcalcb] at hvk
        exact absurd hvk (by simp)
    have hmain : calcLoop H lh (f + 1) h i node parked st = .error e := by
      rw [calcLoop_sibling _ _ _ _ _ _ _ _ i2 rest hidx hsib, calcRoot.eq_def, hst1b]
      simp only []
      rw [hcalcb]
    left
    rw [hmain, he]
  | case6 f h i node parked st hguard i2 rest hidx hsib st1 j tail hst1 s sibling st3 hcalc ih1 ih2 =>
    have hst1b : (copyParkedNodes lh h node parked st).indices = j :: tail := hst1
    have hcalcb : calcLoop H lh h 0 j
        (leafStep lh j tail (copyParkedNodes lh h node parked st)).1
        (leafStep lh j tail (copyParkedNodes lh h node parked st)).2.1
        (leafStep lh j tail (copyParkedNodes lh h node parked st)).2.2 =
          .ok (sibling, st3) := hcalc
    have hmain : calcLoop H lh (f + 1) h i node parked st =
        calcLoop H lh f (h + 1) (i >>> 1) (H.hash node sibling) parked st3 := by
      rw [calcLoop_sibling _ _ _ _ _ _ _ _ i2 rest hidx hsib, calcRoot.eq_def, hst1b]
      simp only []
      rw [hcalcb]
    rw [hmain]
    exact ih2
  | case7 f h i node parked st hguard i2 rest hidx hne hp =>
    left
    rw [calcLoop_pop _ _ _ _ _ _ _ _ hguard (Or.inr ⟨i2, rest, hidx, hne⟩), hp]
  | case8 f h i node parked st hguard i2 rest hidx hne p restP hp lr ih =>
    have hlr : lr = if _h : i % 2 = 0 then (node, p) else (p, node) := rfl
    have hmain : calcLoop H lh (f + 1) h i node parked st =
        calcLoop H lh f (h + 1) (i >>> 1)
          (H.hash (if i % 2 = 0 then node else p) (if i % 2 = 0 then p else node)) parked
          { st with proof := restP } := by
      rw [calcLoop_pop _ _ _ _ _ _ _ _ hguard (Or.inr ⟨i2, rest, hidx, hne⟩), hp]
    rw [hmain]
    rw [hlr] at ih
    by_cases hpar : i % 2 = 0
    · simpa [hpar] using ih
    · simpa [hpar] using ih
  | case9 f h i node parked st hguard hidx hp =>
    exact absurd ⟨hp, hidx⟩ hguard
  | case10 f h i node parked st hguard hidx p restP hp lr ih =>
    have hlr : lr = if _h : i % 2 = 0 then (node, p) else (p, node) := rfl
    have hmain : calcLoop H lh (f + 1) h i node parked st =
        calcLoop H lh f (h + 1) (i >>> 1)
          (H.hash (if i % 2 = 0 then node else p) (if i % 2 = 0 then p else node)) parked
          { st with proof := restP } := by
      rw [calcLoop_pop _ _ _ _ _ _ _ _ hguard (Or.inl hidx), hp]
    rw [hmain]
    rw [hlr] at ih
    by_cases hpar : i % 2 = 0
    · simpa [hpar] using ih
    · simpa [hpar] using ih

/-- C4, amended: with the default (non-sequential) leaf hasher, once the
leaves map is nonempty `ValidateProof` can only fail with `ErrShortProof`;
in particular, truncating the last element of an accepted proof yields
either `ErrShortProof` or a nil-error boolean answer (the comparison of
the expected root with the digest recomputed from the shorter proof) —
not necessarily `ErrShortProof`. -/
theorem truncatedProofShortOrFalse (H : Hasher) (lh : LeafHasher) (root : List Nat)
    (leaves : List (Nat × List Nat)) (proof : List (List Nat))
    (hseq : lh.sequential = false)
    (hok : ValidateProof H lh root leaves proof = .ok true) :
    ValidateProof H lh root leaves proof.dropLast = .error .ErrShortProof ∨
      ∃ v, ValidateProof H lh root leaves proof.dropLast = .ok (decide (root = v)) := by
  unfold ValidateProof at hok ⊢
  by_cases hz : leaves.length = 0
  · rw [if_pos hz] at hok
    exact absurd hok (by simp)
  rw [if_neg hz]
  simp only []
  have hlen : (sortedKeys leaves).length = leaves.length := by
    have hperm : (sortedKeys leaves).Perm (leaves.map Prod.fst) :=
      List.perm_insertionSort _ _
    rw [hperm.length_eq, List.length_map]
  cases hI : sortedKeys leaves with
  | nil =>
    exfalso
    rw [hI] at hlen
    simp at hlen
    omega
  | cons i rest =>
    have hinit : initParkingNodes lh
        { leaves := leaves, indices := i :: rest, parkedNodes := [],
          proof := proof.dropLast } =
        ({ leaves := leaves, indices := i :: rest, parkedNodes := [],
           proof := proof.dropLast }, none) := by
      unfold initParkingNodes
      rw [hseq]
      simp
    have hinit1 : (initParkingNodes lh
        { leaves := leaves, indices := i :: rest, parkedNodes := [],
          proof := proof.dropLast }).1 =
        { leaves := leaves, indices := i :: rest, parkedNodes := [],
          proof := proof.dropLast } := by rw [hinit]
    cases heD : (initParkingNodes lh
        { leaves := leaves, indices := i :: rest, parkedNodes := [],
          proof := proof.dropLast }).2 with
    | some e =>
      exfalso
      rw [hinit] at heD
      simp at heD
    | none =>
      cases hcr : calcRoot H lh MaxUint64 (initParkingNodes lh
          { leaves := leaves, indices := i :: rest, parkedNodes := [],
            proof := proof.dropLast }).1 with
      | error e =>
        rw [hinit1, calcRoot.eq_def] at hcr
        have hcrb : calcLoop H lh MaxUint64 0 i
            (leafStep lh i rest
              { leaves := leaves, indices := i :: rest, parkedNodes := [],
                proof := proof.dropLast }).1
            (leafStep lh i rest
              { leaves := leaves, indices := i :: rest, parkedNodes := [],
                proof := proof.dropLast }).2.1
            (leafStep lh i rest
              { leaves := leaves, indices := i :: rest, parkedNodes := [],
                proof := proof.dropLast }).2.2 = .error e := hcr
        have he : e = .ErrShortProof := by
          rcases calcLoop_total H lh MaxUint64 0 i
              (leafStep lh i rest
                { leaves := leaves, indices := i :: rest, parkedNodes := [],
                  proof := proof.dropLast }).1
              (leafStep lh i rest
                { leaves := leaves, indices := i :: rest, parkedNodes := [],
                  proof := proof.dropLast }).2.1
              (leafStep lh i rest
                { leaves := leaves, indices := i :: rest, parkedNodes := [],
                  proof := proof.dropLast }).2.2 with hsp | ⟨v, st2, hvk⟩
          · rw [hcrb] at hsp
            exact Except.error.inj hsp
          · rw [hcrb] at hvk
            exact absurd hvk (by simp)
        left
        rw [he]
      | ok r =>
        right
        exact ⟨r.1, rfl⟩

/-- Witness for the amended C4 theorem at a concrete accepted proof
(the two-leaf tree proving leaf 0, where truncation in fact hits the
boolean branch). -/
theorem truncatedProofShortOrFalse_witness :
    (ValueLeafs 1).sequential = false ∧
      ValidateProof concatHasher (ValueLeafs 1) [0, 1] [(0, [0])] [[1]] = .ok true ∧
      (ValidateProof concatHasher (ValueLeafs 1) [0, 1] [(0, [0])]
          (([[1]] : List (List Nat)).dropLast) = .error .ErrShortProof ∨
        ∃ v, ValidateProof concatHasher (ValueLeafs 1) [0, 1] [(0, [0])]
            (([[1]] : List (List Nat)).dropLast) = .ok (decide ([0, 1] = v))) := by
  have hok : ValidateProof concatHasher (ValueLeafs 1) [0, 1] [(0, [0])] [[1]] = .ok true :=
    ValidateProofE_agrees 64 _ _ _ _ _ _ (by decide)
  exact ⟨rfl, hok,
    truncatedProofShortOrFalse concatHasher (ValueLeafs 1) [0, 1] [(0, [0])] [[1]] rfl hok⟩

theorem xor_one_of_even {c : Nat} (h : c % 2 = 0) : c ^^^ 1 = c + 1 := by
  apply Nat.eq_of_testBit_eq
  intro i
  cases i with
  | zero =>
    simp only [Nat.testBit_xor, Nat.testBit_zero]
    have h1 : (c + 1) % 2 = 1 := by omega
    simp [h, h1]
  | succ i =>
    rw [Nat.testBit_xor]
    rw [Nat.testBit_succ, Nat.testBit_succ, Nat.testBit_succ]
    have h1 : (c + 1) / 2 = c / 2 := by omega
    have h2 : 1 / 2 = 0 := by omega
    rw [h1, h2]
    simp [Nat.zero_testBit]

theorem xor_one_of_odd {c : Nat} (h : c % 2 = 1) : c ^^^ 1 = c - 1 := by
  have h0 : (c - 1) % 2 = 0 := by omega
  have h1 : (c - 1) ^^^ 1 = c - 1 + 1 := xor_one_of_even h0
  have h2 : c - 1 + 1 = c := by omega
  rw [h2] at h1
  calc c ^^^ 1 = ((c - 1) ^^^ 1) ^^^ 1 := by rw [h1]
  _ = (c - 1) ^^^ (1 ^^^ 1) := Nat.xor_assoc _ _ _
  _ = (c - 1) ^^^ 0 := by rw [Nat.xor_self]
  _ = c - 1 := Nat.xor_zero _

theorem sr_succ (x g : Nat) : x >>> (g + 1) = (x >>> g) / 2 := by
  rw [Nat.shiftRight_succ]

theorem sr_le_sr {x y : Nat} (g : Nat) (h : x ≤ y) : x >>> g ≤ y >>> g := by
  rw [Nat.shiftRight_eq_div_pow, Nat.shiftRight_eq_div_pow]
  exact Nat.div_le_div_right h

theorem sr_base_le (x g : Nat) : 2 ^ g * (x >>> g) ≤ x := by
  rw [Nat.shiftRight_eq_div_pow, Nat.mul_comm]
  exact Nat.div_mul_le_self x (2 ^ g)

theorem sr_lt_pow {x g B : Nat} (h : x < 2 ^ g * B) : x >>> g < B := by
  rw [Nat.shiftRight_eq_div_pow]
  exact Nat.div_lt_of_lt_mul (by omega)

section RoundTrip

variable (H : Hasher) (vs : List (List Nat)) (padding : List Nat) (S : List Nat)

/-- Value of node `(h, c)` (height `h`, position `c`) of the padded tree
over `vs`: a leaf below `vs.length` is its raw value, an interior node
whose leaf block `[c * 2^h, (c+1) * 2^h)` meets the leaf range is the hash
of its two children, and every node entirely beyond the leaves is the
padding value — exactly the value `RootAndProof` substitutes for a
missing child. -/
def V : Nat → Nat → List Nat
  | 0, c => if c < vs.length then vs.getD c [] else padding
  | h + 1, c =>
    if 2 ^ (h + 1) * c < vs.length then H.hash (V h (2 * c)) (V h (2 * c + 1))
    else padding

/-- Whether the index set `S` meets the leaf block of node `(h, b)`. -/
def bflag (h b : Nat) : Bool := S.any (fun s => s >>> h = b)

/-- The multiproof stream of block `(h, b)`: the sibling values a verifier
of the leaves of `S` inside the block consumes, in consumption order. -/
def pstream : Nat → Nat → List (List Nat)
  | 0, _ => []
  | h + 1, b =>
    if bflag S (h + 1) b then
      if !bflag S h (2 * b) then
        pstream h (2 * b + 1) ++ [V H vs padding h (2 * b)]
      else if !bflag S h (2 * b + 1) then
        pstream h (2 * b) ++ [V H vs padding h (2 * b + 1)]
      else pstream h (2 * b) ++ pstream h (2 * b + 1)
    else []

/-- What one climb step at node `(g, c)` consumes: the whole stream of the
sibling block when it holds indices still to be verified, else the single
sibling value. -/
def sibPart (g c : Nat) : List (List Nat) :=
  if c % 2 = 1 then [V H vs padding g (c - 1)]
  else if bflag S g (c + 1) then pstream H vs padding S g (c + 1)
  else [V H vs padding g (c + 1)]

/-- The stream consumed climbing from node `(g, c)` up `u` levels. -/
def climbStream : Nat → Nat → Nat → List (List Nat)
  | 0, _, _ => []
  | u + 1, g, c => sibPart H vs padding S g c ++ climbStream u (g + 1) (c >>> 1)

end RoundTrip

theorem bflag_true_iff (S : List Nat) (h b : Nat) :
    bflag S h b = true ↔ ∃ s ∈ S, s >>> h = b := by
  simp [bflag]

theorem bflag_succ_true (S : List Nat) (h b : Nat) :
    bflag S (h + 1) b = true ↔
      (bflag S h (2 * b) = true ∨ bflag S h (2 * b + 1) = true) := by
  simp only [bflag_true_iff]
  constructor
  · rintro ⟨s, hs, he⟩
    have hd : s >>> (h + 1) = (s >>> h) / 2 := sr_succ s h
    rw [hd] at he
    rcases Nat.lt_or_ge (s >>> h) (2 * b + 1) with h1 | h1
    · exact Or.inl ⟨s, hs, by omega⟩
    · exact Or.inr ⟨s, hs, by omega⟩
  · rintro (⟨s, hs, he⟩ | ⟨s, hs, he⟩) <;>
      exact ⟨s, hs, by rw [sr_succ, he]; omega⟩

theorem bflag_up {S : List Nat} {g b : Nat} (h : bflag S g b = true) :
    bflag S (g + 1) (b / 2) = true := by
  rw [bflag_true_iff] at h ⊢
  obtain ⟨s, hs, he⟩ := h
  exact ⟨s, hs, by rw [sr_succ, he]⟩

theorem pstream_flagless (H : Hasher) (vs : List (List Nat)) (padding : List Nat)
    (S : List Nat) (h b : Nat) (hf : bflag S h b = false) :
    pstream H vs padding S h b = [] := by
  cases h with
  | zero => rfl
  | succ h => rw [pstream, if_neg (by simp [hf])]

theorem climbStream_snoc (H : Hasher) (vs : List (List Nat)) (padding : List Nat)
    (S : List Nat) (u : Nat) :
    ∀ g c, climbStream H vs padding S (u + 1) g c =
      climbStream H vs padding S u g c ++ sibPart H vs padding S (g + u) (c >>> u) := by
  induction u with
  | zero =>
    intro g c
    simp [climbStream]
  | succ u ih =>
    intro g c
    rw [climbStream, ih (g + 1) (c >>> 1), climbStream]
    rw [List.append_assoc]
    have h1 : g + 1 + u = g + (u + 1) := by omega
    have h2 : (c >>> 1) >>> u = c >>> (u + 1) := by
      rw [← Nat.shiftRight_add, Nat.add_comm 1 u]
    rw [h1, h2]

theorem V_len (H : Hasher) (vs : List (List Nat)) (padding : List Nat)
    (hHs : ∀ a b, (H.hash a b).length = H.size) (hpad : padding.length = H.size)
    (hvs : ∀ v ∈ vs, v.length = H.size) :
    ∀ h c, (V H vs padding h c).length = H.size := by
  intro h
  induction h with
  | zero =>
    intro c
    rw [V]
    by_cases hc : c < vs.length
    · rw [if_pos hc]
      have h1 : vs.getD c [] = vs[c] := List.getD_eq_getElem vs [] hc
      rw [h1]
      exact hvs _ (List.getElem_mem hc)
    · rw [if_neg hc]
      exact hpad
  | succ h ih =>
    intro c
    rw [V]
    by_cases hc : 2 ^ (h + 1) * c < vs.length
    · rw [if_pos hc]
      exact hHs _ _
    · rw [if_neg hc]
      exact hpad

theorem copyMake_of_length {n : Nat} {src : List Nat} (h : src.length = n) :
    copyMake n src = src := by
  rw [copyMake, h.symm, List.take_length]
  simp

theorem copyMake_nil (n : Nat) : copyMake n [] = List.replicate n 0 := by
  simp [copyMake]

theorem V_absent (H : Hasher) (vs : List (List Nat)) (padding : List Nat)
    (g c : Nat) (h : vs.length ≤ 2 ^ g * c) :
    V H vs padding g c = padding := by
  cases g with
  | zero =>
    rw [V, if_neg]
    simpa using h
  | succ g =>
    rw [V, if_neg (by omega)]

theorem V_even (H : Hasher) (vs : List (List Nat)) (padding : List Nat)
    {g c : Nat} (hc : c % 2 = 0) (hex : 2 ^ g * c < vs.length) :
    V H vs padding (g + 1) (c >>> 1) =
      H.hash (V H vs padding g c) (V H vs padding g (c + 1)) := by
  have hdiv : c >>> 1 = c / 2 := Nat.shiftRight_one c
  have h2 : 2 * (c / 2) = c := by omega
  have heq : V H vs padding (g + 1) (c / 2) =
      if 2 ^ (g + 1) * (c / 2) < vs.length then
        H.hash (V H vs padding g (2 * (c / 2))) (V H vs padding g (2 * (c / 2) + 1))
      else padding := by rw [V]
  have hkey : 2 ^ (g + 1) * (c / 2) = 2 ^ g * c := by
    rw [pow_succ]
    calc 2 ^ g * 2 * (c / 2) = 2 ^ g * (2 * (c / 2)) := by ring
    _ = 2 ^ g * c := by rw [h2]
  rw [hdiv, heq, h2, hkey]
  rw [if_pos hex]

theorem V_odd (H : Hasher) (vs : List (List Nat)) (padding : List Nat)
    {g c : Nat} (hc : c % 2 = 1) (hex : 2 ^ g * c < vs.length) :
    V H vs padding (g + 1) (c >>> 1) =
      H.hash (V H vs padding g (c - 1)) (V H vs padding g c) := by
  have hdiv : c >>> 1 = c / 2 := Nat.shiftRight_one c
  have h2 : 2 * (c / 2) = c - 1 := by omega
  have h3 : 2 * (c / 2) + 1 = c := by omega
  have heq : V H vs padding (g + 1) (c / 2) =
      if 2 ^ (g + 1) * (c / 2) < vs.length then
        H.hash (V H vs padding g (2 * (c / 2))) (V H vs padding g (2 * (c / 2) + 1))
      else padding := by rw [V]
  have hkey : 2 ^ (g + 1) * (c / 2) = 2 ^ g * (c - 1) := by
    rw [pow_succ]
    calc 2 ^ g * 2 * (c / 2) = 2 ^ g * (2 * (c / 2)) := by ring
    _ = 2 ^ g * (c - 1) := by rw [h2]
  rw [hdiv, heq, h3, h2, hkey]
  rw [if_pos (by
    have hmono : 2 ^ g * (c - 1) ≤ 2 ^ g * c := Nat.mul_le_mul_left _ (Nat.sub_le c 1)
    omega)]

theorem arith_even_double {x : Nat} (h : x % 2 = 0) : 2 * (x / 2) = x := by omega

theorem arith_odd_double {x : Nat} (h : x % 2 = 1) : 2 * (x / 2) + 1 = x := by omega

theorem arith_odd_double_pred {x : Nat} (h : x % 2 = 1) : 2 * (x / 2) = x - 1 := by omega

theorem arith_odd_pos {x : Nat} (h : x % 2 = 1) : 1 ≤ x := by omega

theorem arith_no_le_pred {x : Nat} (h1 : 1 ≤ x) : ¬x ≤ x - 1 := by omega

theorem arith_double_div {x : Nat} : 2 * x / 2 = x := by omega

theorem pstream_eq_climb (H : Hasher) (vs : List (List Nat)) (padding : List Nat)
    (S : List Nat) (s0 : Nat) (hs0 : s0 ∈ S) :
    ∀ h, (∀ s ∈ S, s >>> h = s0 >>> h → s0 ≤ s) →
      pstream H vs padding S h (s0 >>> h) = climbStream H vs padding S h 0 s0 := by
  intro h
  induction h with
  | zero => intro _; rfl
  | succ h ih =>
    intro hmin
    have hmin' : ∀ s ∈ S, s >>> h = s0 >>> h → s0 ≤ s := by
      intro s hs he
      exact hmin s hs (by rw [sr_succ, sr_succ, he])
    have hd2 : s0 >>> (h + 1) = (s0 >>> h) / 2 := sr_succ s0 h
    have hsnoc := climbStream_snoc H vs padding S h 0 s0
    have htop : bflag S (h + 1) (s0 >>> (h + 1)) = true :=
      (bflag_true_iff S (h + 1) _).2 ⟨s0, hs0, rfl⟩
    rcases Nat.even_or_odd (s0 >>> h) with he | ho
    · -- the path continues through the left child
      have hpar : (s0 >>> h) % 2 = 0 := Nat.even_iff.1 he
      have h2b : 2 * (s0 >>> (h + 1)) = s0 >>> h := by
        rw [hd2]
        exact arith_even_double hpar
      have h2b1 : 2 * (s0 >>> (h + 1)) + 1 = s0 >>> h + 1 := by rw [h2b]
      have hfL : bflag S h (2 * (s0 >>> (h + 1))) = true := by
        rw [h2b]
        exact (bflag_true_iff S h _).2 ⟨s0, hs0, rfl⟩
      rw [pstream, if_pos htop, if_neg (by simp [hfL])]
      cases hfR : bflag S h (s0 >>> h + 1) with
      | true =>
        have hfR2 : bflag S h (2 * (s0 >>> (h + 1)) + 1) = true := by
          rw [h2b1]
          exact hfR
        rw [if_neg (by simp [hfR2])]
        rw [hsnoc, Nat.zero_add, sibPart, if_neg (by simp [hpar]), if_pos hfR]
        rw [h2b, ih hmin']
      | false =>
        have hfR2 : bflag S h (2 * (s0 >>> (h + 1)) + 1) = false := by
          rw [h2b1]
          exact hfR
        rw [if_pos (by simp [hfR2])]
        rw [hsnoc, Nat.zero_add, sibPart, if_neg (by simp [hpar]), if_neg (by simp [hfR])]
        rw [h2b, ih hmin']
    · -- the path is the right child; the left sibling block holds no index
      have hpar : (s0 >>> h) % 2 = 1 := Nat.odd_iff.1 ho
      have h2b1 : 2 * (s0 >>> (h + 1)) + 1 = s0 >>> h := by
        rw [hd2]
        exact arith_odd_double hpar
      have h2b : 2 * (s0 >>> (h + 1)) = s0 >>> h - 1 := by
        rw [hd2]
        exact arith_odd_double_pred hpar
      have hfL : bflag S h (2 * (s0 >>> (h + 1))) = false := by
        cases hb : bflag S h (2 * (s0 >>> (h + 1))) with
        | false => rfl
        | true =>
          exfalso
          obtain ⟨s, hs, hsh⟩ := (bflag_true_iff S h _).1 hb
          have hup : s >>> (h + 1) = s0 >>> (h + 1) := by
            rw [sr_succ, hsh]
            exact arith_double_div
          have hle := hmin s hs hup
          have hmono := sr_le_sr h hle
          have h1 : s0 >>> h ≤ s0 >>> h - 1 := by
            rw [← h2b, ← hsh]
            exact hmono
          exact absurd h1 (arith_no_le_pred (arith_odd_pos hpar))
      rw [pstream, if_pos htop, if_pos (by simp [hfL])]
      rw [hsnoc, Nat.zero_add, sibPart, if_pos hpar]
      rw [h2b1, h2b, ih hmin']

theorem copyParkedNodes_nonseq (lh : LeafHasher) (h : Nat) (node : List Nat)
    (parked : List (List Nat)) (st : VState) (hseq : lh.sequential = false) :
    copyParkedNodes lh h node parked st = st := by
  simp [copyParkedNodes, hseq]

theorem lookupBytes_map (vs : List (List Nat)) (S : List Nat) (j : Nat) (hj : j ∈ S) :
    lookupBytes (S.map (fun i => (i, vs.getD i []))) j = vs.getD j [] := by
  induction S with
  | nil => simp at hj
  | cons i rest ih =>
    by_cases hij : i = j
    · subst hij
      simp [lookupBytes, List.find?_cons]
    · have hj' : j ∈ rest := by
        rcases List.mem_cons.1 hj with h1 | h1
        · exact absurd h1.symm hij
        · exact h1
      have hstep : lookupBytes ((i :: rest).map (fun i => (i, vs.getD i []))) j =
          lookupBytes (rest.map (fun i => (i, vs.getD i []))) j := by
        simp only [List.map_cons, lookupBytes, List.find?_cons]
        rw [show (decide ((i, vs.getD i []).1 = j)) = false by simp [hij]]
      rw [hstep]
      exact ih hj'

theorem V_leaf (H : Hasher) (vs : List (List Nat)) (padding : List Nat)
    {j : Nat} (hj : j < vs.length) :
    V H vs padding 0 j = vs.getD j [] := by
  rw [V, if_pos hj]

theorem hex_up {n g c : Nat} (h : 2 ^ g * c < n) : 2 ^ (g + 1) * (c >>> 1) < n := by
  have h1 : c >>> 1 = c / 2 := Nat.shiftRight_one c
  have h2 : 2 * (c / 2) ≤ c := by omega
  have h3 : 2 ^ g * (2 * (c / 2)) ≤ 2 ^ g * c := Nat.mul_le_mul_left _ h2
  rw [h1, pow_succ]
  calc 2 ^ g * 2 * (c / 2) = 2 ^ g * (2 * (c / 2)) := by ring
  _ ≤ 2 ^ g * c := h3
  _ < n := h

theorem arith_lift {c A M : Nat} (hM : 2 ≤ M) (hMe : M % 2 = 0) (hc : c % 2 = 0)
    (h : c / M < A / M) : c + 1 < A := by
  have hpos : 0 < M := by omega
  have h1 : c / M + 1 ≤ A / M := h
  have h2 : (c / M + 1) * M ≤ A := (Nat.le_div_iff_mul_le hpos).1 h1
  have h3 : (c / M + 1) * M = M * (c / M) + M := by ring
  have hdm := Nat.div_add_mod c M
  have hre : c % M % 2 = c % 2 := Nat.mod_mod_of_dvd c (by omega)
  have h4 : c % M < M := Nat.mod_lt _ hpos
  omega

theorem sr_eq_div_pow (x k : Nat) : x >>> k = x / 2 ^ k := Nat.shiftRight_eq_div_pow x k

theorem sr_succ_even_eq {c : Nat} (k : Nat) (hc : c % 2 = 0) (hk : 1 ≤ k) :
    (c + 1) >>> k = c >>> k := by
  cases k with
  | zero => omega
  | succ k =>
    have ha : (c + 1) >>> (k + 1) = ((c + 1) >>> 1) >>> k := by
      rw [← Nat.shiftRight_add, Nat.add_comm 1 k]
    have hb : c >>> (k + 1) = (c >>> 1) >>> k := by
      rw [← Nat.shiftRight_add, Nat.add_comm 1 k]
    rw [ha, hb, Nat.shiftRight_one, Nat.shiftRight_one]
    have : (c + 1) / 2 = c / 2 := by omega
    rw [this]

theorem pow_two_even (k : Nat) (hk : 1 ≤ k) : 2 ^ k % 2 = 0 := by
  have : (2 : Nat) ∣ 2 ^ k := dvd_pow_self 2 (by omega)
  omega

theorem pow_two_ge_two (k : Nat) (hk : 1 ≤ k) : 2 ≤ 2 ^ k := by
  calc 2 = 2 ^ 1 := (pow_one 2).symm
  _ ≤ 2 ^ k := Nat.pow_le_pow_right (by omega) hk

theorem valClimb (H : Hasher) (lh : LeafHasher) (vs : List (List Nat)) (padding : List Nat)
    (S : List Nat) (pk : List (Nat × List (List Nat)))
    (hseq : lh.sequential = false) (hleaf : ∀ d p, lh.hash d p = d)
    (hSn : ∀ s ∈ S, s < vs.length) :
    ∀ T u g, g + u ≤ T →
      ∀ (c : Nat) (J : List Nat) (pr : List (List Nat)) (w : Nat) (pkd : List (List Nat)),
      2 ^ g * c < vs.length →
      List.Pairwise (· < ·) J →
      (∀ r ∈ J, r ∈ S) →
      (∀ r ∈ J, c < r >>> g) →
      (∀ s ∈ S, c < s >>> g → s ∈ J) →
      calcLoop H lh (u + w) g c (V H vs padding g c) pkd
        { leaves := S.map (fun i => (i, vs.getD i [])), indices := J, parkedNodes := pk,
          proof := climbStream H vs padding S u g c ++ pr } =
      calcLoop H lh w (g + u) (c >>> u) (V H vs padding (g + u) (c >>> u)) pkd
        { leaves := S.map (fun i => (i, vs.getD i [])),
          indices := J.filter (fun r => decide (c >>> u < r >>> (g + u))),
          parkedNodes := pk, proof := pr } := by
  intro T
  induction T using Nat.strong_induction_on with
  | h T ihT =>
  intro u
  induction u with
  | zero =>
    intro g hT c J pr w pkd hex hpw hsub h1 h4
    have hfil : J.filter (fun r => decide (c >>> 0 < r >>> (g + 0))) = J := by
      rw [List.filter_eq_self]
      intro r hr
      simp only [Nat.shiftRight_zero, Nat.add_zero]
      exact decide_eq_true (h1 r hr)
    rw [hfil]
    rw [show climbStream H vs padding S 0 g c = [] from rfl, List.nil_append]
    simp only [Nat.zero_add, Nat.add_zero, Nat.shiftRight_zero]
  | succ u ihu =>
    intro g hT c J pr w pkd hex hpw hsub h1 h4
    have hfuel : u + 1 + w = (u + w) + 1 := by omega
    have hT' : g + 1 + u ≤ T := by omega
    have hgT : g < T := by omega
    have e1 : g + 1 + u = g + (u + 1) := by omega
    have e2 : (c >>> 1) >>> u = c >>> (u + 1) := by
      rw [← Nat.shiftRight_add, Nat.add_comm 1 u]
    have hexu : 2 ^ (g + 1) * (c >>> 1) < vs.length := hex_up hex
    rw [hfuel, climbStream]
    rcases Nat.even_or_odd c with hce | hco
    · have hpar : c % 2 = 0 := Nat.even_iff.1 hce
      clear hce
      cases hfR : bflag S g (c + 1) with
      | false =>
        -- even position, no indices in the sibling block: pop the sibling value
        have hsib : sibPart H vs padding S g c = [V H vs padding g (c + 1)] := by
          rw [sibPart, if_neg (by simp [hpar]), if_neg (by simp [hfR])]
        have hns : J = [] ∨ ∃ i2 rest, J = i2 :: rest ∧ i2 >>> g ≠ c ^^^ 1 := by
          cases J with
          | nil => exact Or.inl rfl
          | cons j J2 =>
            refine Or.inr ⟨j, J2, rfl, ?_⟩
            intro hj
            rw [xor_one_of_even hpar] at hj
            have hbt : bflag S g (c + 1) = true :=
              (bflag_true_iff S g _).2 ⟨j, hsub j (by simp), hj⟩
            rw [hfR] at hbt
            exact absurd hbt (by simp)
        have hstep : calcLoop H lh ((u + w) + 1) g c (V H vs padding g c) pkd
            { leaves := S.map (fun i => (i, vs.getD i [])), indices := J, parkedNodes := pk,
              proof := V H vs padding g (c + 1) ::
                (climbStream H vs padding S u (g + 1) (c >>> 1) ++ pr) } =
            calcLoop H lh (u + w) (g + 1) (c >>> 1)
              (V H vs padding (g + 1) (c >>> 1)) pkd
              { leaves := S.map (fun i => (i, vs.getD i [])), indices := J, parkedNodes := pk,
                proof := climbStream H vs padding S u (g + 1) (c >>> 1) ++ pr } := by
          rw [calcLoop_pop H lh (u + w) g c (V H vs padding g c) pkd
            { leaves := S.map (fun i => (i, vs.getD i [])), indices := J, parkedNodes := pk,
              proof := V H vs padding g (c + 1) ::
                (climbStream H vs padding S u (g + 1) (c >>> 1) ++ pr) }
            (by simp) hns]
          simp only []
          rw [if_pos hpar, if_pos hpar, V_even H vs padding hpar hex]
        rw [hsib, List.append_assoc, List.singleton_append, hstep]
        have h1' : ∀ r ∈ J, c >>> 1 < r >>> (g + 1) := by
          intro r hr
          have ha := h1 r hr
          have hne : r >>> g ≠ c + 1 := by
            intro hEq
            have hbt : bflag S g (c + 1) = true :=
              (bflag_true_iff S g _).2 ⟨r, hsub r hr, hEq⟩
            rw [hfR] at hbt
            exact absurd hbt (by simp)
          rw [sr_succ r g, Nat.shiftRight_one c]
          omega
        have h4' : ∀ s ∈ S, c >>> 1 < s >>> (g + 1) → s ∈ J := by
          intro s hs hlt
          rw [sr_succ s g, Nat.shiftRight_one c] at hlt
          exact h4 s hs (by omega)
        rw [ihu (g + 1) hT' (c >>> 1) J pr w pkd hexu hpw hsub h1' h4']
        rw [e1, e2]
      | true =>
        -- even position with the sibling block to verify: recursive subtree
        obtain ⟨s1, hs1S, hs1g⟩ := (bflag_true_iff S g _).1 hfR
        have hs1J : s1 ∈ J := h4 s1 hs1S (by rw [hs1g]; omega)
        cases J with
        | nil => exact absurd hs1J (List.not_mem_nil s1)
        | cons j J2 =>
          have hjS : j ∈ S := hsub j (by simp)
          have hjn : j < vs.length := hSn j hjS
          have hjlt : ∀ s ∈ J2, j < s := (List.pairwise_cons.1 hpw).1
          have hmemle : ∀ s, s ∈ j :: J2 → j ≤ s := by
            intro s hs
            rcases List.mem_cons.1 hs with h1s | h1s
            · exact Nat.le_of_eq h1s.symm
            · exact Nat.le_of_lt (hjlt s h1s)
          have hjg : j >>> g = c + 1 := by
            have hub : j ≤ s1 := hmemle s1 hs1J
            have hmono := sr_le_sr g hub
            rw [hs1g] at hmono
            have hgt := h1 j (by simp)
            omega
          have hmin_j : ∀ s ∈ S, s >>> g = j >>> g → j ≤ s := by
            intro s hs he
            exact hmemle s (h4 s hs (by rw [he, hjg]; omega))
          have hps : pstream H vs padding S g (c + 1) = climbStream H vs padding S g 0 j := by
            have hh := pstream_eq_climb H vs padding S j hjS g hmin_j
            rw [hjg] at hh
            exact hh
          have hsib : sibPart H vs padding S g c = pstream H vs padding S g (c + 1) := by
            rw [sibPart, if_neg (by simp [hpar]), if_pos hfR]
          rw [hsib, hps, List.append_assoc]
          -- the recursive sibling run, by the strong induction at height g
          have h1s : ∀ r ∈ J2, j < r >>> 0 := by
            intro r hr
            rw [Nat.shiftRight_zero]
            exact hjlt r hr
          have h4s : ∀ s ∈ S, j < s >>> 0 → s ∈ J2 := by
            intro s hs hlt
            rw [Nat.shiftRight_zero] at hlt
            have hsJ : s ∈ j :: J2 := by
              apply h4 s hs
              have hm := sr_le_sr g (Nat.le_of_lt hlt)
              rw [hjg] at hm
              omega
            rcases List.mem_cons.1 hsJ with h1x | h1x
            · rw [h1x] at hlt
              exact absurd hlt (Nat.lt_irrefl j)
            · exact h1x
          have hexj : 2 ^ 0 * j < vs.length := by
            rw [pow_zero, Nat.one_mul]
            exact hjn
          have hpw2 : List.Pairwise (· < ·) J2 := (List.pairwise_cons.1 hpw).2
          have hsub2 : ∀ r ∈ J2, r ∈ S := fun r hr => hsub r (List.mem_cons_of_mem j hr)
          have hinner := ihT g hgT g 0 (by omega) j J2
            (climbStream H vs padding S u (g + 1) (c >>> 1) ++ pr) 0 (lookupParked pk j)
            hexj hpw2 hsub2 h1s h4s
          rw [Nat.zero_add, Nat.add_zero, hjg] at hinner
          have hxor : j >>> g = c ^^^ 1 := by rw [xor_one_of_even hpar, hjg]
          have hstep := calcLoop_sibling H lh (u + w) g c (V H vs padding g c) pkd
            { leaves := S.map (fun i => (i, vs.getD i [])), indices := j :: J2,
              parkedNodes := pk,
              proof := climbStream H vs padding S g 0 j ++
                (climbStream H vs padding S u (g + 1) (c >>> 1) ++ pr) }
            j J2 rfl hxor
          rw [copyParkedNodes_nonseq lh g (V H vs padding g c) pkd _ hseq,
            calcRoot.eq_def] at hstep
          simp only [] at hstep
          have hls1 : (leafStep lh j J2
              { leaves := S.map (fun i => (i, vs.getD i [])), indices := j :: J2,
                parkedNodes := pk,
                proof := climbStream H vs padding S g 0 j ++
                  (climbStream H vs padding S u (g + 1) (c >>> 1) ++ pr) }).1 =
              V H vs padding 0 j := by
            simp only [leafStep]
            rw [hleaf, lookupBytes_map vs S j hjS, V_leaf H vs padding hjn]
          have hls2 : (leafStep lh j J2
              { leaves := S.map (fun i => (i, vs.getD i [])), indices := j :: J2,
                parkedNodes := pk,
                proof := climbStream H vs padding S g 0 j ++
                  (climbStream H vs padding S u (g + 1) (c >>> 1) ++ pr) }).2.1 =
              lookupParked pk j := rfl
          have hls3 : (leafStep lh j J2
              { leaves := S.map (fun i => (i, vs.getD i [])), indices := j :: J2,
                parkedNodes := pk,
                proof := climbStream H vs padding S g 0 j ++
                  (climbStream H vs padding S u (g + 1) (c >>> 1) ++ pr) }).2.2 =
              { leaves := S.map (fun i => (i, vs.getD i [])), indices := J2,
                parkedNodes := pk,
                proof := climbStream H vs padding S g 0 j ++
                  (climbStream H vs padding S u (g + 1) (c >>> 1) ++ pr) } := rfl
          rw [hls1, hls2, hls3, hinner, calcLoop_zero] at hstep
          have htrans : calcLoop H lh ((u + w) + 1) g c (V H vs padding g c) pkd
              { leaves := S.map (fun i => (i, vs.getD i [])), indices := j :: J2,
                parkedNodes := pk,
                proof := climbStream H vs padding S g 0 j ++
                  (climbStream H vs padding S u (g + 1) (c >>> 1) ++ pr) } =
              calcLoop H lh (u + w) (g + 1) (c >>> 1)
                (H.hash (V H vs padding g c) (V H vs padding g (c + 1))) pkd
                { leaves := S.map (fun i => (i, vs.getD i [])),
                  indices := J2.filter (fun r => decide (c + 1 < r >>> g)),
                  parkedNodes := pk,
                  proof := climbStream H vs padding S u (g + 1) (c >>> 1) ++ pr } := by
            rw [hstep]
          rw [htrans, ← V_even H vs padding hpar hex]
          have hpwf : List.Pairwise (· < ·)
              (J2.filter (fun r => decide (c + 1 < r >>> g))) := hpw2.filter _
          have hsubf : ∀ r ∈ J2.filter (fun r => decide (c + 1 < r >>> g)), r ∈ S :=
            fun r hr => hsub2 r (List.mem_of_mem_filter hr)
          have h1f : ∀ r ∈ J2.filter (fun r => decide (c + 1 < r >>> g)),
              c >>> 1 < r >>> (g + 1) := by
            intro r hr
            have hp1 : c + 1 < r >>> g := of_decide_eq_true (List.mem_filter.1 hr).2
            rw [sr_succ r g, Nat.shiftRight_one c]
            omega
          have h4f : ∀ s ∈ S, c >>> 1 < s >>> (g + 1) →
              s ∈ J2.filter (fun r => decide (c + 1 < r >>> g)) := by
            intro s hs hlt
            rw [sr_succ s g, Nat.shiftRight_one c] at hlt
            have hgt : c + 1 < s >>> g := by omega
            have hsJ : s ∈ j :: J2 := h4 s hs (by omega)
            rcases List.mem_cons.1 hsJ with h1x | h1x
            · exfalso
              rw [h1x, hjg] at hgt
              exact absurd hgt (Nat.lt_irrefl _)
            · exact List.mem_filter.2 ⟨h1x, decide_eq_true hgt⟩
          rw [ihu (g + 1) hT' (c >>> 1) (J2.filter (fun r => decide (c + 1 < r >>> g)))
            pr w pkd hexu hpwf hsubf h1f h4f]
          rw [e1, e2]
          have hj3 : j >>> (g + (u + 1)) = c >>> (u + 1) := by
            rw [Nat.shiftRight_add j g (u + 1), hjg,
              sr_succ_even_eq (u + 1) hpar (by omega)]
          have hcond : decide (c >>> (u + 1) < j >>> (g + (u + 1))) = false := by
            rw [hj3]
            simp
          have hfc : (J2.filter (fun r => decide (c + 1 < r >>> g))).filter
              (fun r => decide (c >>> (u + 1) < r >>> (g + (u + 1)))) =
              (j :: J2).filter (fun r => decide (c >>> (u + 1) < r >>> (g + (u + 1)))) := by
            rw [List.filter_cons, hcond]
            simp only [Bool.false_eq_true, if_false]
            rw [List.filter_filter]
            apply List.filter_congr
            intro r hr
            cases hd : decide (c >>> (u + 1) < r >>> (g + (u + 1))) with
            | false => simp [hd]
            | true =>
              have hlt : c >>> (u + 1) < r >>> (g + (u + 1)) := of_decide_eq_true hd
              have hp1 : c + 1 < r >>> g := by
                rw [sr_eq_div_pow c (u + 1), Nat.shiftRight_add r g (u + 1),
                  sr_eq_div_pow (r >>> g) (u + 1)] at hlt
                exact arith_lift (pow_two_ge_two (u + 1) (by omega))
                  (pow_two_even (u + 1) (by omega)) hpar hlt
              simp [hd, hp1]
          rw [hfc]
    · have hpar : c % 2 = 1 := Nat.odd_iff.1 hco
      clear hco
      -- odd position: the left sibling value is popped
      have hsib : sibPart H vs padding S g c = [V H vs padding g (c - 1)] := by
        rw [sibPart, if_pos hpar]
      have hns : J = [] ∨ ∃ i2 rest, J = i2 :: rest ∧ i2 >>> g ≠ c ^^^ 1 := by
        cases J with
        | nil => exact Or.inl rfl
        | cons j J2 =>
          refine Or.inr ⟨j, J2, rfl, ?_⟩
          intro hj
          rw [xor_one_of_odd hpar] at hj
          have hgt := h1 j (by simp)
          rw [hj] at hgt
          omega
      have hstep : calcLoop H lh ((u + w) + 1) g c (V H vs padding g c) pkd
          { leaves := S.map (fun i => (i, vs.getD i [])), indices := J, parkedNodes := pk,
            proof := V H vs padding g (c - 1) ::
              (climbStream H vs padding S u (g + 1) (c >>> 1) ++ pr) } =
          calcLoop H lh (u + w) (g + 1) (c >>> 1)
            (V H vs padding (g + 1) (c >>> 1)) pkd
            { leaves := S.map (fun i => (i, vs.getD i [])), indices := J, parkedNodes := pk,
              proof := climbStream H vs padding S u (g + 1) (c >>> 1) ++ pr } := by
        rw [calcLoop_pop H lh (u + w) g c (V H vs padding g c) pkd
          { leaves := S.map (fun i => (i, vs.getD i [])), indices := J, parkedNodes := pk,
            proof := V H vs padding g (c - 1) ::
              (climbStream H vs padding S u (g + 1) (c >>> 1) ++ pr) }
          (by simp) hns]
        simp only []
        rw [if_neg (by simp [hpar]), if_neg (by simp [hpar]),
          V_odd H vs padding hpar hex]
      rw [hsib, List.append_assoc, List.singleton_append, hstep]
      have h1' : ∀ r ∈ J, c >>> 1 < r >>> (g + 1) := by
        intro r hr
        have ha := h1 r hr
        rw [sr_succ r g, Nat.shiftRight_one c]
        omega
      have h4' : ∀ s ∈ S, c >>> 1 < s >>> (g + 1) → s ∈ J := by
        intro s hs hlt
        rw [sr_succ s g, Nat.shiftRight_one c] at hlt
        exact h4 s hs (by omega)
      rw [ihu (g + 1) hT' (c >>> 1) J pr w pkd hexu hpw hsub h1' h4']
      rw [e1, e2]

theorem bitsLenAux_le (fuel : Nat) : ∀ n, bitsLenAux fuel n ≤ fuel := by
  induction fuel with
  | zero => intro n; rw [bitsLenAux]
  | succ fuel ih =>
    intro n
    rw [bitsLenAux]
    by_cases hn : n = 0
    · rw [if_pos hn]; omega
    · rw [if_neg hn]
      have := ih (n / 2)
      omega

theorem lt_two_pow_bitsLenAux : ∀ fuel n, n ≤ fuel → n < 2 ^ bitsLenAux fuel n := by
  intro fuel
  induction fuel with
  | zero =>
    intro n hn
    have : n = 0 := by omega
    subst this
    rw [bitsLenAux]
    simp
  | succ fuel ih =>
    intro n hn
    rw [bitsLenAux]
    by_cases h0 : n = 0
    · rw [if_pos h0]
      subst h0
      simp
    · rw [if_neg h0]
      have hrec := ih (n / 2) (by omega)
      rw [pow_succ]
      omega

theorem lt_two_pow_bitsLen (n : Nat) : n < 2 ^ bitsLen n :=
  lt_two_pow_bitsLenAux n n (Nat.le_refl n)

theorem bitsLen_le_self (n : Nat) : bitsLen n ≤ n := bitsLenAux_le n n

theorem sortedKeys_map_eq (vs : List (List Nat)) (S : List Nat)
    (hsorted : List.Pairwise (· < ·) S) :
    sortedKeys (S.map (fun i => (i, vs.getD i []))) = S := by
  have h1 : (S.map (fun i => (i, vs.getD i []))).map Prod.fst = S := by
    rw [List.map_map]
    have h2 : (Prod.fst ∘ fun i : Nat => (i, vs.getD i [])) = id := rfl
    rw [h2, List.map_id]
  rw [sortedKeys, h1]
  exact List.Sorted.insertionSort_eq (hsorted.imp (fun h => Nat.le_of_lt h))

theorem validatorAccepts (H : Hasher) (lh : LeafHasher) (vs : List (List Nat))
    (padding : List Nat) (S : List Nat)
    (hseq : lh.sequential = false) (hleaf : ∀ d p, lh.hash d p = d)
    (hSn : ∀ s ∈ S, s < vs.length) (hS : S ≠ [])
    (hsorted : List.Pairwise (· < ·) S)
    (hn : 1 ≤ vs.length) (hn64 : vs.length ≤ MaxUint64) :
    ValidateProof H lh (V H vs padding (bitsLen (vs.length - 1)) 0)
      (S.map (fun i => (i, vs.getD i [])))
      (pstream H vs padding S (bitsLen (vs.length - 1)) 0) = .ok true := by
  obtain ⟨s0, S2, rfl⟩ : ∃ a l, S = a :: l := by
    cases S with
    | nil => exact absurd rfl hS
    | cons a l => exact ⟨a, l, rfl⟩
  have hK1 : bitsLen (vs.length - 1) ≤ vs.length - 1 := bitsLen_le_self _
  have hKM : bitsLen (vs.length - 1) + (MaxUint64 - bitsLen (vs.length - 1)) = MaxUint64 := by
    omega
  have hsrK : ∀ s : Nat, s < vs.length → s >>> bitsLen (vs.length - 1) = 0 := by
    intro s hs
    have h2 : s < 2 ^ bitsLen (vs.length - 1) := by
      have := lt_two_pow_bitsLen (vs.length - 1)
      omega
    rw [sr_eq_div_pow]
    exact Nat.div_eq_of_lt h2
  have hs0S : s0 ∈ s0 :: S2 := by simp
  have hs0n : s0 < vs.length := hSn s0 hs0S
  have hpw2 : List.Pairwise (· < ·) S2 := (List.pairwise_cons.1 hsorted).2
  have hlt2 : ∀ s ∈ S2, s0 < s := (List.pairwise_cons.1 hsorted).1
  unfold ValidateProof
  rw [if_neg (by rw [List.length_map]; intro hc; exact hS (List.eq_nil_of_length_eq_zero hc))]
  simp only []
  rw [sortedKeys_map_eq vs (s0 :: S2) hsorted]
  have hinit : initParkingNodes lh
      { leaves := (s0 :: S2).map (fun i => (i, vs.getD i [])), indices := s0 :: S2,
        parkedNodes := [],
        proof := pstream H vs padding (s0 :: S2) (bitsLen (vs.length - 1)) 0 } =
      ({ leaves := (s0 :: S2).map (fun i => (i, vs.getD i [])), indices := s0 :: S2,
         parkedNodes := [],
         proof := pstream H vs padding (s0 :: S2) (bitsLen (vs.length - 1)) 0 }, none) := by
    unfold initParkingNodes
    rw [hseq]
    simp
  rw [hinit]
  simp only []
  rw [calcRoot.eq_def]
  simp only []
  have hls1 : (leafStep lh s0 S2
      { leaves := (s0 :: S2).map (fun i => (i, vs.getD i [])), indices := s0 :: S2,
        parkedNodes := [],
        proof := pstream H vs padding (s0 :: S2) (bitsLen (vs.length - 1)) 0 }).1 =
      V H vs padding 0 s0 := by
    simp only [leafStep]
    rw [hleaf, lookupBytes_map vs (s0 :: S2) s0 hs0S, V_leaf H vs padding hs0n]
  have hls2 : (leafStep lh s0 S2
      { leaves := (s0 :: S2).map (fun i => (i, vs.getD i [])), indices := s0 :: S2,
        parkedNodes := [],
        proof := pstream H vs padding (s0 :: S2) (bitsLen (vs.length - 1)) 0 }).2.1 =
      lookupParked [] s0 := rfl
  have hls3 : (leafStep lh s0 S2
      { leaves := (s0 :: S2).map (fun i => (i, vs.getD i [])), indices := s0 :: S2,
        parkedNodes := [],
        proof := pstream H vs padding (s0 :: S2) (bitsLen (vs.length - 1)) 0 }).2.2 =
      { leaves := (s0 :: S2).map (fun i => (i, vs.getD i [])), indices := S2,
        parkedNodes := [],
        proof := pstream H vs padding (s0 :: S2) (bitsLen (vs.length - 1)) 0 } := rfl
  rw [hls1, hls2, hls3]
  have hmin0 : ∀ s ∈ s0 :: S2,
      s >>> bitsLen (vs.length - 1) = s0 >>> bitsLen (vs.length - 1) → s0 ≤ s := by
    intro s hs _
    rcases List.mem_cons.1 hs with h1 | h1
    · omega
    · have hlt := hlt2 s h1
      omega
  have hs0K : s0 >>> bitsLen (vs.length - 1) = 0 := hsrK s0 hs0n
  have hps : pstream H vs padding (s0 :: S2) (bitsLen (vs.length - 1)) 0 =
      climbStream H vs padding (s0 :: S2) (bitsLen (vs.length - 1)) 0 s0 := by
    have hh := pstream_eq_climb H vs padding (s0 :: S2) s0 hs0S
      (bitsLen (vs.length - 1)) hmin0
    rw [hs0K] at hh
    exact hh
  rw [hps]
  have hsub2 : ∀ r ∈ S2, r ∈ s0 :: S2 := fun r hr => List.mem_cons_of_mem s0 hr
  have h1c : ∀ r ∈ S2, s0 < r >>> 0 := by
    intro r hr
    rw [Nat.shiftRight_zero]
    exact hlt2 r hr
  have h4c : ∀ s ∈ s0 :: S2, s0 < s >>> 0 → s ∈ S2 := by
    intro s hs hlt
    rw [Nat.shiftRight_zero] at hlt
    rcases List.mem_cons.1 hs with h1 | h1
    · omega
    · exact h1
  have hclimb := valClimb H lh vs padding (s0 :: S2) [] hseq hleaf hSn
    (bitsLen (vs.length - 1)) (bitsLen (vs.length - 1)) 0 (by omega) s0 S2 []
    (MaxUint64 - bitsLen (vs.length - 1)) (lookupParked [] s0)
    (by rw [pow_zero, Nat.one_mul]; exact hs0n) hpw2 hsub2 h1c h4c
  rw [hKM, Nat.zero_add, hs0K, List.append_nil] at hclimb
  rw [hclimb]
  have hfil : S2.filter
      (fun r => decide ((0 : Nat) < r >>> (bitsLen (vs.length - 1)))) = [] := by
    rw [List.filter_eq_nil_iff]
    intro r hr
    rw [hsrK r (hSn r (hsub2 r hr))]
    simp
  rw [hfil]
  obtain ⟨w2, hw2⟩ : ∃ w2, MaxUint64 - bitsLen (vs.length - 1) = w2 + 1 :=
    ⟨MaxUint64 - bitsLen (vs.length - 1) - 1, by omega⟩
  rw [hw2]
  rw [calcLoop_exhausted H lh w2 (bitsLen (vs.length - 1)) 0 _ _ _ rfl rfl]
  rw [if_neg (by simp)]
  simp

section BuildSide

variable (H : Hasher) (vs : List (List Nat)) (padding : List Nat) (S : List Nat)

/-- The layer the binary-counter tree holds at height `h` after `m` leaves:
occupied exactly when bit `h` of `m` is set, holding the subtree value of
the last completed block at that height, flagged when that block holds an
index to prove. -/
def slotOf (m h : Nat) : Layer :=
  if (m >>> h) % 2 = 1 then
    ⟨some (V H vs padding h ((m >>> h) - 1)), bflag S h ((m >>> h) - 1)⟩
  else ⟨none, false⟩

/-- The layers from height `h` upwards (`d` of them). -/
def tailLayersAux (m : Nat) : Nat → Nat → List Layer
  | 0, _ => []
  | d + 1, h => slotOf H vs padding S m h :: tailLayersAux m d (h + 1)

/-- The full layer list after `m` leaves. -/
def layersOf (m : Nat) : List Layer :=
  if m = 0 then [⟨none, false⟩]
  else tailLayersAux H vs padding S m (bitsLen m) 0

/-- The proof element emitted by the merge at height `h` of the parked
block `q - 1` (left) with the carried block `q` (right). -/
def emitAt (h q : Nat) : List (List Nat) :=
  if bflag S h (q - 1) && !bflag S h q then [V H vs padding h q]
  else if !bflag S h (q - 1) && bflag S h q then [V H vs padding h (q - 1)]
  else []

/-- The emissions of one `Add` carry chain, from height `h` upward. -/
def emsFrom (m : Nat) : Nat → Nat → List (List Nat)
  | 0, _ => []
  | d + 1, h =>
    if (m >>> h) % 2 = 1 then emitAt H vs padding S h (m >>> h) ++ emsFrom m d (h + 1)
    else []

/-- The same emissions accumulated from below (heights `0..h-1`). -/
def emsBelow (m : Nat) : Nat → List (List Nat)
  | 0 => []
  | h + 1 => emsBelow m h ++ emitAt H vs padding S h (m >>> h)

/-- The concatenated streams of the parked blocks at set bits below `h`,
highest first — the proof accumulated by the `Add` phase. -/
def fragsBelow (m : Nat) : Nat → List (List Nat)
  | 0 => []
  | h + 1 =>
    (if (m >>> h) % 2 = 1 then pstream H vs padding S h ((m >>> h) - 1) else []) ++
      fragsBelow m h

/-- The stored proof after `m` leaves. -/
def addStream (m : Nat) : List (List Nat) := fragsBelow H vs padding S m (bitsLen m)

end BuildSide

theorem bitsLenAux_le_iff : ∀ fuel x k, x ≤ fuel → (bitsLenAux fuel x ≤ k ↔ x < 2 ^ k) := by
  intro fuel
  induction fuel with
  | zero =>
    intro x k hx
    have hx0 : x = 0 := by omega
    subst hx0
    rw [bitsLenAux]
    simp [Nat.pos_pow_of_pos, Nat.pos_of_ne_zero, Nat.two_pow_pos]
  | succ fuel ih =>
    intro x k hx
    rw [bitsLenAux]
    by_cases h0 : x = 0
    · subst h0
      simp [Nat.two_pow_pos]
    · rw [if_neg h0]
      cases k with
      | zero =>
        simp only [pow_zero]
        omega
      | succ k =>
        have hrec := ih (x / 2) k (by omega)
        rw [pow_succ]
        omega

theorem bitsLen_le_iff (x k : Nat) : bitsLen x ≤ k ↔ x < 2 ^ k :=
  bitsLenAux_le_iff x x k (Nat.le_refl x)

theorem bitsLen_mono {x y : Nat} (h : x ≤ y) : bitsLen x ≤ bitsLen y := by
  rw [bitsLen_le_iff]
  have := lt_two_pow_bitsLen y
  omega

theorem mul_pred_mod (A c : Nat) (hA : 1 ≤ A) (hc : 1 ≤ c) : (A * c - 1) % A = A - 1 := by
  cases c with
  | zero => omega
  | succ c2 =>
    rw [Nat.mul_succ]
    have h1 : A * c2 + A - 1 = A * c2 + (A - 1) := by omega
    rw [h1, Nat.mul_add_mod]
    exact Nat.mod_eq_of_lt (by omega)

theorem all_ones_mod {j k : Nat} (h : k ≤ j) : (2 ^ j - 1) % 2 ^ k = 2 ^ k - 1 := by
  have hsplit : 2 ^ j = 2 ^ k * 2 ^ (j - k) := by
    rw [← pow_add]
    congr 1
    omega
  rw [hsplit]
  exact mul_pred_mod (2 ^ k) (2 ^ (j - k)) (Nat.one_le_two_pow) (Nat.one_le_two_pow)

theorem mod_pow_succ (m h : Nat) :
    m % 2 ^ (h + 1) = m % 2 ^ h + 2 ^ h * ((m >>> h) % 2) := by
  rw [pow_succ, Nat.mod_mul, sr_eq_div_pow]

theorem succ_shift {m h : Nat} (hm : m % 2 ^ h = 2 ^ h - 1) :
    (m + 1) >>> h = m >>> h + 1 := by
  have hdm := Nat.div_add_mod m (2 ^ h)
  have hpos : 0 < 2 ^ h := Nat.two_pow_pos h
  have heq : m + 1 = 2 ^ h * (m / 2 ^ h + 1) := by
    rw [Nat.mul_add, Nat.mul_one]
    omega
  rw [sr_eq_div_pow, heq, Nat.mul_div_cancel_left _ hpos, sr_eq_div_pow]

theorem succ_shift_high {m t j : Nat} (hm : m % 2 ^ (t + 1) = 2 ^ t - 1) (hj : t + 1 ≤ j) :
    (m + 1) >>> j = m >>> j := by
  have hpos : 0 < 2 ^ j := Nat.two_pow_pos j
  have hne : m % 2 ^ j ≠ 2 ^ j - 1 := by
    intro hc
    have h1 : m % 2 ^ j % 2 ^ (t + 1) = m % 2 ^ (t + 1) :=
      Nat.mod_mod_of_dvd m (pow_dvd_pow 2 hj)
    rw [hc, all_ones_mod hj, hm] at h1
    have h2 : 1 ≤ 2 ^ t := Nat.one_le_two_pow
    have h3 : 2 ^ t < 2 ^ (t + 1) := Nat.pow_lt_pow_right (by omega) (by omega)
    omega
  have hdm := Nat.div_add_mod m (2 ^ j)
  have hlt : m % 2 ^ j < 2 ^ j := Nat.mod_lt _ hpos
  have heq : m + 1 = 2 ^ j * (m / 2 ^ j) + (m % 2 ^ j + 1) := by omega
  have hlt2 : m % 2 ^ j + 1 < 2 ^ j := by
    generalize hP : (2 : Nat) ^ j = P at hne hlt ⊢
    omega
  rw [sr_eq_div_pow, sr_eq_div_pow, heq, Nat.mul_add_div hpos,
    Nat.div_eq_of_lt hlt2]
  omega

theorem low_ones_step {m h : Nat} (hm : m % 2 ^ (h + 1) = 2 ^ (h + 1) - 1) :
    m % 2 ^ h = 2 ^ h - 1 ∧ (m >>> h) % 2 = 1 := by
  have hps : (2 : Nat) ^ (h + 1) = 2 ^ h * 2 := pow_succ 2 h
  have hmp := mod_pow_succ m h
  have h1 : m % 2 ^ h < 2 ^ h := Nat.mod_lt _ (Nat.two_pow_pos h)
  have h0 : 1 ≤ 2 ^ h := Nat.one_le_two_pow
  rcases Nat.mod_two_eq_zero_or_one (m >>> h) with hb | hb
  · rw [hb, Nat.mul_zero] at hmp
    omega
  · rw [hb, Nat.mul_one] at hmp
    omega

theorem sr_succ_q (m h : Nat) : m >>> (h + 1) = (m >>> h) / 2 := sr_succ m h

theorem frags_vanish (H : Hasher) (vs : List (List Nat)) (padding : List Nat)
    (S : List Nat) (m : Nat) :
    ∀ h, m % 2 ^ h = 2 ^ h - 1 → bflag S h (m >>> h) = false →
      fragsBelow H vs padding S m h = [] ∧ emsBelow H vs padding S m h = [] := by
  intro h
  induction h with
  | zero => intro _ _; exact ⟨rfl, rfl⟩
  | succ h ih =>
    intro hm hf
    obtain ⟨hm', hq⟩ := low_ones_step hm
    have hup : ∀ b : Nat, b / 2 = m >>> (h + 1) → bflag S h b = false := by
      intro b hb
      cases hbf : bflag S h b with
      | false => rfl
      | true =>
        exfalso
        have := bflag_up hbf
        rw [hb, hf] at this
        exact absurd this (by simp)
    have hfq : bflag S h (m >>> h) = false := hup _ (sr_succ_q m h).symm
    have hfq1 : bflag S h (m >>> h - 1) = false := by
      apply hup
      rw [sr_succ_q m h]
      generalize m >>> h = x at hq ⊢
      omega
    obtain ⟨hfr, hem⟩ := ih hm' hfq
    constructor
    · rw [fragsBelow, if_pos hq, pstream_flagless H vs padding S h _ hfq1, hfr]
      rfl
    · rw [emsBelow, hem, emitAt, if_neg (by simp [hfq1]), if_neg (by simp [hfq])]
      rfl

theorem pstream_carry (H : Hasher) (vs : List (List Nat)) (padding : List Nat)
    (S : List Nat) (m : Nat) :
    ∀ h, m % 2 ^ h = 2 ^ h - 1 →
      pstream H vs padding S h (m >>> h) =
        fragsBelow H vs padding S m h ++ emsBelow H vs padding S m h := by
  intro h
  induction h with
  | zero => intro _; rfl
  | succ h ih =>
    intro hm
    obtain ⟨hm', hq⟩ := low_ones_step hm
    have hd2 : m >>> (h + 1) = (m >>> h) / 2 := sr_succ_q m h
    have h2b1 : 2 * (m >>> (h + 1)) + 1 = m >>> h := by
      rw [hd2]
      exact arith_odd_double hq
    have h2b : 2 * (m >>> (h + 1)) = m >>> h - 1 := by
      rw [hd2]
      exact arith_odd_double_pred hq
    cases htop : bflag S (h + 1) (m >>> (h + 1)) with
    | false =>
      rw [pstream_flagless H vs padding S (h + 1) _ htop]
      obtain ⟨hfr, hem⟩ := frags_vanish H vs padding S m (h + 1) hm htop
      rw [hfr, hem]
      rfl
    | true =>
      rw [pstream, if_pos htop, h2b1, h2b]
      cases hfL : bflag S h (m >>> h - 1) with
      | false =>
        have hfR : bflag S h (m >>> h) = true := by
          rcases (bflag_succ_true S h (m >>> (h + 1))).1 htop with h1 | h1
          · rw [h2b, hfL] at h1
            exact absurd h1 (by simp)
          · rw [h2b1] at h1
            exact h1
        rw [ih hm', fragsBelow, if_pos hq,
          pstream_flagless H vs padding S h _ hfL, emsBelow, emitAt]
        simp [hfL, hfR, List.append_assoc]
      | true =>
        cases hfR : bflag S h (m >>> h) with
        | false =>
          obtain ⟨hfr, hem⟩ := frags_vanish H vs padding S m h hm' hfR
          rw [fragsBelow, if_pos hq, emsBelow, emitAt, hfr, hem]
          simp [hfL, hfR]
        | true =>
          rw [ih hm', fragsBelow, if_pos hq, emsBelow, emitAt]
          simp [hfL, hfR, List.append_assoc]
theorem sr_zero {x j : Nat} (h : x < 2 ^ j) : x >>> j = 0 := by
  rw [sr_eq_div_pow]
  exact Nat.div_eq_of_lt h

theorem frags_zero (H : Hasher) (vs : List (List Nat)) (padding : List Nat)
    (S : List Nat) (m : Nat) :
    ∀ h, (∀ j, j < h → (m >>> j) % 2 = 0) → fragsBelow H vs padding S m h = [] := by
  intro h
  induction h with
  | zero => intro _; rfl
  | succ h ih =>
    intro hb
    rw [fragsBelow, if_neg (by have := hb h (Nat.lt_succ_self h); omega),
      ih (fun j hj => hb j (by omega))]
    rfl

theorem frags_top_stable (H : Hasher) (vs : List (List Nat)) (padding : List Nat)
    (S : List Nat) (m L : Nat) (hL : m < 2 ^ L) :
    ∀ d, fragsBelow H vs padding S m (L + d) = fragsBelow H vs padding S m L := by
  intro d
  induction d with
  | zero => rfl
  | succ d ih =>
    have hz : m >>> (L + d) = 0 :=
      sr_zero (Nat.lt_of_lt_of_le hL (Nat.pow_le_pow_right (by omega) (by omega)))
    show fragsBelow H vs padding S m (L + d + 1) = fragsBelow H vs padding S m L
    rw [fragsBelow, if_neg (by rw [hz]; omega), ih]
    rfl

theorem emsFrom_stop (H : Hasher) (vs : List (List Nat)) (padding : List Nat)
    (S : List Nat) (m d h : Nat) (hb : (m >>> h) % 2 = 0) :
    emsFrom H vs padding S m d h = [] := by
  cases d with
  | zero => rfl
  | succ d => rw [emsFrom, if_neg (by omega)]

theorem ems_accum (H : Hasher) (vs : List (List Nat)) (padding : List Nat)
    (S : List Nat) (m : Nat) :
    ∀ k h d, k ≤ d → (∀ j, j < k → (m >>> (h + j)) % 2 = 1) →
      (m >>> (h + k)) % 2 = 0 →
      emsBelow H vs padding S m h ++ emsFrom H vs padding S m d h =
        emsBelow H vs padding S m (h + k) := by
  intro k
  induction k with
  | zero =>
    intro h d _ _ hstop
    rw [emsFrom_stop H vs padding S m d h hstop]
    exact List.append_nil _
  | succ k ih =>
    intro h d hkd hones hstop
    cases d with
    | zero => omega
    | succ d =>
      have h0 : (m >>> h) % 2 = 1 := by
        have := hones 0 (by omega)
        rwa [Nat.add_zero] at this
      rw [emsFrom, if_pos h0, ← List.append_assoc]
      have e1 : h + (k + 1) = (h + 1) + k := by omega
      rw [e1]
      have hstep : emsBelow H vs padding S m h ++ emitAt H vs padding S h (m >>> h) =
          emsBelow H vs padding S m (h + 1) := rfl
      rw [hstep]
      exact ih (h + 1) d (by omega)
        (fun j hj => by
          have := hones (j + 1) (by omega)
          rwa [show h + (j + 1) = h + 1 + j by omega] at this)
        (by rwa [show h + 1 + k = h + (k + 1) by omega])

theorem low_ones_bit {m t : Nat} (hm : m % 2 ^ t = 2 ^ t - 1) :
    ∀ j, j < t → (m >>> j) % 2 = 1 := by
  intro j hj
  have h1 : m % 2 ^ (j + 1) = (m % 2 ^ t) % 2 ^ (j + 1) :=
    (Nat.mod_mod_of_dvd m (pow_dvd_pow 2 (by omega))).symm
  rw [hm, all_ones_mod (by omega)] at h1
  exact (low_ones_step h1).2

theorem trailing_ones_exists : ∀ m : Nat, ∃ t, m % 2 ^ t = 2 ^ t - 1 ∧ (m >>> t) % 2 = 0 := by
  intro m
  induction m using Nat.strong_induction_on with
  | _ m ih =>
    rcases Nat.mod_two_eq_zero_or_one m with he | ho
    · exact ⟨0, by simp [Nat.mod_one], by simpa using he⟩
    · have hm0 : 0 < m := by omega
      obtain ⟨t, ht1, ht2⟩ := ih (m / 2) (by omega)
      refine ⟨t + 1, ?_, ?_⟩
      · have hq := Nat.div_add_mod (m / 2) (2 ^ t)
        have hlt : m / 2 % 2 ^ t < 2 ^ t := Nat.mod_lt _ (Nat.two_pow_pos t)
        have hA : 2 * 2 ^ t * (m / 2 / 2 ^ t) = 2 * (2 ^ t * (m / 2 / 2 ^ t)) := by ring
        have hsplit : m = 2 * 2 ^ t * (m / 2 / 2 ^ t) + (2 * (m / 2 % 2 ^ t) + 1) := by
          rw [hA]
          omega
        have hps : (2 : Nat) ^ (t + 1) = 2 * 2 ^ t := by ring
        rw [hps, hsplit, Nat.mul_add_mod, Nat.mod_eq_of_lt (by omega), ht1]
        have h2 : 1 ≤ 2 ^ t := Nat.one_le_two_pow
        omega
      · have hd : m >>> (t + 1) = (m / 2) >>> t := by
          rw [sr_eq_div_pow, sr_eq_div_pow, pow_succ, Nat.mul_comm (2 ^ t) 2,
            ← Nat.div_div_eq_div_mul]
        rw [hd]
        exact ht2

theorem addStream_step (H : Hasher) (vs : List (List Nat)) (padding : List Nat)
    (S : List Nat) (m t : Nat)
    (ht1 : m % 2 ^ t = 2 ^ t - 1) (ht2 : (m >>> t) % 2 = 0) :
    addStream H vs padding S (m + 1) =
      addStream H vs padding S m ++ emsBelow H vs padding S m t := by
  have hmL : m < 2 ^ bitsLen m := lt_two_pow_bitsLen m
  have hm1 : (m + 1) % 2 ^ t = 0 := by
    have hdm := Nat.div_add_mod m (2 ^ t)
    have hpos : (0 : Nat) < 2 ^ t := Nat.two_pow_pos t
    have heq : m + 1 = 2 ^ t * (m / 2 ^ t + 1) := by
      rw [Nat.mul_add, Nat.mul_one]
      omega
    rw [heq, Nat.mul_mod_right]
  have hbz : ∀ j, j < t → ((m + 1) >>> j) % 2 = 0 := by
    intro j hj
    have hdvd : (m + 1) % 2 ^ (j + 1) = 0 := by
      have h1 : (m + 1) % 2 ^ (j + 1) = ((m + 1) % 2 ^ t) % 2 ^ (j + 1) :=
        (Nat.mod_mod_of_dvd (m + 1) (pow_dvd_pow 2 (by omega))).symm
      rw [hm1, Nat.zero_mod] at h1
      exact h1
    have hb := mod_pow_succ (m + 1) j
    rw [hdvd] at hb
    have hz : 2 ^ j * (((m + 1) >>> j) % 2) = 0 := by omega
    rcases Nat.mul_eq_zero.1 hz with h | h
    · exact absurd h (Nat.two_pow_pos j).ne.symm
    · exact h
  have hshift : (m + 1) >>> t = m >>> t + 1 := succ_shift ht1
  have hbit_t : ((m + 1) >>> t) % 2 = 1 := by
    rw [hshift]
    omega
  have hmt1 : m % 2 ^ (t + 1) = 2 ^ t - 1 := by
    have hb := mod_pow_succ m t
    rw [ht1, ht2, Nat.mul_zero, Nat.add_zero] at hb
    exact hb
  have hP : ∀ k, fragsBelow H vs padding S (m + 1) (t + 1 + k) =
      fragsBelow H vs padding S m (t + 1 + k) ++ emsBelow H vs padding S m t := by
    intro k
    induction k with
    | zero =>
      have hR : fragsBelow H vs padding S m (t + 1) = fragsBelow H vs padding S m t := by
        rw [fragsBelow, if_neg (by omega)]
        exact List.nil_append _
      show fragsBelow H vs padding S (m + 1) (t + 1) =
        fragsBelow H vs padding S m (t + 1) ++ emsBelow H vs padding S m t
      rw [hR, fragsBelow, if_pos hbit_t, hshift, Nat.add_sub_cancel,
        frags_zero H vs padding S (m + 1) t hbz,
        pstream_carry H vs padding S m t ht1, List.append_nil]
    | succ k ihk =>
      have hj : (m + 1) >>> (t + 1 + k) = m >>> (t + 1 + k) :=
        succ_shift_high hmt1 (by omega)
      have hL1 : fragsBelow H vs padding S (m + 1) (t + 1 + k + 1) =
          (if ((m + 1) >>> (t + 1 + k)) % 2 = 1 then
            pstream H vs padding S (t + 1 + k) ((m + 1) >>> (t + 1 + k) - 1) else []) ++
          fragsBelow H vs padding S (m + 1) (t + 1 + k) := rfl
      have hL2 : fragsBelow H vs padding S m (t + 1 + k + 1) =
          (if (m >>> (t + 1 + k)) % 2 = 1 then
            pstream H vs padding S (t + 1 + k) (m >>> (t + 1 + k) - 1) else []) ++
          fragsBelow H vs padding S m (t + 1 + k) := rfl
      show fragsBelow H vs padding S (m + 1) (t + 1 + k + 1) =
        fragsBelow H vs padding S m (t + 1 + k + 1) ++ emsBelow H vs padding S m t
      rw [hL1, hL2, hj, ihk, List.append_assoc]
  have h2tm : 2 ^ t - 1 ≤ m := by
    have := Nat.mod_le m (2 ^ t)
    omega
  have hT1 : t + 1 ≤ bitsLen (m + 1) := by
    have h2 : ¬ bitsLen (m + 1) ≤ t := by
      rw [bitsLen_le_iff]
      have h3 : 1 ≤ 2 ^ t := Nat.one_le_two_pow
      omega
    omega
  have hPk := hP (bitsLen (m + 1) - (t + 1))
  have e1 : t + 1 + (bitsLen (m + 1) - (t + 1)) = bitsLen (m + 1) := by omega
  rw [e1] at hPk
  have hmono : bitsLen m ≤ bitsLen (m + 1) := bitsLen_mono (by omega)
  have hstab := frags_top_stable H vs padding S m (bitsLen m) hmL
    (bitsLen (m + 1) - bitsLen m)
  have e2 : bitsLen m + (bitsLen (m + 1) - bitsLen m) = bitsLen (m + 1) := by omega
  rw [e2] at hstab
  show fragsBelow H vs padding S (m + 1) (bitsLen (m + 1)) =
    fragsBelow H vs padding S m (bitsLen m) ++ emsBelow H vs padding S m t
  rw [hPk, hstab]

theorem bflag_succ_bool (S : List Nat) (h b : Nat) :
    bflag S (h + 1) b = (bflag S h (2 * b) || bflag S h (2 * b + 1)) := by
  cases hb : bflag S (h + 1) b with
  | true =>
    rcases (bflag_succ_true S h b).1 hb with h1 | h1 <;> simp [h1]
  | false =>
    cases h2 : bflag S h (2 * b) with
    | true =>
      have := (bflag_succ_true S h b).2 (Or.inl h2)
      rw [hb] at this
      exact absurd this (by simp)
    | false =>
      cases h3 : bflag S h (2 * b + 1) with
      | true =>
        have := (bflag_succ_true S h b).2 (Or.inr h3)
        rw [hb] at this
        exact absurd this (by simp)
      | false => rfl

theorem slotOf_congr (H : Hasher) (vs : List (List Nat)) (padding : List Nat)
    (S : List Nat) {m' m h : Nat} (hj : m' >>> h = m >>> h) :
    slotOf H vs padding S m' h = slotOf H vs padding S m h := by
  rw [slotOf, slotOf, hj]

theorem tailLayersAux_congr (H : Hasher) (vs : List (List Nat)) (padding : List Nat)
    (S : List Nat) (m' m : Nat) :
    ∀ d h, (∀ j, h ≤ j → m' >>> j = m >>> j) →
      tailLayersAux H vs padding S m' d h = tailLayersAux H vs padding S m d h := by
  intro d
  induction d with
  | zero => intro h _; rfl
  | succ d ih =>
    intro h hjs
    rw [tailLayersAux, tailLayersAux,
      slotOf_congr H vs padding S (hjs h (Nat.le_refl h)),
      ih (h + 1) (fun j hj => hjs j (by omega))]

theorem addLoop_nil_eq (H : Hasher) (val : List Nat) (flag : Bool) :
    addLoop H val flag [] = ([⟨some val, flag⟩], []) := rfl

theorem addLoop_park_eq (H : Hasher) (val : List Nat) (flag : Bool) (b : Bool)
    (rest : List Layer) :
    addLoop H val flag (⟨none, b⟩ :: rest) = (⟨some val, flag⟩ :: rest, []) := rfl

theorem addLoop_merge_eq (H : Hasher) (val parked : List Nat) (flag pflag : Bool)
    (rest : List Layer) :
    addLoop H val flag (⟨some parked, pflag⟩ :: rest) =
      (⟨none, false⟩ :: (addLoop H (H.hash parked val) (pflag || flag) rest).1,
        (if pflag && !flag then [val]
          else if !pflag && flag then [parked] else []) ++
          (addLoop H (H.hash parked val) (pflag || flag) rest).2) := rfl

theorem addLoop_carry (H : Hasher) (vs : List (List Nat)) (padding : List Nat)
    (S : List Nat) (m : Nat) (hm : m < vs.length) :
    ∀ d h, h + d = bitsLen m → m % 2 ^ h = 2 ^ h - 1 →
      addLoop H (V H vs padding h (m >>> h)) (bflag S h (m >>> h))
        (tailLayersAux H vs padding S m d h) =
      (tailLayersAux H vs padding S (m + 1) (bitsLen (m + 1) - h) h,
        emsFrom H vs padding S m d h) := by
  intro d
  induction d with
  | zero =>
    intro h hd hmod
    have hlt : m < 2 ^ h := by
      have he : h = bitsLen m := by omega
      rw [he]
      exact lt_two_pow_bitsLen m
    have hme : m = 2 ^ h - 1 := by
      rw [← Nat.mod_eq_of_lt hlt, hmod]
    have h1 : 1 ≤ 2 ^ h := Nat.one_le_two_pow
    have hm1 : m + 1 = 2 ^ h := by omega
    have hbl : bitsLen (m + 1) = h + 1 := by
      have hle : bitsLen (m + 1) ≤ h + 1 := by
        rw [bitsLen_le_iff, hm1, pow_succ]
        omega
      have hgt : ¬ bitsLen (m + 1) ≤ h := by
        rw [bitsLen_le_iff, hm1]
        omega
      omega
    have hsr0 : m >>> h = 0 := sr_zero hlt
    have hsr1 : (m + 1) >>> h = 1 := by
      rw [hm1, sr_eq_div_pow]
      exact Nat.div_self (by omega)
    rw [tailLayersAux, addLoop_nil_eq, hbl, hsr0]
    have he1 : h + 1 - h = 1 := by omega
    rw [he1, tailLayersAux, tailLayersAux, slotOf, if_pos (by rw [hsr1]), hsr1]
    rfl
  | succ d ih =>
    intro h hd hmod
    have hqle : 2 ^ h * (m >>> h) ≤ m := sr_base_le m h
    rcases Nat.mod_two_eq_zero_or_one (m >>> h) with hbit | hbit
    · -- bit h of m is 0: the carried node parks here
      have hmt1 : m % 2 ^ (h + 1) = 2 ^ h - 1 := by
        have hb := mod_pow_succ m h
        rw [hmod, hbit, Nat.mul_zero, Nat.add_zero] at hb
        exact hb
      have hbl : bitsLen (m + 1) = bitsLen m := by
        have hmono : bitsLen m ≤ bitsLen (m + 1) := bitsLen_mono (by omega)
        have hne : m + 1 < 2 ^ bitsLen m := by
          have hlt := lt_two_pow_bitsLen m
          rcases Nat.lt_or_ge (m + 1) (2 ^ bitsLen m) with hx | hx
          · exact hx
          · exfalso
            have hme : m = 2 ^ bitsLen m - 1 := by omega
            have hmm : m % 2 ^ (h + 1) = 2 ^ (h + 1) - 1 := by
              rw [hme]
              exact all_ones_mod (by omega)
            have hp1 : 2 ^ h < 2 ^ (h + 1) := by
              rw [pow_succ]
              have := Nat.one_le_two_pow (n := h)
              omega
            have := Nat.one_le_two_pow (n := h)
            omega
        have hle : bitsLen (m + 1) ≤ bitsLen m := by
          rw [bitsLen_le_iff]
          exact hne
        omega
      have hshift : (m + 1) >>> h = m >>> h + 1 := succ_shift hmod
      rw [tailLayersAux, slotOf, if_neg (by omega), addLoop_park_eq, hbl]
      have he1 : bitsLen m - h = d + 1 := by omega
      rw [he1, tailLayersAux, slotOf, if_pos (by rw [hshift]; omega), hshift,
        Nat.add_sub_cancel,
        tailLayersAux_congr H vs padding S (m + 1) m d (h + 1)
          (fun j hj => succ_shift_high hmt1 hj),
        emsFrom, if_neg (by omega)]
    · -- bit h of m is 1: merge with the parked block and carry upward
      have hmt1 : m % 2 ^ (h + 1) = 2 ^ (h + 1) - 1 := by
        have hb := mod_pow_succ m h
        rw [hmod, hbit, Nat.mul_one] at hb
        have hp1 : (2 : Nat) ^ (h + 1) = 2 ^ h * 2 := pow_succ 2 h
        have := Nat.one_le_two_pow (n := h)
        omega
      have hex : 2 ^ h * (m >>> h) < vs.length := by omega
      have hVodd := V_odd H vs padding hbit hex
      have hsrs : m >>> (h + 1) = (m >>> h) >>> 1 := by
        rw [sr_succ m h, Nat.shiftRight_one]
      have hfb : bflag S (h + 1) (m >>> (h + 1)) =
          (bflag S h (m >>> h - 1) || bflag S h (m >>> h)) := by
        rw [bflag_succ_bool]
        have h2b : 2 * (m >>> (h + 1)) = m >>> h - 1 := by
          rw [sr_succ m h]
          exact arith_odd_double_pred hbit
        have h2b1 : 2 * (m >>> (h + 1)) + 1 = m >>> h := by
          rw [sr_succ m h]
          exact arith_odd_double hbit
        rw [h2b1, h2b]
      have hih := ih (h + 1) (by omega) hmt1
      rw [tailLayersAux, slotOf, if_pos hbit, addLoop_merge_eq, ← hVodd, ← hsrs,
        ← hfb, hih]
      have hge : h + 1 ≤ bitsLen (m + 1) := by
        have h2 : ¬ bitsLen (m + 1) ≤ h := by
          rw [bitsLen_le_iff]
          have h3 : 1 ≤ 2 ^ h := Nat.one_le_two_pow
          have h4 : m % 2 ^ h ≤ m := Nat.mod_le m _
          omega
        omega
      have he1 : bitsLen (m + 1) - h = (bitsLen (m + 1) - (h + 1)) + 1 := by omega
      have hshift : (m + 1) >>> h = m >>> h + 1 := succ_shift hmod
      have hsl : ¬ ((m + 1) >>> h % 2 = 1) := by rw [hshift]; omega
      rw [he1, tailLayersAux, slotOf, if_neg hsl, emsFrom, if_pos hbit, emitAt]

theorem bflag_zero (S : List Nat) (m : Nat) : bflag S 0 m = decide (m ∈ S) := by
  cases hm : decide (m ∈ S) with
  | true =>
    exact (bflag_true_iff S 0 m).2 ⟨m, of_decide_eq_true hm, rfl⟩
  | false =>
    have h1 : m ∉ S := of_decide_eq_false hm
    cases hb : bflag S 0 m with
    | false => rfl
    | true =>
      obtain ⟨s, hs, he⟩ := (bflag_true_iff S 0 m).1 hb
      have hsm : s = m := by simpa using he
      exact absurd (hsm ▸ hs) h1

theorem tOnes_le_bitsLen {m t : Nat} (ht1 : m % 2 ^ t = 2 ^ t - 1) : t ≤ bitsLen m := by
  by_contra hc
  have hlt : m < 2 ^ bitsLen m := lt_two_pow_bitsLen m
  have hle : 2 ^ (bitsLen m + 1) ≤ 2 ^ t := Nat.pow_le_pow_right (by omega) (by omega)
  have hps : (2 : Nat) ^ (bitsLen m + 1) = 2 * 2 ^ bitsLen m := by ring
  have hmle : m % 2 ^ t ≤ m := Nat.mod_le m _
  have h1 : (1 : Nat) ≤ 2 ^ bitsLen m := Nat.one_le_two_pow
  omega

theorem addOne (H : Hasher) (vs : List (List Nat)) (padding : List Nat)
    (S : List Nat) (m : Nat) (hm : m < vs.length) :
    (addLoop H (vs.getD m []) (bflag S 0 m) (layersOf H vs padding S m)).1 =
        layersOf H vs padding S (m + 1) ∧
      addStream H vs padding S m ++
          (addLoop H (vs.getD m []) (bflag S 0 m) (layersOf H vs padding S m)).2 =
        addStream H vs padding S (m + 1) := by
  obtain ⟨t, ht1, ht2⟩ := trailing_ones_exists m
  have hT : t ≤ bitsLen m := tOnes_le_bitsLen ht1
  have hcarry := addLoop_carry H vs padding S m hm (bitsLen m) 0 (by omega)
    (by simp [Nat.mod_one])
  rw [Nat.shiftRight_zero, Nat.sub_zero, V_leaf H vs padding hm] at hcarry
  have hbridge : emsFrom H vs padding S m (bitsLen m) 0 = emsBelow H vs padding S m t := by
    have hacc := ems_accum H vs padding S m t 0 (bitsLen m) hT
      (fun j hj => by
        have := low_ones_bit ht1 j hj
        rwa [Nat.zero_add])
      (by rwa [Nat.zero_add])
    rw [Nat.zero_add] at hacc
    rw [← hacc]
    have hnil : emsBelow H vs padding S m 0 = [] := rfl
    rw [hnil, List.nil_append]
  have hstream := addStream_step H vs padding S m t ht1 ht2
  have hlay1 : layersOf H vs padding S (m + 1) =
      tailLayersAux H vs padding S (m + 1) (bitsLen (m + 1)) 0 := by
    rw [layersOf, if_neg (by omega)]
  cases m with
  | zero =>
    have hz : tailLayersAux H vs padding S 0 (bitsLen 0) 0 = [] := rfl
    have hlz : layersOf H vs padding S 0 = [⟨none, false⟩] := by
      rw [layersOf, if_pos rfl]
    have hpark : addLoop H (vs.getD 0 []) (bflag S 0 0) [(⟨none, false⟩ : Layer)] =
        addLoop H (vs.getD 0 []) (bflag S 0 0) [] := by
      rw [addLoop_park_eq, addLoop_nil_eq]
    rw [hlz, hpark, ← hz, hcarry, hlay1]
    constructor
    · rfl
    · rw [hstream, hbridge]
  | succ k =>
    have hlm : layersOf H vs padding S (k + 1) =
        tailLayersAux H vs padding S (k + 1) (bitsLen (k + 1)) 0 := by
      rw [layersOf, if_neg (by omega)]
    rw [hlm, hcarry, hlay1]
    constructor
    · rfl
    · rw [hstream, hbridge]

theorem sorted_filter_pop {S : List Nat} (hS : S.Pairwise (· < ·)) (m : Nat) :
    S.filter (fun s => decide (m ≤ s)) =
      if m ∈ S then m :: S.filter (fun s => decide (m + 1 ≤ s))
      else S.filter (fun s => decide (m + 1 ≤ s)) := by
  induction S with
  | nil => simp
  | cons a S ih =>
    have hpw := List.pairwise_cons.1 hS
    rcases Nat.lt_trichotomy a m with h | h | h
    · rw [List.filter_cons_of_neg (by simp; omega),
        List.filter_cons_of_neg (by simp; omega), ih hpw.2]
      have hcond : (m ∈ a :: S) ↔ (m ∈ S) := by
        constructor
        · intro hc
          rcases List.mem_cons.1 hc with hc | hc
          · omega
          · exact hc
        · exact fun hc => List.mem_cons_of_mem a hc
      by_cases hmS : m ∈ S
      · rw [if_pos hmS, if_pos (hcond.2 hmS)]
      · rw [if_neg hmS, if_neg (fun hc => hmS (hcond.1 hc))]
    · subst h
      rw [List.filter_cons_of_pos (by simp), if_pos (List.mem_cons_self a S),
        List.filter_cons_of_neg (by simp)]
      congr 1
      apply List.filter_congr
      intro b hb
      have hab := hpw.1 b hb
      have h1 : a ≤ b := by omega
      have h2 : a + 1 ≤ b := by omega
      rw [decide_eq_true h1, decide_eq_true h2]
    · have hnm : m ∉ a :: S := by
        intro hc
        rcases List.mem_cons.1 hc with hc | hc
        · omega
        · have := hpw.1 m hc
          omega
      rw [if_neg hnm, List.filter_cons_of_pos (by simp; omega),
        List.filter_cons_of_pos (by simp; omega)]
      congr 1
      apply List.filter_congr
      intro b hb
      have hab := hpw.1 b hb
      have h1 : m ≤ b := by omega
      have h2 : m + 1 ≤ b := by omega
      rw [decide_eq_true h1, decide_eq_true h2]

theorem TreeAdd_pop (H : Hasher) (mh : Nat) (ly : List Layer) (cl : Nat)
    (rest : List Nat) (pe : Bool) (pf : List (List Nat)) (value : List Nat) :
    Tree.Add H ⟨mh, ly, cl, cl :: rest, pe, pf⟩ value =
      ⟨mh, (addLoop H value true ly).1, cl + 1, rest, pe,
        pf ++ (addLoop H value true ly).2⟩ := by
  simp [Tree.Add]

theorem TreeAdd_nopop (H : Hasher) (mh : Nat) (ly : List Layer) (cl i : Nat)
    (rest : List Nat) (pe : Bool) (pf : List (List Nat)) (value : List Nat)
    (hne : cl ≠ i) :
    Tree.Add H ⟨mh, ly, cl, i :: rest, pe, pf⟩ value =
      ⟨mh, (addLoop H value false ly).1, cl + 1, i :: rest, pe,
        pf ++ (addLoop H value false ly).2⟩ := by
  simp [Tree.Add, hne]

theorem TreeAdd_empty (H : Hasher) (mh : Nat) (ly : List Layer) (cl : Nat)
    (pe : Bool) (pf : List (List Nat)) (value : List Nat) :
    Tree.Add H ⟨mh, ly, cl, [], pe, pf⟩ value =
      ⟨mh, (addLoop H value false ly).1, cl + 1, [], pe,
        pf ++ (addLoop H value false ly).2⟩ := by
  simp [Tree.Add]

theorem buildInv (H : Hasher) (vs : List (List Nat)) (padding : List Nat)
    (S : List Nat) (hSs : S.Pairwise (· < ·)) :
    ∀ m, m ≤ vs.length →
      Tree.addAll H (Tree.build 0 S) (vs.take m) =
        ⟨0, layersOf H vs padding S m, m, S.filter (fun s => decide (m ≤ s)),
          decide (S ≠ []), addStream H vs padding S m⟩ := by
  intro m
  induction m with
  | zero =>
    intro _
    show Tree.build 0 S = _
    rw [Tree.build]
    have hf : S.filter (fun s => decide (0 ≤ s)) = S :=
      List.filter_eq_self.2 (fun a _ => by simp)
    rw [hf]
    rfl
  | succ m ih =>
    intro hm1
    have hm : m < vs.length := by omega
    have hv : vs.getD m [] = vs[m] := by
      rw [List.getD_eq_getElem?_getD, List.getElem?_eq_getElem hm]
      rfl
    have htake : vs.take (m + 1) = vs.take m ++ [vs.getD m []] := by
      rw [List.take_succ, List.getElem?_eq_getElem hm, hv]
      rfl
    have haddall : ∀ t : Tree, Tree.addAll H t (vs.take m ++ [vs.getD m []]) =
        Tree.Add H (Tree.addAll H t (vs.take m)) (vs.getD m []) := by
      intro t
      rw [Tree.addAll, List.foldl_append]
      rfl
    rw [htake, haddall, ih (by omega)]
    obtain ⟨hlay, hstream⟩ := addOne H vs padding S m hm
    by_cases hmS : m ∈ S
    · have hfilter : S.filter (fun s => decide (m ≤ s)) =
          m :: S.filter (fun s => decide (m + 1 ≤ s)) := by
        rw [sorted_filter_pop hSs m, if_pos hmS]
      have hbf : bflag S 0 m = true := by
        rw [bflag_zero, decide_eq_true hmS]
      rw [hfilter, TreeAdd_pop, ← hbf, hlay, hstream]
    · have hfilter : S.filter (fun s => decide (m ≤ s)) =
          S.filter (fun s => decide (m + 1 ≤ s)) := by
        rw [sorted_filter_pop hSs m, if_neg hmS]
      have hbf : bflag S 0 m = false := by
        rw [bflag_zero, decide_eq_false hmS]
      rw [hfilter]
      cases hF : S.filter (fun s => decide (m + 1 ≤ s)) with
      | nil =>
        rw [TreeAdd_empty, ← hbf, hlay, hstream]
      | cons i rest =>
        have hiS : i ∈ S := by
          have : i ∈ S.filter (fun s => decide (m + 1 ≤ s)) := by
            rw [hF]
            exact List.mem_cons_self i rest
          exact List.mem_of_mem_filter this
        have hne : m ≠ i := fun hc => hmS (hc ▸ hiS)
        rw [TreeAdd_nopop H 0 _ m i rest _ _ _ hne, ← hbf, hlay, hstream]

/-- The proof element the finalization walk emits at height `h` for a tree
of `n` leaves. -/
def femit (H : Hasher) (vs : List (List Nat)) (padding : List Nat) (S : List Nat)
    (n h : Nat) : List (List Nat) :=
  if (n >>> h) % 2 = 1 then emitAt H vs padding S h (n >>> h)
  else if bflag S h (n >>> h) then [V H vs padding h (n >>> h + 1)] else []

/-- Finalization emissions accumulated below height `h`. -/
def finEmsB (H : Hasher) (vs : List (List Nat)) (padding : List Nat) (S : List Nat)
    (n : Nat) : Nat → List (List Nat)
  | 0 => []
  | h + 1 => finEmsB H vs padding S n h ++ femit H vs padding S n h

/-- Finalization emissions from height `h` upward, `d` layers. -/
def femits (H : Hasher) (vs : List (List Nat)) (padding : List Nat) (S : List Nat)
    (n : Nat) : Nat → Nat → List (List Nat)
  | 0, _ => []
  | d + 1, h => femit H vs padding S n h ++ femits H vs padding S n d (h + 1)

theorem bflag_beyond (S : List Nat) (n : Nat) (hSn : ∀ s ∈ S, s < n) (h : Nat) :
    bflag S h (n >>> h + 1) = false := by
  cases hb : bflag S h (n >>> h + 1) with
  | false => rfl
  | true =>
    exfalso
    obtain ⟨s, hs, he⟩ := (bflag_true_iff S h _).1 hb
    have h1 := hSn s hs
    have h3 : n % 2 ^ h < 2 ^ h := Nat.mod_lt _ (Nat.two_pow_pos h)
    have h4 := Nat.div_add_mod n (2 ^ h)
    have h5 : n >>> h = n / 2 ^ h := sr_eq_div_pow n h
    have h6 : s < 2 ^ h * (n >>> h + 1) := by
      rw [Nat.mul_add, Nat.mul_one, h5]
      omega
    have h7 : s >>> h < n >>> h + 1 := sr_lt_pow h6
    omega

theorem pstream_fin (H : Hasher) (vs : List (List Nat)) (padding : List Nat)
    (S : List Nat) (n : Nat) (hSn : ∀ s ∈ S, s < n) :
    ∀ h, pstream H vs padding S h (n >>> h) =
      fragsBelow H vs padding S n h ++ finEmsB H vs padding S n h := by
  intro h
  induction h with
  | zero => rfl
  | succ h ih =>
    have hd2 : n >>> (h + 1) = (n >>> h) / 2 := sr_succ_q n h
    rcases Nat.mod_two_eq_zero_or_one (n >>> h) with hbit | hbit
    · -- even bit: the left child is the partial block, the right is beyond the leaves
      have h2b : 2 * (n >>> (h + 1)) = n >>> h := by
        rw [hd2]
        exact arith_even_double hbit
      have h2b1 : 2 * (n >>> (h + 1)) + 1 = n >>> h + 1 := by omega
      have hbey : bflag S h (n >>> h + 1) = false := bflag_beyond S n hSn h
      cases hfq : bflag S h (n >>> h) with
      | true =>
        have htop : bflag S (h + 1) (n >>> (h + 1)) = true := by
          rw [bflag_succ_bool, h2b, hfq]
          rfl
        rw [pstream, if_pos htop, h2b, if_neg (by rw [hfq]; simp),
          if_pos (by rw [hbey]; rfl), ih]
        rw [fragsBelow, if_neg (by omega), finEmsB, femit, if_neg (by omega),
          if_pos hfq]
        simp [List.append_assoc]
      | false =>
        have htop : bflag S (h + 1) (n >>> (h + 1)) = false := by
          rw [bflag_succ_bool, h2b, hfq, hbey]
          rfl
        rw [pstream_flagless H vs padding S (h + 1) _ htop]
        have hnil := (List.append_eq_nil.1
          ((pstream_flagless H vs padding S h _ hfq).symm.trans ih).symm)
        rw [fragsBelow, if_neg (by omega), finEmsB, femit, if_neg (by omega),
          if_neg (by rw [hfq]; simp), hnil.1, hnil.2]
        rfl
    · -- odd bit: both children blocks hold leaves
      have h2b1 : 2 * (n >>> (h + 1)) + 1 = n >>> h := by
        rw [hd2]
        exact arith_odd_double hbit
      have h2b : 2 * (n >>> (h + 1)) = n >>> h - 1 := by
        rw [hd2]
        exact arith_odd_double_pred hbit
      cases htop : bflag S (h + 1) (n >>> (h + 1)) with
      | false =>
        have hor : (bflag S h (n >>> h - 1) || bflag S h (n >>> h)) = false := by
          rw [← h2b, ← h2b1, ← bflag_succ_bool, htop]
        have hfL : bflag S h (n >>> h - 1) = false := by
          cases hx : bflag S h (n >>> h - 1)
          · rfl
          · rw [hx] at hor
            exact absurd hor (by simp)
        have hfR : bflag S h (n >>> h) = false := by
          cases hx : bflag S h (n >>> h)
          · rfl
          · rw [hx] at hor
            simp [hx] at hor
        rw [pstream_flagless H vs padding S (h + 1) _ htop]
        have hnil := (List.append_eq_nil.1
          ((pstream_flagless H vs padding S h _ hfR).symm.trans ih).symm)
        rw [fragsBelow, if_pos hbit, pstream_flagless H vs padding S h _ hfL,
          finEmsB, femit, if_pos hbit, emitAt, if_neg (by simp [hfL]),
          if_neg (by simp [hfR]), hnil.1, hnil.2]
        rfl
      | true =>
        rw [pstream, if_pos htop, h2b1, h2b]
        cases hfL : bflag S h (n >>> h - 1) with
        | false =>
          rw [if_pos (by rfl), ih]
          rw [fragsBelow, if_pos hbit, pstream_flagless H vs padding S h _ hfL,
            finEmsB, femit, if_pos hbit, emitAt, if_neg (by simp [hfL])]
          have hfR : bflag S h (n >>> h) = true := by
            have hor := bflag_succ_bool S h (n >>> (h + 1))
            rw [htop, h2b1, h2b, hfL] at hor
            cases hx : bflag S h (n >>> h)
            · rw [hx] at hor
              exact absurd hor.symm (by simp)
            · rfl
          rw [if_pos (by simp [hfL, hfR])]
          simp [List.append_assoc]
        | true =>
          rw [if_neg (by simp)]
          cases hfR : bflag S h (n >>> h) with
          | false =>
            rw [if_pos (by rfl)]
            have hnil := (List.append_eq_nil.1
              ((pstream_flagless H vs padding S h _ hfR).symm.trans ih).symm)
            rw [fragsBelow, if_pos hbit, finEmsB, femit, if_pos hbit, emitAt,
              if_pos (by simp [hfL, hfR]), hnil.1, hnil.2]
            simp
          | true =>
            rw [if_neg (by simp), ih]
            rw [fragsBelow, if_pos hbit, finEmsB, femit, if_pos hbit, emitAt,
              if_neg (by simp [hfR]), if_neg (by simp [hfL])]
            simp [List.append_assoc]

theorem rapl_some_some (H : Hasher) (padding P r : List Nat) (fl A : Bool)
    (rest : List Layer) :
    rootAndProofLoop H padding (⟨some P, fl⟩ :: rest) (some r) A =
      ((rootAndProofLoop H padding rest (some (H.hash P r)) (fl || A)).1,
        (if fl && !A then [copyMake H.size r]
          else if A && !fl then [copyMake H.size P] else []) ++
        (rootAndProofLoop H padding rest (some (H.hash P r)) (fl || A)).2) := rfl

theorem rapl_some_none (H : Hasher) (padding P : List Nat) (fl A : Bool)
    (rest : List Layer) (hrest : rest ≠ []) :
    rootAndProofLoop H padding (⟨some P, fl⟩ :: rest) none A =
      ((rootAndProofLoop H padding rest (some (H.hash P padding)) (fl || A)).1,
        (if fl && !A then [copyMake H.size []]
          else if A && !fl then [copyMake H.size P] else []) ++
        (rootAndProofLoop H padding rest (some (H.hash P padding)) (fl || A)).2) := by
  cases rest with
  | nil => exact absurd rfl hrest
  | cons a as => rfl

theorem rapl_none_some (H : Hasher) (padding r : List Nat) (A : Bool)
    (rest : List Layer) :
    rootAndProofLoop H padding (⟨none, false⟩ :: rest) (some r) A =
      ((rootAndProofLoop H padding rest (some (H.hash r padding)) A).1,
        (if A && !false then [copyMake H.size []] else []) ++
        (rootAndProofLoop H padding rest (some (H.hash r padding)) A).2) := rfl

theorem rapl_none_none (H : Hasher) (padding : List Nat) (A : Bool)
    (rest : List Layer) :
    rootAndProofLoop H padding (⟨none, false⟩ :: rest) none A =
      ((rootAndProofLoop H padding rest none A).1,
        (if A && !false then [copyMake H.size []] else []) ++
        (rootAndProofLoop H padding rest none A).2) := rfl

/-- The running root of the finalization walk at height `h`: `none` until a
leaf block is incomplete, else the padded partial block value. -/
def Ropt (H : Hasher) (vs : List (List Nat)) (padding : List Nat) (n h : Nat) :
    Option (List Nat) :=
  if n % 2 ^ h = 0 then none else some (V H vs padding h (n >>> h))

theorem finWalk (H : Hasher) (vs : List (List Nat)) (padding : List Nat)
    (S : List Nat) (n : Nat)
    (hn : 0 < n) (hvsn : vs.length = n) (hSn : ∀ s ∈ S, s < n)
    (hnp : n % 2 ^ (bitsLen n - 1) ≠ 0)
    (hpad : padding = List.replicate H.size 0)
    (hHs : ∀ a b, (H.hash a b).length = H.size)
    (hvl : ∀ v ∈ vs, v.length = H.size) :
    ∀ d h, h + d = bitsLen n →
      rootAndProofLoop H padding (tailLayersAux H vs padding S n d h)
        (Ropt H vs padding n h) (bflag S h (n >>> h)) =
      (some (V H vs padding (bitsLen n) 0), femits H vs padding S n d h) := by
  have hVlen : ∀ g c, (V H vs padding g c).length = H.size :=
    V_len H vs padding hHs (by rw [hpad]; exact List.length_replicate _ _) hvl
  intro d
  induction d with
  | zero =>
    intro h hd
    have hK : h = bitsLen n := by omega
    subst hK
    have hmod : n % 2 ^ bitsLen n = n := Nat.mod_eq_of_lt (lt_two_pow_bitsLen n)
    have hsr : n >>> bitsLen n = 0 := sr_zero (lt_two_pow_bitsLen n)
    rw [Ropt, if_neg (by omega), hsr]
    rfl
  | succ d ih =>
    intro h hd
    have hq5 : n >>> h = n / 2 ^ h := sr_eq_div_pow n h
    have hq4 := Nat.div_add_mod n (2 ^ h)
    have hq3 : n % 2 ^ h < 2 ^ h := Nat.mod_lt _ (Nat.two_pow_pos h)
    have hqe : n = 2 ^ h * (n >>> h) + n % 2 ^ h := by rw [hq5]; omega
    have hmps := mod_pow_succ n h
    rcases Nat.mod_two_eq_zero_or_one (n >>> h) with hbit | hbit
    · -- even bit at `h`: the layer is empty, the running state climbs alone
      have hsl : slotOf H vs padding S n h = ⟨none, false⟩ := by
        rw [slotOf, if_neg (by omega)]
      have h2b : 2 * (n >>> (h + 1)) = n >>> h := by
        rw [sr_succ_q n h]
        exact arith_even_double hbit
      have hbey : bflag S h (n >>> h + 1) = false := bflag_beyond S n hSn h
      have hfb : bflag S (h + 1) (n >>> (h + 1)) = bflag S h (n >>> h) := by
        rw [bflag_succ_bool, h2b, hbey, Bool.or_false]
      have habs : V H vs padding h (n >>> h + 1) = padding :=
        V_absent H vs padding h _ (by rw [hvsn, Nat.mul_add, Nat.mul_one]; omega)
      rw [tailLayersAux, hsl, femits, femit, if_neg (by omega)]
      by_cases hq0 : n % 2 ^ h = 0
      · have hr : Ropt H vs padding n h = none := by rw [Ropt, if_pos hq0]
        have hq1 : n % 2 ^ (h + 1) = 0 := by
          rw [hmps, hq0, hbit, Nat.mul_zero]
        have hr1 : Ropt H vs padding n (h + 1) = none := by rw [Ropt, if_pos hq1]
        have hihs := ih (h + 1) (by omega)
        rw [hr1, hfb] at hihs
        rw [hr, rapl_none_none, hihs]
        cases hfq : bflag S h (n >>> h) <;> simp [copyMake_nil, habs, ← hpad]
      · have hr : Ropt H vs padding n h =
            some (V H vs padding h (n >>> h)) := by rw [Ropt, if_neg hq0]
        have hq1 : n % 2 ^ (h + 1) ≠ 0 := by
          rw [hmps, hbit, Nat.mul_zero]
          omega
        have hex : 2 ^ h * (n >>> h) < vs.length := by
          rw [hvsn]
          omega
        have hVe0 := V_even H vs padding hbit hex
        rw [habs] at hVe0
        have hss : (n >>> h) >>> 1 = n >>> (h + 1) := by
          rw [sr_succ_q n h, Nat.shiftRight_one]
        rw [hss] at hVe0
        have hr1 : Ropt H vs padding n (h + 1) =
            some (V H vs padding (h + 1) (n >>> (h + 1))) := by
          rw [Ropt, if_neg hq1]
        have hihs := ih (h + 1) (by omega)
        rw [hr1, hfb] at hihs
        rw [hr, rapl_none_some, ← hVe0, hihs]
        cases hfq : bflag S h (n >>> h) <;> simp [copyMake_nil, habs, ← hpad]
    · -- odd bit at `h`: merge the parked left block with the running state
      have hsl : slotOf H vs padding S n h =
          ⟨some (V H vs padding h (n >>> h - 1)), bflag S h (n >>> h - 1)⟩ := by
        rw [slotOf, if_pos hbit]
      have h2b1 : 2 * (n >>> (h + 1)) + 1 = n >>> h := by
        rw [sr_succ_q n h]
        exact arith_odd_double hbit
      have h2b : 2 * (n >>> (h + 1)) = n >>> h - 1 := by
        rw [sr_succ_q n h]
        exact arith_odd_double_pred hbit
      have hfb : bflag S (h + 1) (n >>> (h + 1)) =
          (bflag S h (n >>> h - 1) || bflag S h (n >>> h)) := by
        rw [bflag_succ_bool, h2b1, h2b]
      have hq1 : n % 2 ^ (h + 1) ≠ 0 := by
        rw [hmps, hbit, Nat.mul_one]
        have := Nat.two_pow_pos h
        omega
      have hr1 : Ropt H vs padding n (h + 1) =
          some (V H vs padding (h + 1) (n >>> (h + 1))) := by
        rw [Ropt, if_neg hq1]
      have hihs := ih (h + 1) (by omega)
      rw [hr1, hfb] at hihs
      rw [tailLayersAux, hsl, femits, femit, if_pos hbit, emitAt]
      by_cases hq0 : n % 2 ^ h = 0
      · cases d with
        | zero =>
          exfalso
          have hhk : h = bitsLen n - 1 := by omega
          exact hnp (hhk ▸ hq0)
        | succ d' =>
          have hr : Ropt H vs padding n h = none := by rw [Ropt, if_pos hq0]
          have hne : n = 2 ^ h * (n >>> h) := by omega
          have habsR : V H vs padding h (n >>> h) = padding :=
            V_absent H vs padding h _ (by rw [hvsn]; omega)
          have hVo : V H vs padding (h + 1) (n >>> (h + 1)) =
              H.hash (V H vs padding h (n >>> h - 1)) padding := by
            have heq : V H vs padding (h + 1) (n >>> (h + 1)) =
                if 2 ^ (h + 1) * (n >>> (h + 1)) < vs.length then
                  H.hash (V H vs padding h (2 * (n >>> (h + 1))))
                    (V H vs padding h (2 * (n >>> (h + 1)) + 1))
                else padding := rfl
            have hx : 2 ^ (h + 1) * (n >>> (h + 1)) =
                2 ^ h * (2 * (n >>> (h + 1))) := by ring
            have hguard : 2 ^ (h + 1) * (n >>> (h + 1)) < vs.length := by
              rw [hvsn, hx, h2b]
              have hmul : 2 ^ h * (n >>> h - 1) < 2 ^ h * (n >>> h) :=
                (Nat.mul_lt_mul_left (Nat.two_pow_pos h)).2 (by omega)
              omega
            rw [heq, if_pos hguard, h2b1, h2b, habsR]
          rw [hr, rapl_some_none H padding _ _ _ _
            (by rw [tailLayersAux]; exact List.cons_ne_nil _ _), ← hVo, hihs]
          cases hfl : bflag S h (n >>> h - 1) <;>
            cases hfA : bflag S h (n >>> h) <;>
              simp [copyMake_nil, habsR, ← hpad,
                copyMake_of_length (hVlen h (n >>> h - 1))]
      · have hr : Ropt H vs padding n h =
            some (V H vs padding h (n >>> h)) := by rw [Ropt, if_neg hq0]
        have hex : 2 ^ h * (n >>> h) < vs.length := by
          rw [hvsn]
          omega
        have hVo := V_odd H vs padding hbit hex
        have hss : (n >>> h) >>> 1 = n >>> (h + 1) := by
          rw [sr_succ_q n h, Nat.shiftRight_one]
        rw [hss] at hVo
        rw [hr, rapl_some_some, ← hVo, hihs]
        cases hfl : bflag S h (n >>> h - 1) <;>
          cases hfA : bflag S h (n >>> h) <;>
            simp [copyMake_of_length (hVlen h (n >>> h)),
              copyMake_of_length (hVlen h (n >>> h - 1))]

theorem finEms_accum (H : Hasher) (vs : List (List Nat)) (padding : List Nat)
    (S : List Nat) (n : Nat) :
    ∀ d h, finEmsB H vs padding S n h ++ femits H vs padding S n d h =
      finEmsB H vs padding S n (h + d) := by
  intro d
  induction d with
  | zero => intro h; exact List.append_nil _
  | succ d ih =>
    intro h
    have hstep : finEmsB H vs padding S n h ++ femit H vs padding S n h =
        finEmsB H vs padding S n (h + 1) := rfl
    rw [femits, ← List.append_assoc, hstep, ih]
    have he : h + 1 + d = h + (d + 1) := by omega
    rw [he]

theorem bitsLen_pred_eq {n : Nat} (hn : 0 < n)
    (hnp : n % 2 ^ (bitsLen n - 1) ≠ 0) : bitsLen (n - 1) = bitsLen n := by
  have h1 : 1 ≤ bitsLen n := by
    have := (bitsLen_le_iff n 0).1
    by_contra hc
    have h2 : bitsLen n = 0 := by omega
    have h3 : n < 2 ^ 0 := (bitsLen_le_iff n 0).1 (by omega)
    omega
  have hmono : bitsLen (n - 1) ≤ bitsLen n := bitsLen_mono (by omega)
  have hge : ¬ n < 2 ^ (bitsLen n - 1) := by
    intro hc
    have := (bitsLen_le_iff n (bitsLen n - 1)).2 hc
    omega
  have hne : n ≠ 2 ^ (bitsLen n - 1) := by
    intro hc
    refine hnp ?_
    nth_rewrite 1 [hc]
    exact Nat.mod_self _
  have hge2 : ¬ n - 1 < 2 ^ (bitsLen n - 1) := by omega
  have := (bitsLen_le_iff (n - 1) (bitsLen n - 1))
  omega

theorem bitsLen_pred_pow {n : Nat} (hn : 0 < n)
    (hnp : n % 2 ^ (bitsLen n - 1) = 0) :
    n = 2 ^ (bitsLen n - 1) ∧ bitsLen (n - 1) = bitsLen n - 1 := by
  have h1 : 1 ≤ bitsLen n := by
    by_contra hc
    have h3 : n < 2 ^ 0 := (bitsLen_le_iff n 0).1 (by omega)
    omega
  have hlt : n < 2 ^ bitsLen n := lt_two_pow_bitsLen n
  have hge : ¬ n < 2 ^ (bitsLen n - 1) := by
    intro hc
    have := (bitsLen_le_iff n (bitsLen n - 1)).2 hc
    omega
  have hdm := Nat.div_add_mod n (2 ^ (bitsLen n - 1))
  have hq : n / 2 ^ (bitsLen n - 1) = 1 := by
    have hps : 2 ^ bitsLen n = 2 ^ (bitsLen n - 1) * 2 := by
      rw [← pow_succ]
      congr 1
      omega
    have hpos : 0 < 2 ^ (bitsLen n - 1) := Nat.two_pow_pos _
    rcases Nat.lt_or_ge (n / 2 ^ (bitsLen n - 1)) 1 with hx | hx
    · exfalso
      have hz : n / 2 ^ (bitsLen n - 1) = 0 := Nat.lt_one_iff.1 hx
      rw [hz, Nat.mul_zero] at hdm
      omega
    · rcases Nat.lt_or_ge (n / 2 ^ (bitsLen n - 1)) 2 with hy | hy
      · omega
      · exfalso
        have : 2 ^ (bitsLen n - 1) * 2 ≤ 2 ^ (bitsLen n - 1) * (n / 2 ^ (bitsLen n - 1)) :=
          Nat.mul_le_mul_left _ hy
        omega
  have heq : n = 2 ^ (bitsLen n - 1) := by
    rw [hq, Nat.mul_one] at hdm
    omega
  refine ⟨heq, ?_⟩
  have hle : bitsLen (n - 1) ≤ bitsLen n - 1 :=
    (bitsLen_le_iff _ _).2 (by omega)
  rcases Nat.eq_or_lt_of_le hle with hx | hx
  · exact hx
  · -- bitsLen (n-1) < bitsLen n - 1 would force n - 1 < 2^(bitsLen n - 2)
    cases hb : bitsLen n - 1 with
    | zero => omega
    | succ k =>
      exfalso
      have h4 : bitsLen (n - 1) ≤ k := by omega
      have h5 : n - 1 < 2 ^ k := (bitsLen_le_iff _ _).1 h4
      have h6 : 2 ^ (k + 1) = 2 ^ k * 2 := pow_succ 2 k
      have h7 : n = 2 ^ (k + 1) := by rw [← hb]; exact heq
      have h8 : 1 ≤ 2 ^ k := Nat.one_le_two_pow
      omega

theorem rapl_break (H : Hasher) (padding P : List Nat) (fl : Bool) :
    rootAndProofLoop H padding (⟨some P, fl⟩ :: []) none false = (some P, []) := rfl

theorem balancedWalk (H : Hasher) (vs : List (List Nat)) (padding : List Nat)
    (S : List Nat) (n : Nat) (hpow : n = 2 ^ (bitsLen n - 1)) :
    ∀ d h, h + d = bitsLen n → 0 < d → n % 2 ^ h = 0 →
      rootAndProofLoop H padding (tailLayersAux H vs padding S n d h) none false =
        (some (V H vs padding (bitsLen n - 1) 0), []) := by
  have hn1 : 1 ≤ bitsLen n := by
    by_contra hc
    have h2 : bitsLen n = 0 := by omega
    rw [h2] at hpow
    have hlt := lt_two_pow_bitsLen n
    rw [h2] at hlt
    omega
  intro d
  induction d with
  | zero => intro h _ hd0; omega
  | succ d ih =>
    intro h hd _ hq0
    cases d with
    | zero =>
      have hh : h = bitsLen n - 1 := by omega
      have hsr1 : n >>> h = 1 := by
        rw [sr_eq_div_pow, hh]
        nth_rewrite 1 [hpow]
        exact Nat.div_self (Nat.two_pow_pos _)
      have hsl : slotOf H vs padding S n h =
          ⟨some (V H vs padding h 0), bflag S h 0⟩ := by
        rw [slotOf, if_pos (by rw [hsr1]), hsr1]
      rw [tailLayersAux, hsl]
      show rootAndProofLoop H padding (⟨some (V H vs padding h 0), bflag S h 0⟩ :: [])
        none false = _
      rw [rapl_break, hh]
    | succ d' =>
      have hq1 : n % 2 ^ (h + 1) = 0 := by
        have hdvd : (2 : Nat) ^ (h + 1) ∣ 2 ^ (bitsLen n - 1) :=
          pow_dvd_pow 2 (by omega)
        have : (2 : Nat) ^ (h + 1) ∣ n := hpow ▸ hdvd
        omega
      have hbit : (n >>> h) % 2 = 0 := by
        have hb := mod_pow_succ n h
        rw [hq1, hq0] at hb
        have hz : 2 ^ h * (n >>> h % 2) = 0 := by omega
        rcases Nat.mul_eq_zero.1 hz with hx | hx
        · exact absurd hx (Nat.two_pow_pos h).ne.symm
        · exact hx
      have hsl : slotOf H vs padding S n h = ⟨none, false⟩ := by
        rw [slotOf, if_neg (by omega)]
      rw [tailLayersAux, hsl, rapl_none_none, ih (h + 1) (by omega) (by omega) hq1]
      rfl

theorem rootAndProof_simple (H : Hasher) (padding : List Nat) (t : Tree)
    (hmh : t.minHeight = 0) (hpe : t.proofEnabled = true) :
    Tree.RootAndProof H padding t =
      ((rootAndProofLoop H padding t.layers none false).1.getD [],
        t.proof ++ (rootAndProofLoop H padding t.layers none false).2) := by
  simp [Tree.RootAndProof, Tree.RootAndProofS, hmh, hpe, hashPad]

theorem builderProduces (H : Hasher) (vs : List (List Nat)) (padding : List Nat)
    (S : List Nat)
    (hn : 0 < vs.length) (hSn : ∀ s ∈ S, s < vs.length) (hS : S ≠ [])
    (hSs : S.Pairwise (· < ·))
    (hpad : padding = List.replicate H.size 0)
    (hHs : ∀ a b, (H.hash a b).length = H.size)
    (hvl : ∀ v ∈ vs, v.length = H.size) :
    Tree.RootAndProof H padding (Tree.addAll H (Tree.build 0 S) vs) =
      (V H vs padding (bitsLen (vs.length - 1)) 0,
        pstream H vs padding S (bitsLen (vs.length - 1)) 0) := by
  have hbuild := buildInv H vs padding S hSs vs.length (Nat.le_refl _)
  rw [List.take_length] at hbuild
  rw [hbuild, rootAndProof_simple H padding _ rfl (decide_eq_true hS)]
  have hlay : layersOf H vs padding S vs.length =
      tailLayersAux H vs padding S vs.length (bitsLen vs.length) 0 := by
    rw [layersOf, if_neg (by omega)]
  by_cases hnp : vs.length % 2 ^ (bitsLen vs.length - 1) = 0
  · -- balanced: the walk breaks at the last layer with the parked root
    obtain ⟨hpow, hblp⟩ := bitsLen_pred_pow hn hnp
    have hK1 : 1 ≤ bitsLen vs.length := by
      by_contra hc
      have h3 : vs.length < 2 ^ 0 := (bitsLen_le_iff _ 0).1 (by omega)
      omega
    have hwalk := balancedWalk H vs padding S vs.length hpow (bitsLen vs.length) 0
      (by omega) (by omega) (by simp [Nat.mod_one])
    show ((rootAndProofLoop H padding (layersOf H vs padding S vs.length) none false).1.getD [],
      addStream H vs padding S vs.length ++
        (rootAndProofLoop H padding (layersOf H vs padding S vs.length) none false).2) = _
    rw [hlay, hwalk]
    have hm := addStream_step H vs padding S (vs.length - 1) (bitsLen vs.length - 1)
      (by
        have hlt : vs.length - 1 < 2 ^ (bitsLen vs.length - 1) := by omega
        rw [Nat.mod_eq_of_lt hlt]
        omega)
      (by
        have hlt : vs.length - 1 < 2 ^ (bitsLen vs.length - 1) := by omega
        rw [sr_zero hlt])
    have hmn : vs.length - 1 + 1 = vs.length := by omega
    rw [hmn] at hm
    have hbl1 : bitsLen (vs.length - 1) = bitsLen vs.length - 1 := hblp
    have hstream : addStream H vs padding S (vs.length - 1) =
        fragsBelow H vs padding S (vs.length - 1) (bitsLen vs.length - 1) := by
      rw [addStream, hbl1]
    have hcarry := pstream_carry H vs padding S (vs.length - 1) (bitsLen vs.length - 1)
      (by
        have hlt : vs.length - 1 < 2 ^ (bitsLen vs.length - 1) := by omega
        rw [Nat.mod_eq_of_lt hlt]
        omega)
    have hsr0 : (vs.length - 1) >>> (bitsLen vs.length - 1) = 0 :=
      sr_zero (by omega)
    rw [hsr0] at hcarry
    show (V H vs padding (bitsLen vs.length - 1) 0,
      addStream H vs padding S vs.length ++ []) = _
    rw [List.append_nil, hm, hstream, ← hcarry, hbl1]
  · -- unbalanced: the walk consumes every layer
    have hble := bitsLen_pred_eq hn hnp
    have hwalk := finWalk H vs padding S vs.length hn rfl hSn hnp hpad hHs hvl
      (bitsLen vs.length) 0 (by omega)
    rw [Ropt, if_pos (show vs.length % 2 ^ 0 = 0 from by
        rw [pow_zero]
        exact Nat.mod_one _),
      Nat.shiftRight_zero, bflag_zero,
      decide_eq_false (fun hc => absurd (hSn _ hc) (lt_irrefl _))] at hwalk
    show ((rootAndProofLoop H padding (layersOf H vs padding S vs.length) none false).1.getD [],
      addStream H vs padding S vs.length ++
        (rootAndProofLoop H padding (layersOf H vs padding S vs.length) none false).2) = _
    rw [hlay, hwalk]
    have hfe := finEms_accum H vs padding S vs.length (bitsLen vs.length) 0
    have hnil : finEmsB H vs padding S vs.length 0 = [] := rfl
    rw [hnil, List.nil_append, Nat.zero_add] at hfe
    have hfin := pstream_fin H vs padding S vs.length hSn (bitsLen vs.length)
    have hsr0 : vs.length >>> bitsLen vs.length = 0 :=
      sr_zero (lt_two_pow_bitsLen _)
    rw [hsr0] at hfin
    show (V H vs padding (bitsLen vs.length) 0,
      addStream H vs padding S vs.length ++
        femits H vs padding S vs.length (bitsLen vs.length) 0) = _
    rw [hfe]
    show (V H vs padding (bitsLen vs.length) 0,
      fragsBelow H vs padding S vs.length (bitsLen vs.length) ++
        finEmsB H vs padding S vs.length (bitsLen vs.length)) = _
    rw [← hfin, hble]

end RoundTripDevelopment

namespace Merkle

/-- C1: Round-trip: for every leaf sequence `vs` of length `n ≥ 1` (leaf
values sized to the node hasher, default zero padding, default
value-passthrough leaf hasher) and every non-empty strictly sorted subset
`S` of `{0..n-1}`, building a tree configured with `leavesToProve = S`
(`minHeight` 0), calling `Add` once per leaf in order, taking
`(root, proof)` from `RootAndProof`, and then calling
`ValidateProof root (leaves restricted to S) proof` with the same hashers
returns `(true, nil)`. -/
theorem roundTripValidates (H : Hasher) (lh : LeafHasher) (vs : List (List Nat))
    (padding : List Nat) (S : List Nat)
    (hseq : lh.sequential = false) (hleaf : ∀ d p, lh.hash d p = d)
    (hn : 1 ≤ vs.length) (hn64 : vs.length ≤ MaxUint64)
    (hS : S ≠ []) (hSs : S.Pairwise (· < ·)) (hSn : ∀ s ∈ S, s < vs.length)
    (hpad : padding = List.replicate H.size 0)
    (hHs : ∀ a b, (H.hash a b).length = H.size)
    (hvl : ∀ v ∈ vs, v.length = H.size) :
    ValidateProof H lh
      (Tree.RootAndProof H padding (Tree.addAll H (Tree.build 0 S) vs)).1
      (S.map (fun i => (i, vs.getD i [])))
      (Tree.RootAndProof H padding (Tree.addAll H (Tree.build 0 S) vs)).2 =
      .ok true := by
  rw [builderProduces H vs padding S (by omega) hSn hS hSs hpad hHs hvl]
  exact validatorAccepts H lh vs padding S hseq hleaf hSn hS hSs hn hn64

/-- Concrete round-trip instance: one leaf `[0]`, proving set `{0}`, a
constant node hasher of size 1. -/
theorem roundTripValidates_witness :
    (ValueLeafs 1).sequential = false ∧
    ValidateProof ⟨fun _ _ => [0], 1⟩ (ValueLeafs 1)
      (Tree.RootAndProof ⟨fun _ _ => [0], 1⟩ [0]
        (Tree.addAll ⟨fun _ _ => [0], 1⟩ (Tree.build 0 [0]) [[0]])).1
      ([0].map (fun i => (i, [[0]].getD i [])))
      (Tree.RootAndProof ⟨fun _ _ => [0], 1⟩ [0]
        (Tree.addAll ⟨fun _ _ => [0], 1⟩ (Tree.build 0 [0]) [[0]])).2 =
      .ok true :=
  ⟨rfl, roundTripValidates ⟨fun _ _ => [0], 1⟩ (ValueLeafs 1) [[0]] [0] [0]
    rfl (fun d p => rfl) (by decide) (by norm_num [MaxUint64]) (by decide)
    (by decide) (by decide) rfl (fun a b => rfl) (by decide)⟩

end Merkle
